import Mathlib

/-!
# FluxBase block codec: a shallow embedding

The development follows `src/src/codec.cpp`, `src/src/cli.cpp` and `src/src/main.cpp`.

Conventions of the embedding.

* A byte (`std::uint8_t`, `char` read as `unsigned char`) is a natural number below 256;
  byte strings and `std::vector<std::uint8_t>` are `List Nat`.  Explicit narrowing casts
  of the source (`static_cast<std::uint8_t>`, `static_cast<std::uint32_t>`) are kept as
  `% 256` and `% 2 ^ 32`.
* `std::size_t` and `std::uint64_t` quantities are plain naturals.  For every charset that
  `build_charset` returns the radix is at most 256 and no intermediate value of the block
  codec reaches `2 ^ 17`, so no word-size wrap-around takes place.
* A thrown `std::runtime_error` is `Failure.runtime_error` carrying the `what()` text.
  Reading `symbols[i]` with `i` not below `symbols.size()` is `Failure.out_of_range`, and a
  `while` loop that has not finished when its fuel is spent is `Failure.out_of_fuel`.
  Neither of the last two is raised by the source; they mark runs that leave the defined
  behaviour of the program, and the theorems show they do not occur.
* `compute_output_length` evaluates `ceil(8 * b / log2(radix))` in double precision
  (`std::log2`, a rounded division, `std::ceil` and two conversions).  Natural-number
  arithmetic does not express that value, so the function is not defined here: `encode_file`,
  `decode_file`, `run` and `main`, which call it, take it as the parameter
  `compute_output_length`, and the theorems assume of it only what they state.  The exact
  ceiling is the separate reference definition `least_output_length`.
* Two paths may name one file.  `Files.same_file` records that; a path is always the same
  file as itself.
-/

namespace fluxbase

/-- Ways in which a run of the embedded code stops without a value. -/
inductive Failure where
  | runtime_error (what : String)
  | out_of_range
  | out_of_fuel
deriving DecidableEq, Repr

deriving instance DecidableEq for Except

/-- Result of a computation that may throw. -/
abbrev Result (α : Type) := Except Failure α

/-- Mirror of `struct Charset` (codec.hpp). -/
structure Charset where
  symbols : List Nat
  radix : Nat
  effective_radix : Nat
  bits_per_symbol : Nat
  pow2 : Bool
deriving DecidableEq, Repr

/-- Mirror of `struct Metadata` (codec.hpp); the four integer fields are `std::uint32_t`. -/
structure Metadata where
  version : Nat
  block_size : Nat
  output_length : Nat
  charset_length : Nat
  pow2 : Bool
  charset : List Nat
deriving DecidableEq, Repr

/-- The `std::string::find` lookup of `index_in_charset`: first position of `c`, or a throw. -/
def index_in_charset (c : Nat) (charset : List Nat) : Result Nat :=
  let pos := charset.indexOf c
  if pos < charset.length then .ok pos
  else .error (.runtime_error "Invalid symbol in encoded stream")

/-- The `while` loop of `log2_floor`, `p` being the running exponent. -/
def log2_floor_loop (n : Nat) : Nat → Nat → Nat
  | 0, p => p
  | fuel + 1, p => if (1 <<< (p + 1)) ≤ n then log2_floor_loop n fuel (p + 1) else p

/-- Embedding of `log2_floor`; the loop body runs fewer than `n` times, so fuel `n` is never
spent. -/
def log2_floor (n : Nat) : Nat :=
  log2_floor_loop n n 0

/-- Embedding of `strip_leading_zeroes`: drop the zero bytes at the front. -/
def strip_leading_zeroes (v : List Nat) : List Nat :=
  v.dropWhile (fun b => b == 0)

/-- The `for` loop of `divide_bigint`: the quotient bytes written back and the final carry.
The radix is positive on every call (256, or the effective radix of a charset). -/
def divide_digits (radix : Nat) : Nat → List Nat → List Nat × Nat
  | carry, [] => ([], carry)
  | carry, byte :: rest =>
    let cur := (carry <<< 8) ||| byte
    let r := divide_digits radix (cur % radix) rest
    ((cur / radix) % 256 :: r.1, r.2)

/-- Embedding of `divide_bigint`: the new value of `num` and the returned remainder. -/
def divide_bigint (num : List Nat) (radix : Nat) : List Nat × Nat :=
  let r := divide_digits radix 0 num
  (strip_leading_zeroes r.1, r.2)

/-- One iteration of the right-to-left `for` loop of `multiply_add`. -/
def multiply_step (radix : Nat) (byte : Nat) (st : List Nat × Nat) : List Nat × Nat :=
  let cur := byte * radix + st.2
  ((cur &&& 0xFF) :: st.1, cur >>> 8)

/-- The `while (carry > 0)` loop of `multiply_add`, inserting at the front of `num`. -/
def insert_carry : Nat → Nat → List Nat → List Nat
  | 0, _, num => num
  | fuel + 1, carry, num =>
    if carry > 0 then insert_carry fuel (carry >>> 8) ((carry &&& 0xFF) :: num) else num

/-- Embedding of `multiply_add`.  The carry loop shifts `carry` right by eight bits each
round, so `carry` rounds of fuel are never spent. -/
def multiply_add (num : List Nat) (radix add : Nat) : List Nat :=
  let r := num.foldr (multiply_step radix) ([], add)
  insert_carry r.2 r.2 r.1

/-- Embedding of `bigint_from_bytes`. -/
def bigint_from_bytes (bytes : List Nat) : List Nat :=
  let stripped := strip_leading_zeroes bytes
  if stripped.isEmpty then [0] else stripped

/-- The `for` loop of `bigint_to_bytes`: `n` iterations remain, `i` is the loop counter. -/
def bigint_to_bytes_loop (out_size : Nat) : Nat → Nat → List Nat → List Nat → List Nat
  | 0, _, _, out => out
  | n + 1, i, num, out =>
    let r := divide_bigint num 256
    let out1 := out.set (out_size - 1 - i) (r.2 % 256)
    if r.1.isEmpty then out1 else bigint_to_bytes_loop out_size n (i + 1) r.1 out1

/-- Embedding of `bigint_to_bytes`. -/
def bigint_to_bytes (num : List Nat) (out_size : Nat) : List Nat :=
  bigint_to_bytes_loop out_size out_size 0 num (List.replicate out_size 0)

/-- Read `symbols[i]` in range. -/
def symbol_at (symbols : List Nat) (i : Nat) : Result Nat :=
  match symbols[i]? with
  | some s => .ok s
  | none => .error .out_of_range

/-- Loop state of `encode_block_pow2`. -/
structure BitState where
  digits : List Nat
  acc : Nat
  acc_bits : Nat
deriving DecidableEq, Repr

/-- Body of the inner `for (bit = 7; bit >= 0; --bit)` loop of `encode_block_pow2`. -/
def pow2_bit_step (symbols : List Nat) (k b bit : Nat) (st : BitState) : Result BitState :=
  let acc := (st.acc <<< 1) ||| ((b >>> bit) &&& 1)
  let acc_bits := st.acc_bits + 1
  if acc_bits = k then
    match symbol_at symbols acc with
    | .ok s => .ok ⟨st.digits ++ [s], 0, 0⟩
    | .error e => .error e
  else .ok ⟨st.digits, acc, acc_bits⟩

/-- The inner loop of `encode_block_pow2` over the listed bit positions of byte `b`. -/
def pow2_bits (symbols : List Nat) (k b : Nat) : List Nat → BitState → Result BitState
  | [], st => .ok st
  | bit :: rest, st =>
    match pow2_bit_step symbols k b bit st with
    | .ok st1 => pow2_bits symbols k b rest st1
    | .error e => .error e

/-- The outer loop of `encode_block_pow2` over the bytes of the block. -/
def pow2_bytes (symbols : List Nat) (k : Nat) : List Nat → BitState → Result BitState
  | [], st => .ok st
  | b :: rest, st =>
    match pow2_bits symbols k b [7, 6, 5, 4, 3, 2, 1, 0] st with
    | .ok st1 => pow2_bytes symbols k rest st1
    | .error e => .error e

/-- The trailing `if (acc_bits > 0)` of `encode_block_pow2`. -/
def pow2_flush (symbols : List Nat) (k : Nat) (st : BitState) : Result (List Nat) :=
  if st.acc_bits > 0 then
    match symbol_at symbols (st.acc <<< (k - st.acc_bits)) with
    | .ok s => .ok (st.digits ++ [s])
    | .error e => .error e
  else .ok st.digits

/-- The `while (digits.size() < output_length)` loop of `encode_block_pow2`, which inserts
`symbols[0]` at the front. -/
def pad_front (symbols : List Nat) (output_length : Nat) (digits : List Nat) :
    Result (List Nat) :=
  if digits.length < output_length then
    match symbol_at symbols 0 with
    | .ok z => .ok (List.replicate (output_length - digits.length) z ++ digits)
    | .error e => .error e
  else .ok digits

/-- Embedding of `encode_block_pow2`; `data` holds the `bytes` bytes of the block. -/
def encode_block_pow2 (data : List Nat) (charset : Charset) (output_length : Nat) :
    Result (List Nat) :=
  match pow2_bytes charset.symbols charset.bits_per_symbol data ⟨[], 0, 0⟩ with
  | .error e => .error e
  | .ok st =>
    match pow2_flush charset.symbols charset.bits_per_symbol st with
    | .error e => .error e
    | .ok digits => pad_front charset.symbols output_length digits

/-- The `while (!num.empty())` loop of `encode_block_general`. -/
def general_digits (symbols : List Nat) (radix : Nat) : Nat → List Nat → List Nat →
    Result (List Nat)
  | 0, num, digits => if num.isEmpty then .ok digits else .error .out_of_fuel
  | fuel + 1, num, digits =>
    if num.isEmpty then .ok digits
    else
      let r := divide_bigint num radix
      match symbol_at symbols r.2 with
      | .ok s => general_digits symbols radix fuel r.1 (digits ++ [s])
      | .error e => .error e

/-- The `while (digits.size() < output_length)` loop of `encode_block_general`, which
appends `symbols[0]`. -/
def pad_back (symbols : List Nat) (output_length : Nat) (digits : List Nat) :
    Result (List Nat) :=
  if digits.length < output_length then
    match symbol_at symbols 0 with
    | .ok z => .ok (digits ++ List.replicate (output_length - digits.length) z)
    | .error e => .error e
  else .ok digits

/-- The `if`/`else` of `encode_block_general` that fills `digits` from the big integer,
least significant digit first.  Every division by a radix of at least 2 halves the number,
which is below `2 ^ (8 * num.size())`, so the fuel `8 * num.size()` is enough. -/
def general_block_digits (num : List Nat) (charset : Charset) : Result (List Nat) :=
  if num.length = 1 ∧ num.head? = some 0 then
    match symbol_at charset.symbols 0 with
    | .ok z => .ok [z]
    | .error e => .error e
  else general_digits charset.symbols charset.effective_radix (8 * num.length) num []

/-- Embedding of `encode_block_general`; `data` holds the `bytes` bytes of the block. -/
def encode_block_general (data : List Nat) (charset : Charset) (output_length : Nat) :
    Result (List Nat) :=
  match general_block_digits (bigint_from_bytes data) charset with
  | .error e => .error e
  | .ok ds =>
    match pad_back charset.symbols output_length ds with
    | .error e => .error e
    | .ok padded => .ok padded.reverse

/-- The bits pushed for one symbol index by `decode_block_pow2`, positions `k-1` down to 0. -/
def symbol_bits (k idx : Nat) : List Bool :=
  ((List.range k).reverse).map (fun bit => decide ((idx >>> bit) &&& 1 = 1))

/-- First loop of `decode_block_pow2`: the bit vector of the chunk. -/
def chunk_bits (charset : Charset) : List Nat → Result (List Bool)
  | [] => .ok []
  | c :: rest =>
    match index_in_charset c charset.symbols with
    | .error e => .error e
    | .ok idx =>
      match chunk_bits charset rest with
      | .error e => .error e
      | .ok bits => .ok (symbol_bits charset.bits_per_symbol idx ++ bits)

/-- Body of the repacking loop of `decode_block_pow2` at counter `i`. -/
def pack_step (bits : List Bool) (start : Nat) (out : List Nat) (i : Nat) : List Nat :=
  let bit_index := start + i
  let byte_index := i / 8
  let bit_offset := 7 - (i % 8)
  out.set byte_index
    ((out.getD byte_index 0) ||| (((bits.getD bit_index false).toNat <<< bit_offset) % 256))

/-- Embedding of `decode_block_pow2`. -/
def decode_block_pow2 (chunk : List Nat) (block_bytes : Nat) (charset : Charset) :
    Result (List Nat) :=
  match chunk_bits charset chunk with
  | .error e => .error e
  | .ok bits =>
    let needed_bits := block_bytes * 8
    if bits.length < needed_bits then
      .error (.runtime_error "Encoded block shorter than expected")
    else
      let start := bits.length - needed_bits
      .ok ((List.range needed_bits).foldl (pack_step bits start) (List.replicate block_bytes 0))

/-- The symbol loop of `decode_block_general`, `num` being the running big integer. -/
def general_accumulate (charset : Charset) : List Nat → List Nat → Result (List Nat)
  | [], num => .ok num
  | c :: rest, num =>
    match index_in_charset c charset.symbols with
    | .error e => .error e
    | .ok idx => general_accumulate charset rest (multiply_add num charset.effective_radix idx)

/-- Embedding of `decode_block_general`. -/
def decode_block_general (chunk : List Nat) (block_bytes : Nat) (charset : Charset) :
    Result (List Nat) :=
  match general_accumulate charset chunk [0] with
  | .error e => .error e
  | .ok num => .ok (bigint_to_bytes num block_bytes)

/-- The deduplication loop of `build_charset`: `seen` is the 256-entry flag vector. -/
def dedup_loop : List Nat → List Bool → List Nat → List Nat
  | [], _, unique => unique
  | c :: rest, seen, unique =>
    let ch := c % 256
    if seen.getD ch false then dedup_loop rest seen unique
    else dedup_loop rest (seen.set ch true) (unique ++ [ch])

/-- Embedding of `build_charset`. -/
def build_charset (raw : List Nat) (pow2 : Bool) : Result Charset :=
  let unique := dedup_loop raw (List.replicate 256 false) []
  if unique.length < 2 then
    .error (.runtime_error "Charset must contain at least 2 unique symbols")
  else if pow2 then
    let pow := log2_floor unique.length
    let effective_radix := 1 <<< pow
    .ok ⟨unique.take effective_radix, unique.length, effective_radix, pow, true⟩
  else
    .ok ⟨unique, unique.length, unique.length, 0, false⟩

/-- Block encoder as dispatched by `encode_file` on `charset.pow2`. -/
def encode_block (charset : Charset) (output_length : Nat) (block : List Nat) :
    Result (List Nat) :=
  if charset.pow2 then encode_block_pow2 block charset output_length
  else encode_block_general block charset output_length

/-- Block decoder as dispatched by `decode_file` on `charset.pow2`. -/
def decode_block (charset : Charset) (block_size : Nat) (chunk : List Nat) :
    Result (List Nat) :=
  if charset.pow2 then decode_block_pow2 chunk block_size charset
  else decode_block_general chunk block_size charset

/-- The read/encode/write loop of `encode_file` over the unread input; the value is what the
loop writes.  Each round reads `block_size ≥ 1` bytes (fewer at the end of the file), so one
unit of fuel per input byte is never spent. -/
def encode_loop (charset : Charset) (block_size output_length : Nat) :
    Nat → List Nat → Result (List Nat)
  | 0, input => if input.isEmpty then .ok [] else .error .out_of_fuel
  | fuel + 1, input =>
    let buffer := input.take block_size
    let got := buffer.length
    if got ≤ 0 then .ok []
    else
      match encode_block charset output_length buffer with
      | .error e => .error e
      | .ok encoded =>
        match encode_loop charset block_size output_length fuel (input.drop block_size) with
        | .error e => .error e
        | .ok written => .ok (encoded ++ written)

/-- The read/decode/write loop of `decode_file` over the unread input; the value is what the
loop writes.  A round that does not stop reads `output_length ≥ 1` bytes. -/
def decode_loop (charset : Charset) (block_size output_length : Nat) :
    Nat → List Nat → Result (List Nat)
  | 0, input =>
    if input.isEmpty ∨ output_length = 0 then .ok [] else .error .out_of_fuel
  | fuel + 1, input =>
    let chunk := input.take output_length
    let got := chunk.length
    if got = 0 then .ok []
    else if got ≠ output_length then
      .error (.runtime_error "Partial block encountered during decode")
    else
      match decode_block charset block_size chunk with
      | .error e => .error e
      | .ok decoded =>
        match decode_loop charset block_size output_length fuel (input.drop output_length) with
        | .error e => .error e
        | .ok written => .ok (decoded ++ written)

/-- The four bytes of a `std::uint32_t` in memory on a little-endian host. -/
def u32_bytes (x : Nat) : List Nat :=
  [x % 256, (x / 256) % 256, (x / 65536) % 256, (x / 16777216) % 256]

/-- The `std::uint32_t` stored in four bytes of memory on a little-endian host. -/
def u32_value (bs : List Nat) : Nat :=
  bs.getD 0 0 + 256 * bs.getD 1 0 + 65536 * bs.getD 2 0 + 16777216 * bs.getD 3 0

/-- The bytes of `kMagic`: `F`, `L`, `X`, `B`. -/
def kMagic : List Nat := [70, 76, 88, 66]

/-- The constant `kVersion`. -/
def kVersion : Nat := 1

/-- Object size of `struct HeaderBinary`.  The struct is declared without packing, so on the
usual ABIs (x86-64, AArch64; `alignof(std::uint32_t) = 4`) three padding bytes follow the
one-byte `pow2` member: `magic` at 0, `version` at 4, `pow2` at 8, `block_size` at 12,
`output_length` at 16, `charset_length` at 20. -/
def header_size : Nat := 24

/-- Embedding of `write_header`: the bytes appended to the output.  The object is
brace-initialised, its padding bytes are taken as zero. -/
def write_header (meta : Metadata) : List Nat :=
  kMagic ++ u32_bytes kVersion ++ [if meta.pow2 then 1 else 0] ++ [0, 0, 0]
    ++ u32_bytes (meta.block_size % 2 ^ 32) ++ u32_bytes (meta.output_length % 2 ^ 32)
    ++ u32_bytes (meta.charset.length % 2 ^ 32) ++ meta.charset

/-- Embedding of `read_header`: the metadata and the unread rest of the input. -/
def read_header (input : List Nat) : Result (Metadata × List Nat) :=
  let h := input.take header_size
  if h.length ≠ header_size then .error (.runtime_error "Failed to read header")
  else if h.take 4 ≠ kMagic then .error (.runtime_error "Invalid header magic")
  else
    let version := u32_value ((h.drop 4).take 4)
    if version ≠ kVersion then .error (.runtime_error "Unsupported version")
    else
      let charset_length := u32_value ((h.drop 20).take 4)
      let rest := input.drop header_size
      let charset := rest.take charset_length
      if charset.length ≠ charset_length then
        .error (.runtime_error "Incomplete charset in header")
      else
        .ok (⟨version, u32_value ((h.drop 12).take 4), u32_value ((h.drop 16).take 4),
          charset_length, decide (h.getD 8 0 ≠ 0), charset⟩, rest.drop charset_length)

/-- The files a run can see: the bytes of each file that can be opened for reading, whether
a path can be opened for writing, and whether two different paths name the same file. -/
structure Files where
  read : String → Option (List Nat)
  can_write : String → Bool
  same_file : String → String → Bool

/-- What the input stream yields once the output stream has been opened with
`std::ios::trunc`: opening the output empties the file before the first read, so an input
that is the same file as the output is read as empty. -/
def input_after_truncate (fs : Files) (input_path output_path : String)
    (content : List Nat) : List Nat :=
  if input_path = output_path ∨ fs.same_file input_path output_path then [] else content

/-- Embedding of `encode_file`; the value is the content written to `output_path`.  The
parameter `compute_output_length` is the function of that name in the source. -/
def encode_file (compute_output_length : Nat → Nat → Nat) (fs : Files)
    (input_path output_path : String) (charset : Charset)
    (block_size : Nat) (write_header_flag : Bool) : Result (List Nat) :=
  if block_size = 0 then .error (.runtime_error "Block size must be positive")
  else
    match fs.read input_path with
    | none => .error (.runtime_error ("Cannot open input file: " ++ input_path))
    | some content =>
      if ¬ fs.can_write output_path then
        .error (.runtime_error ("Cannot open output file: " ++ output_path))
      else
        let input := input_after_truncate fs input_path output_path content
        let output_length := compute_output_length block_size charset.effective_radix
        let header : List Nat :=
          if write_header_flag then
            write_header ⟨1, block_size % 2 ^ 32, output_length % 2 ^ 32,
              charset.symbols.length % 2 ^ 32, charset.pow2, charset.symbols⟩
          else []
        match encode_loop charset block_size output_length input.length input with
        | .error e => .error e
        | .ok payload => .ok (header ++ payload)

/-- Embedding of `decode_file`; the value is the content written to `output_path`.  The
parameter `compute_output_length` is the function of that name in the source. -/
def decode_file (compute_output_length : Nat → Nat → Nat) (fs : Files)
    (input_path output_path : String)
    (charset_override : Option Charset) (block_size_override : Nat)
    (header_expected : Bool) : Result (List Nat) :=
  match fs.read input_path with
  | none => .error (.runtime_error ("Cannot open input file: " ++ input_path))
  | some content =>
    if ¬ fs.can_write output_path then
      .error (.runtime_error ("Cannot open output file: " ++ output_path))
    else
      let input := input_after_truncate fs input_path output_path content
      if header_expected then
        match read_header input with
        | .error e => .error e
        | .ok (meta, rest) =>
          match build_charset meta.charset meta.pow2 with
          | .error e => .error e
          | .ok charset =>
            decode_loop charset meta.block_size meta.output_length rest.length rest
      else
        match charset_override with
        | none => .error (.runtime_error "Charset required when header is absent")
        | some charset =>
          if block_size_override = 0 then
            .error (.runtime_error "Block size required when header is absent")
          else
            decode_loop charset block_size_override
              (compute_output_length block_size_override charset.effective_radix)
              input.length input

/-- Mirror of `enum class Mode` (cli.hpp). -/
inductive Mode where
  | Encode
  | Decode
deriving DecidableEq, Repr

/-- Mirror of `struct Options` (cli.hpp). -/
structure Options where
  mode : Mode
  input_path : String
  output_path : String
  charset : String
  pow2 : Bool
  no_header : Bool
  block_size : Nat
  charset_provided : Bool
deriving DecidableEq, Repr

/-- The member initialisers of `struct Options`, with the given mode. -/
def default_options (mode : Mode) : Options :=
  ⟨mode, "", "", "", false, false, 8, false⟩

/-- The white-space characters skipped by `std::stoul` in the "C" locale. -/
def is_space (c : Char) : Bool :=
  c.toNat = 32 ∨ (9 ≤ c.toNat ∧ c.toNat ≤ 13)

/-- Modelled library routine `std::stoul(value, &idx, 10)` for a 64-bit `unsigned long`:
white space, an optional sign, then decimal digits; the value and `idx` on success, `none`
where the routine throws (`std::invalid_argument` without a digit, `std::out_of_range` when
the digits exceed the type). A leading minus sign negates within the unsigned type. -/
def stoul (value : String) : Option (Nat × Nat) :=
  let cs := value.toList
  let ws := cs.takeWhile is_space
  let body := cs.drop ws.length
  let negative := decide (body.head? = some (Char.ofNat 45))
  let signed := decide (body.head? = some (Char.ofNat 43)) || negative
  let tail := if signed then body.drop 1 else body
  let digits := tail.takeWhile Char.isDigit
  let magnitude := digits.foldl (fun a d => 10 * a + (d.toNat - 48)) 0
  if digits.isEmpty then none
  else if 2 ^ 64 ≤ magnitude then none
  else some (if negative then (2 ^ 64 - magnitude) % 2 ^ 64 else magnitude,
    ws.length + (if signed then 1 else 0) + digits.length)

/-- Embedding of `parse_size`. -/
def parse_size (value : String) : Result Nat :=
  match stoul value with
  | none => .error (.runtime_error ("Invalid numeric value: " ++ value))
  | some (parsed, idx) =>
    if idx ≠ value.length then .error (.runtime_error ("Invalid numeric value: " ++ value))
    else .ok parsed

/-- The option loop of `parse_args` over the arguments after the mode word. -/
def parse_options : List String → Options → Result Options
  | [], opts => .ok opts
  | [tok], opts =>
    if tok = "--input" ∨ tok = "-i" ∨ tok = "--output" ∨ tok = "-o" ∨ tok = "--charset"
        ∨ tok = "-c" ∨ tok = "--block" ∨ tok = "-b" then
      .error (.runtime_error ("Missing value for " ++ tok))
    else if tok = "--pow2" then .ok { opts with pow2 := true }
    else if tok = "--no-header" then .ok { opts with no_header := true }
    else .error (.runtime_error ("Unknown option: " ++ tok))
  | tok :: value :: rest, opts =>
    if tok = "--input" ∨ tok = "-i" then
      parse_options rest { opts with input_path := value }
    else if tok = "--output" ∨ tok = "-o" then
      parse_options rest { opts with output_path := value }
    else if tok = "--charset" ∨ tok = "-c" then
      parse_options rest { opts with charset := value, charset_provided := true }
    else if tok = "--pow2" then parse_options (value :: rest) { opts with pow2 := true }
    else if tok = "--block" ∨ tok = "-b" then
      match parse_size value with
      | .error e => .error e
      | .ok n => parse_options rest { opts with block_size := n }
    else if tok = "--no-header" then
      parse_options (value :: rest) { opts with no_header := true }
    else .error (.runtime_error ("Unknown option: " ++ tok))

/-- Embedding of `parse_args`. -/
def parse_args (args : List String) : Result Options :=
  match args with
  | [] => .error (.runtime_error "Usage: fluxbase <encode|decode> [options]")
  | mode :: rest =>
    if mode ≠ "encode" ∧ mode ≠ "decode" then
      .error (.runtime_error "First argument must be 'encode' or 'decode'")
    else
      match parse_options rest (default_options (if mode = "encode" then .Encode else .Decode)) with
      | .error e => .error e
      | .ok opts =>
        if opts.input_path.isEmpty ∨ opts.output_path.isEmpty then
          .error (.runtime_error "--input and --output are required")
        else if opts.mode = .Encode then
          if ¬ opts.charset_provided then
            .error (.runtime_error "--charset is required in encode mode")
          else .ok opts
        else if opts.no_header ∧ ¬ opts.charset_provided then
          .error (.runtime_error "--charset is required for decode when --no-header is set")
        else if opts.block_size = 0 then .error (.runtime_error "--block must be positive")
        else .ok opts

/-- The bytes of a command-line string: its UTF-8 encoding. -/
def string_bytes (s : String) : List Nat :=
  s.toList.flatMap (fun c => (String.utf8EncodeChar c).map UInt8.toNat)

/-- What a run of the program leaves behind: exit status, text on standard error, and the
output file written by a successful run. -/
structure Outcome where
  status : Nat
  stderr : String
  written : Option (String × List Nat)
deriving DecidableEq, Repr

/-- The `try` block of `main`: `args` are `argv[1]` onwards. -/
def run (compute_output_length : Nat → Nat → Nat) (fs : Files) (args : List String) :
    Result (String × List Nat) :=
  match parse_args args with
  | .error e => .error e
  | .ok options =>
    match build_charset (string_bytes options.charset) options.pow2 with
    | .error e => .error e
    | .ok charset =>
      if options.mode = .Encode then
        match encode_file compute_output_length fs options.input_path options.output_path
            charset options.block_size (!options.no_header) with
        | .error e => .error e
        | .ok out => .ok (options.output_path, out)
      else
        let charset_ptr := if options.charset_provided then some charset else none
        match decode_file compute_output_length fs options.input_path options.output_path
            charset_ptr options.block_size (!options.no_header) with
        | .error e => .error e
        | .ok out => .ok (options.output_path, out)

/-- Embedding of `main`: a caught exception prints `Error: ` and its text and exits with
status 1; otherwise the status is 0. -/
def main (compute_output_length : Nat → Nat → Nat) (fs : Files) (args : List String) :
    Result Outcome :=
  match run compute_output_length fs args with
  | .ok w => .ok ⟨0, "", some w⟩
  | .error (.runtime_error what) => .ok ⟨1, "Error: " ++ what ++ "\n", none⟩
  | .error e => .error e

/-- Reference normalisation of a raw alphabet, following the words of the specification:
walking left to right, a byte is kept exactly when it does not occur among the bytes
`before` it. -/
def first_occurrences_from (before : List Nat) : List Nat → List Nat
  | [] => []
  | c :: rest =>
    if c ∈ before then first_occurrences_from (before ++ [c]) rest
    else c :: first_occurrences_from (before ++ [c]) rest

/-- Reference normalisation `U` of the specification: every byte kept only at its first
occurrence, in original order. -/
def first_occurrences (raw : List Nat) : List Nat :=
  first_occurrences_from [] raw

/-- Linear search for the least `L` at or above the start with `target ≤ radix ^ L`. -/
def output_length_search (target radix : Nat) : Nat → Nat → Nat
  | 0, L => L
  | fuel + 1, L => if target ≤ radix ^ L then L else output_length_search target radix fuel (L + 1)

/-- Reference width, following the words of the specification: the smallest `L` with
`radix ^ L ≥ 256 ^ block_size_bytes`, for a radix of at least 2 (the search stops at or
before `8 * block_size_bytes`).  It is the exact value of `⌈8 * b / log2(radix)⌉` and not
the embedding of `compute_output_length`. -/
def least_output_length (block_size_bytes radix : Nat) : Nat :=
  output_length_search (256 ^ block_size_bytes) radix (8 * block_size_bytes) 0

/-- Link between the flag vector and the bytes collected so far in `build_charset`. -/
def SeenMatches (seen : List Bool) (unique : List Nat) : Prop :=
  seen.length = 256 ∧ ∀ i, i < 256 → (seen.getD i false = true ↔ i ∈ unique)

/-- Facts about a built charset that the block codec relies on. -/
structure WellFormed (cs : Charset) : Prop where
  length_eq : cs.symbols.length = cs.effective_radix
  two_le : 2 ≤ cs.effective_radix
  nodup : cs.symbols.Nodup
  bytes : ∀ s ∈ cs.symbols, s < 256
  pow2_radix : cs.pow2 = true → cs.effective_radix = 2 ^ cs.bits_per_symbol
  pow2_bits : cs.pow2 = true → 1 ≤ cs.bits_per_symbol

/-- Value of a big-endian base-256 digit string (index 0 is the most significant digit). -/
def be_value (l : List Nat) : Nat :=
  Nat.ofDigits 256 l.reverse

/-- The `n` low base-256 digits of `v`, most significant first. -/
def be_bytes : Nat → Nat → List Nat
  | 0, _ => []
  | n + 1, v => be_bytes n (v / 256) ++ [v % 256]

/-- Symbol indices emitted by the general encoder for the number `N`, least significant
first: a single zero digit for `N = 0`, otherwise the base-`radix` digits of `N`. -/
def general_indices (radix N : Nat) : List Nat :=
  if N = 0 then [0] else Nat.digits radix N

/-- The eight bits of a byte, most significant first. -/
def byte_bits (b : Nat) : List Nat :=
  (List.range 8).map (fun i => (b / 2 ^ (7 - i)) % 2)

/-- The bitstream of a block: its bytes in order, each most significant bit first. -/
def bitstream (block : List Nat) : List Nat :=
  block.flatMap byte_bits

/-- Value of a bit string read most significant bit first. -/
def bits_value (bits : List Nat) : Nat :=
  bits.foldl (fun a v => 2 * a + v) 0

/-- Reference pow2 encoding, following the words of the specification: with
`g = ⌈8 * m / k⌉` groups, the bitstream of the block is extended on the right with zero
bits to length `g * k`; group `j` is bits `[j * k, (j + 1) * k)` and is written as the
symbol of its value; `symbols[0]` is put in front until the length is `L`. -/
def pow2_reference (symbols : List Nat) (k : Nat) (block : List Nat) (L : Nat) : List Nat :=
  let g := (8 * block.length + k - 1) / k
  let padded := bitstream block ++ List.replicate (g * k - 8 * block.length) 0
  List.replicate (L - g) (symbols.getD 0 0)
    ++ (List.range g).map (fun j => symbols.getD (bits_value ((padded.drop (j * k)).take k)) 0)

/-- Loop invariant of `encode_block_pow2` after the bits `S` have been read: the digits are
the symbols of the complete `k`-bit groups of `S`, and the accumulator holds the bits read
after the last complete group. -/
def PackInv (symbols : List Nat) (k : Nat) (S : List Nat) (st : BitState) : Prop :=
  (∀ x ∈ S, x < 2) ∧ st.acc_bits < k
    ∧ S.length = st.digits.length * k + st.acc_bits
    ∧ st.digits = (List.range st.digits.length).map
        (fun j => symbols.getD (bits_value ((S.drop (j * k)).take k)) 0)
    ∧ st.acc = bits_value (S.drop (st.digits.length * k))

/-! ## Normalisation of the alphabet -/

theorem getD_replicate_false (n i : Nat) : (List.replicate n false).getD i false = false := by
  rw [List.getD_eq_getElem?_getD, List.getElem?_replicate]
  split <;> rfl

theorem seenMatches_init : SeenMatches (List.replicate 256 false) [] := by
  refine ⟨List.length_replicate _ _, ?_⟩
  intro i _
  rw [getD_replicate_false]
  simp

theorem seenMatches_set {seen : List Bool} {unique : List Nat} (h : SeenMatches seen unique)
    {c : Nat} (hc : c < 256) : SeenMatches (seen.set c true) (unique ++ [c]) := by
  obtain ⟨hlen, hmem⟩ := h
  refine ⟨by simpa using hlen, ?_⟩
  intro i hi
  by_cases hic : c = i
  · subst hic
    simp [List.getD_eq_getElem?_getD, List.getElem?_set, hlen, hc]
  · have := hmem i hi
    simp only [List.getD_eq_getElem?_getD] at this ⊢
    rw [List.getElem?_set_ne hic]
    simp only [List.mem_append, List.mem_singleton]
    constructor
    · intro h1; exact Or.inl (this.mp h1)
    · rintro (h1 | h1)
      · exact this.mpr h1
      · exact absurd h1.symm hic

theorem dedup_loop_eq (raw : List Nat) : ∀ (seen : List Bool) (unique before : List Nat),
    SeenMatches seen unique → (∀ x, x ∈ before ↔ x ∈ unique) → (∀ c ∈ raw, c < 256) →
    dedup_loop raw seen unique = unique ++ first_occurrences_from before raw := by
  induction raw with
  | nil => intro seen unique before _ _ _; simp [dedup_loop, first_occurrences_from]
  | cons c rest ih =>
    intro seen unique before hs hb hraw
    have hc : c < 256 := hraw c (by simp)
    have hrest : ∀ x ∈ rest, x < 256 := fun x hx => hraw x (by simp [hx])
    have hmod : c % 256 = c := Nat.mod_eq_of_lt hc
    simp only [dedup_loop, hmod, first_occurrences_from]
    by_cases hmem : c ∈ unique
    · have h1 : seen.getD c false = true := (hs.2 c hc).mpr hmem
      have h2 : c ∈ before := (hb c).mpr hmem
      simp only [h1, h2, if_true]
      refine ih seen unique (before ++ [c]) hs ?_ hrest
      intro x
      simp only [List.mem_append, List.mem_singleton]
      constructor
      · rintro (h | h)
        · exact (hb x).mp h
        · exact h ▸ hmem
      · intro h; exact Or.inl ((hb x).mpr h)
    · have h1 : ¬ (seen.getD c false = true) := fun h => hmem ((hs.2 c hc).mp h)
      have h2 : c ∉ before := fun h => hmem ((hb c).mp h)
      simp only [h1, h2, if_false]
      rw [ih (seen.set c true) (unique ++ [c]) (before ++ [c]) (seenMatches_set hs hc) ?_ hrest]
      · simp
      · intro x
        simp only [List.mem_append, List.mem_singleton, hb x]

theorem first_occurrences_from_mem (raw : List Nat) : ∀ (before : List Nat) (x : Nat),
    x ∈ first_occurrences_from before raw ↔ x ∈ raw ∧ x ∉ before := by
  induction raw with
  | nil => intro before x; simp [first_occurrences_from]
  | cons c rest ih =>
    intro before x
    simp only [first_occurrences_from]
    by_cases hc : c ∈ before
    · simp only [hc, if_true, ih, List.mem_append, List.mem_cons, List.not_mem_nil, or_false]
      constructor
      · rintro ⟨h1, h2⟩; exact ⟨Or.inr h1, fun h => h2 (Or.inl h)⟩
      · rintro ⟨h1 | h1, h2⟩
        · exact absurd (h1 ▸ hc) h2
        · exact ⟨h1, fun h => h.elim h2 (fun h3 => h2 (h3 ▸ hc))⟩
    · simp only [hc, if_false, ih, List.mem_append, List.mem_cons, List.not_mem_nil, or_false]
      constructor
      · rintro (h | ⟨h1, h2⟩)
        · exact ⟨Or.inl h, h ▸ hc⟩
        · exact ⟨Or.inr h1, fun h => h2 (Or.inl h)⟩
      · rintro ⟨h1 | h1, h2⟩
        · exact Or.inl h1
        · by_cases hx : x = c
          · exact Or.inl hx
          · exact Or.inr ⟨h1, fun h => h.elim h2 hx⟩

theorem first_occurrences_from_nodup (raw : List Nat) : ∀ (before : List Nat),
    (first_occurrences_from before raw).Nodup := by
  induction raw with
  | nil => intro before; simp [first_occurrences_from]
  | cons c rest ih =>
    intro before
    simp only [first_occurrences_from]
    split
    · exact ih _
    · refine List.nodup_cons.mpr ⟨?_, ih _⟩
      rw [first_occurrences_from_mem]
      simp

theorem first_occurrences_mem (raw : List Nat) (x : Nat) :
    x ∈ first_occurrences raw ↔ x ∈ raw := by
  simp [first_occurrences, first_occurrences_from_mem]

theorem first_occurrences_nodup (raw : List Nat) : (first_occurrences raw).Nodup :=
  first_occurrences_from_nodup raw []

theorem first_occurrences_length (raw : List Nat) :
    (first_occurrences raw).length = raw.toFinset.card := by
  rw [← List.toFinset_card_of_nodup (first_occurrences_nodup raw)]
  congr 1
  ext x
  simp [first_occurrences_mem]

theorem first_occurrences_of_nodup (l : List Nat) : ∀ (before : List Nat),
    l.Nodup → (∀ x ∈ l, x ∉ before) → first_occurrences_from before l = l := by
  induction l with
  | nil => intro before _ _; rfl
  | cons c rest ih =>
    intro before hnd hdis
    have hc : c ∉ before := hdis c (by simp)
    simp only [first_occurrences_from, hc, if_false]
    rw [ih (before ++ [c]) (List.nodup_cons.mp hnd).2]
    intro x hx
    simp only [List.mem_append, List.mem_singleton, not_or]
    refine ⟨hdis x (by simp [hx]), ?_⟩
    rintro rfl
    exact (List.nodup_cons.mp hnd).1 hx

theorem dedup_loop_init (raw : List Nat) (hraw : ∀ c ∈ raw, c < 256) :
    dedup_loop raw (List.replicate 256 false) [] = first_occurrences raw := by
  rw [dedup_loop_eq raw _ [] [] seenMatches_init (fun _ => Iff.rfl) hraw]
  rfl

theorem log2_floor_loop_eq (n : Nat) : ∀ (fuel p : Nat), n ≤ p + fuel → (p = 0 ∨ 2 ^ p ≤ n) →
    log2_floor_loop n fuel p = Nat.log 2 n := by
  intro fuel
  induction fuel with
  | zero =>
    intro p hfuel hp
    simp only [log2_floor_loop]
    have hlt : n < 2 ^ (p + 1) := by
      have : p + 1 < 2 ^ (p + 1) := Nat.lt_two_pow (p + 1)
      omega
    rcases hp with hp | hp
    · subst hp
      have : n = 0 := by omega
      subst this
      simp
    · exact (Nat.log_eq_of_pow_le_of_lt_pow hp hlt).symm
  | succ fuel ih =>
    intro p hfuel hp
    simp only [log2_floor_loop, Nat.one_shiftLeft]
    split
    · rename_i hle
      exact ih (p + 1) (by omega) (Or.inr hle)
    · rename_i hnle
      have hlt : n < 2 ^ (p + 1) := by omega
      rcases hp with hp | hp
      · subst hp
        have : n < 2 := by simpa using hlt
        exact (Nat.log_of_lt this).symm
      · exact (Nat.log_eq_of_pow_le_of_lt_pow hp hlt).symm

theorem log2_floor_eq (n : Nat) : log2_floor n = Nat.log 2 n :=
  log2_floor_loop_eq n n 0 (by omega) (Or.inl rfl)

/-! ## Closed form of `build_charset` -/

theorem dedup_loop_map_mod (raw : List Nat) : ∀ (seen : List Bool) (unique : List Nat),
    dedup_loop raw seen unique = dedup_loop (raw.map (fun c => c % 256)) seen unique := by
  induction raw with
  | nil => intro seen unique; rfl
  | cons c rest ih =>
    intro seen unique
    simp only [dedup_loop, List.map_cons, Nat.mod_mod]
    rw [ih seen unique, ih (seen.set (c % 256) true)]

/-- The normalised alphabet computed by the first loop of `build_charset`. -/
theorem dedup_loop_normal (raw : List Nat) :
    dedup_loop raw (List.replicate 256 false) []
      = first_occurrences (raw.map (fun c => c % 256)) := by
  rw [dedup_loop_map_mod]
  apply dedup_loop_init
  intro c hc
  obtain ⟨d, _, rfl⟩ := List.mem_map.mp hc
  exact Nat.mod_lt _ (by norm_num)

theorem map_mod_of_bytes (raw : List Nat) (hraw : ∀ c ∈ raw, c < 256) :
    raw.map (fun c => c % 256) = raw := by
  conv_rhs => rw [← List.map_id raw]
  apply List.map_congr_left
  intro c hc
  simp [Nat.mod_eq_of_lt (hraw c hc)]

/-- Closed form of `build_charset` in terms of the normalised alphabet. -/
theorem build_charset_eq (raw : List Nat) (pow2 : Bool) :
    build_charset raw pow2 =
      if (first_occurrences (raw.map (fun c => c % 256))).length < 2 then
        .error (.runtime_error "Charset must contain at least 2 unique symbols")
      else if pow2 then
        .ok ⟨(first_occurrences (raw.map (fun c => c % 256))).take
              (2 ^ Nat.log 2 (first_occurrences (raw.map (fun c => c % 256))).length),
            (first_occurrences (raw.map (fun c => c % 256))).length,
            2 ^ Nat.log 2 (first_occurrences (raw.map (fun c => c % 256))).length,
            Nat.log 2 (first_occurrences (raw.map (fun c => c % 256))).length, true⟩
      else
        .ok ⟨first_occurrences (raw.map (fun c => c % 256)),
            (first_occurrences (raw.map (fun c => c % 256))).length,
            (first_occurrences (raw.map (fun c => c % 256))).length, 0, false⟩ := by
  simp only [build_charset, dedup_loop_normal, log2_floor_eq, Nat.one_shiftLeft]

theorem first_occurrences_bytes (raw : List Nat) :
    ∀ s ∈ first_occurrences (raw.map (fun c => c % 256)), s < 256 := by
  intro s hs
  rw [first_occurrences_mem] at hs
  obtain ⟨d, _, rfl⟩ := List.mem_map.mp hs
  exact Nat.mod_lt _ (by norm_num)

theorem build_charset_flag {raw : List Nat} {pow2 : Bool} {cs : Charset}
    (h : build_charset raw pow2 = .ok cs) : cs.pow2 = pow2 := by
  rw [build_charset_eq] at h
  split at h
  · cases h
  · split at h
    · rename_i hp
      cases h
      exact hp.symm
    · rename_i hp
      cases h
      simpa using hp

theorem build_charset_wellFormed {raw : List Nat} {pow2 : Bool} {cs : Charset}
    (h : build_charset raw pow2 = .ok cs) : WellFormed cs := by
  rw [build_charset_eq] at h
  have hnd := first_occurrences_nodup (raw.map (fun c => c % 256))
  have hby := first_occurrences_bytes raw
  generalize first_occurrences (raw.map (fun c => c % 256)) = U at h hnd hby
  split at h
  · cases h
  · rename_i hlen
    have hU : 2 ≤ U.length := by omega
    have hpow : 2 ^ Nat.log 2 U.length ≤ U.length := Nat.pow_log_le_self 2 (by omega)
    have hlog : 1 ≤ Nat.log 2 U.length := by
      have := Nat.log_pos (b := 2) (by norm_num) hU
      omega
    split at h
    · cases h
      refine ⟨?_, ?_, ?_, ?_, ?_, ?_⟩
      · simp [List.length_take, hpow]
      · calc 2 = 2 ^ 1 := rfl
          _ ≤ 2 ^ Nat.log 2 U.length := Nat.pow_le_pow_right (by norm_num) hlog
      · exact hnd.sublist (List.take_sublist _ _)
      · intro s hs; exact hby s (List.mem_of_mem_take hs)
      · intro _; rfl
      · intro _; exact hlog
    · cases h
      exact ⟨rfl, hU, hnd, hby, fun h => (by cases h), fun h => (by cases h)⟩

/-! ## Big-integer arithmetic on base-256 digit strings -/

theorem be_value_nil : be_value [] = 0 := rfl

theorem be_value_cons (x : Nat) (l : List Nat) :
    be_value (x :: l) = x * 256 ^ l.length + be_value l := by
  simp only [be_value, List.reverse_cons, Nat.ofDigits_append, Nat.ofDigits_singleton,
    List.length_reverse]
  ring

theorem be_value_append_singleton (l : List Nat) (x : Nat) :
    be_value (l ++ [x]) = be_value l * 256 + x := by
  simp only [be_value, List.reverse_append, List.reverse_cons, List.reverse_nil, List.nil_append,
    List.singleton_append, Nat.ofDigits_cons]
  ring

theorem be_value_lt (l : List Nat) (hl : ∀ x ∈ l, x < 256) : be_value l < 256 ^ l.length := by
  have := Nat.ofDigits_lt_base_pow_length (b := 256) (l := l.reverse) (by norm_num)
    (fun x hx => hl x (List.mem_reverse.mp hx))
  simpa [be_value] using this

theorem shift_or_byte (carry byte : Nat) (hb : byte < 256) :
    (carry <<< 8) ||| byte = carry * 256 + byte := by
  rw [Nat.shiftLeft_eq, Nat.mul_comm]
  exact (Nat.mul_add_lt_is_or (i := 8) hb carry).symm

theorem and_ff (x : Nat) : x &&& 0xFF = x % 256 :=
  Nat.and_pow_two_sub_one_eq_mod x 8

theorem shift_right_eight (x : Nat) : x >>> 8 = x / 256 :=
  Nat.shiftRight_eq_div_pow x 8

/-- The division loop computes quotient and remainder of `carry * 256 ^ n + value`. -/
theorem divide_digits_spec (radix : Nat) (hr : 0 < radix) (l : List Nat) :
    ∀ carry, carry < radix → (∀ x ∈ l, x < 256) →
      (divide_digits radix carry l).1.length = l.length
      ∧ (∀ x ∈ (divide_digits radix carry l).1, x < 256)
      ∧ be_value (divide_digits radix carry l).1 = (carry * 256 ^ l.length + be_value l) / radix
      ∧ (divide_digits radix carry l).2 = (carry * 256 ^ l.length + be_value l) % radix := by
  induction l with
  | nil =>
    intro carry hc _
    simp [divide_digits, be_value_nil, Nat.div_eq_of_lt hc, Nat.mod_eq_of_lt hc]
  | cons byte rest ih =>
    intro carry hc hl
    have hbyte : byte < 256 := hl byte (by simp)
    have hrest : ∀ x ∈ rest, x < 256 := fun x hx => hl x (by simp [hx])
    simp only [divide_digits, shift_or_byte carry byte hbyte]
    obtain ⟨h1, h2, h3, h4⟩ :=
      ih ((carry * 256 + byte) % radix) (Nat.mod_lt _ hr) hrest
    have hq : (carry * 256 + byte) / radix < 256 := by
      apply Nat.div_lt_of_lt_mul
      have : carry + 1 ≤ radix := hc
      nlinarith
    have hsplit : carry * 256 ^ (rest.length + 1) + (byte * 256 ^ rest.length + be_value rest)
        = radix * ((carry * 256 + byte) / radix * 256 ^ rest.length)
          + ((carry * 256 + byte) % radix * 256 ^ rest.length + be_value rest) := by
      have := Nat.div_add_mod (carry * 256 + byte) radix
      calc carry * 256 ^ (rest.length + 1) + (byte * 256 ^ rest.length + be_value rest)
          = (carry * 256 + byte) * 256 ^ rest.length + be_value rest := by ring
        _ = (radix * ((carry * 256 + byte) / radix) + (carry * 256 + byte) % radix)
              * 256 ^ rest.length + be_value rest := by rw [this]
        _ = _ := by ring
    refine ⟨by simp [h1], ?_, ?_, ?_⟩
    · intro x hx
      rcases List.mem_cons.mp hx with hx | hx
      · rw [hx, Nat.mod_eq_of_lt hq]; exact hq
      · exact h2 x hx
    · rw [be_value_cons, be_value_cons, List.length_cons, h1, h3, Nat.mod_eq_of_lt hq, hsplit,
        Nat.mul_add_div hr]
    · rw [h4, be_value_cons, List.length_cons, hsplit, Nat.mul_add_mod]

theorem strip_value (l : List Nat) : be_value (strip_leading_zeroes l) = be_value l := by
  induction l with
  | nil => rfl
  | cons x rest ih =>
    by_cases hx : x = 0
    · subst hx
      simp only [strip_leading_zeroes, List.dropWhile, beq_self_eq_true] at ih ⊢
      rw [ih, be_value_cons]
      simp
    · have : (x == 0) = false := by simpa using hx
      simp [strip_leading_zeroes, List.dropWhile, this]

theorem strip_bytes (l : List Nat) (hl : ∀ x ∈ l, x < 256) :
    ∀ x ∈ strip_leading_zeroes l, x < 256 := by
  intro x hx
  exact hl x ((List.dropWhile_sublist _).subset hx)

theorem strip_length_le (l : List Nat) : (strip_leading_zeroes l).length ≤ l.length :=
  (List.dropWhile_sublist _).length_le

theorem strip_head (l : List Nat) : (strip_leading_zeroes l).head? ≠ some 0 := by
  induction l with
  | nil => simp [strip_leading_zeroes]
  | cons x rest ih =>
    by_cases hx : x = 0
    · subst hx
      simpa [strip_leading_zeroes, List.dropWhile] using ih
    · have : (x == 0) = false := by simpa using hx
      simp only [strip_leading_zeroes, List.dropWhile, this, List.head?_cons]
      intro h
      exact hx (Option.some.inj h)

/-- A digit string without a leading zero is empty exactly when its value is zero. -/
theorem value_eq_zero_iff (l : List Nat) (hh : l.head? ≠ some 0) :
    be_value l = 0 ↔ l = [] := by
  constructor
  · intro hv
    cases l with
    | nil => rfl
    | cons x rest =>
      exfalso
      rw [be_value_cons] at hv
      have hx : x ≠ 0 := fun h => hh (by simp [h])
      have : 0 < x * 256 ^ rest.length := Nat.mul_pos (Nat.pos_of_ne_zero hx) (by positivity)
      omega
  · rintro rfl; rfl

theorem divide_bigint_spec (num : List Nat) (radix : Nat) (hr : 0 < radix)
    (hnum : ∀ x ∈ num, x < 256) :
    (∀ x ∈ (divide_bigint num radix).1, x < 256)
      ∧ (divide_bigint num radix).1.head? ≠ some 0
      ∧ be_value (divide_bigint num radix).1 = be_value num / radix
      ∧ (divide_bigint num radix).2 = be_value num % radix
      ∧ (divide_bigint num radix).1.length ≤ num.length := by
  obtain ⟨h1, h2, h3, h4⟩ := divide_digits_spec radix hr num 0 hr hnum
  simp only [Nat.zero_mul, Nat.zero_add] at h3 h4
  refine ⟨strip_bytes _ h2, strip_head _, ?_, h4, ?_⟩
  · simp only [divide_bigint]; rw [strip_value, h3]
  · simp only [divide_bigint]; exact (strip_length_le _).trans (le_of_eq h1)

/-- The right-to-left loop of `multiply_add` keeps the value `num * radix + add`, the part not
yet written being the carry. -/
theorem multiply_fold_spec (radix add : Nat) (l : List Nat) :
    (l.foldr (multiply_step radix) ([], add)).1.length = l.length
      ∧ (∀ x ∈ (l.foldr (multiply_step radix) ([], add)).1, x < 256)
      ∧ (l.foldr (multiply_step radix) ([], add)).2 * 256 ^ l.length
          + be_value (l.foldr (multiply_step radix) ([], add)).1 = be_value l * radix + add := by
  induction l with
  | nil => simp [be_value_nil]
  | cons x rest ih =>
    obtain ⟨h1, h2, h3⟩ := ih
    simp only [List.foldr_cons, multiply_step, and_ff, shift_right_eight]
    refine ⟨by simp [h1], ?_, ?_⟩
    · intro y hy
      rcases List.mem_cons.mp hy with hy | hy
      · rw [hy]; exact Nat.mod_lt _ (by norm_num)
      · exact h2 y hy
    · rw [be_value_cons, be_value_cons, h1, List.length_cons]
      have := Nat.div_add_mod (x * radix + (List.foldr (multiply_step radix) ([], add) rest).2) 256
      calc _ = (256 * ((x * radix + (List.foldr (multiply_step radix) ([], add) rest).2) / 256)
              + (x * radix + (List.foldr (multiply_step radix) ([], add) rest).2) % 256)
                * 256 ^ rest.length
              + be_value (List.foldr (multiply_step radix) ([], add) rest).1 := by ring
        _ = x * radix * 256 ^ rest.length
              + ((List.foldr (multiply_step radix) ([], add) rest).2 * 256 ^ rest.length
                + be_value (List.foldr (multiply_step radix) ([], add) rest).1) := by
            rw [this]; ring
        _ = _ := by rw [h3]; ring

theorem insert_carry_spec : ∀ (fuel carry : Nat) (num : List Nat), carry ≤ fuel →
    (∀ x ∈ num, x < 256) →
    (∀ x ∈ insert_carry fuel carry num, x < 256)
      ∧ be_value (insert_carry fuel carry num) = carry * 256 ^ num.length + be_value num := by
  intro fuel
  induction fuel with
  | zero =>
    intro carry num hc hnum
    have : carry = 0 := by omega
    subst this
    exact ⟨by simpa [insert_carry] using hnum, by simp [insert_carry]⟩
  | succ fuel ih =>
    intro carry num hc hnum
    simp only [insert_carry]
    split
    · rename_i hpos
      rw [and_ff, shift_right_eight]
      have hdiv : carry / 256 ≤ fuel := by
        have : carry / 256 < carry := Nat.div_lt_self hpos (by norm_num)
        omega
      have hb : ∀ x ∈ (carry % 256 :: num), x < 256 := by
        intro x hx
        rcases List.mem_cons.mp hx with hx | hx
        · rw [hx]; exact Nat.mod_lt _ (by norm_num)
        · exact hnum x hx
      obtain ⟨h1, h2⟩ := ih (carry / 256) (carry % 256 :: num) hdiv hb
      refine ⟨h1, ?_⟩
      rw [h2, be_value_cons, List.length_cons]
      have := Nat.div_add_mod carry 256
      calc carry / 256 * 256 ^ (num.length + 1) + (carry % 256 * 256 ^ num.length + be_value num)
          = (256 * (carry / 256) + carry % 256) * 256 ^ num.length + be_value num := by ring
        _ = _ := by rw [this]
    · rename_i hzero
      have : carry = 0 := by omega
      subst this
      exact ⟨hnum, by simp⟩

theorem multiply_add_spec (num : List Nat) (radix add : Nat) :
    (∀ x ∈ multiply_add num radix add, x < 256)
      ∧ be_value (multiply_add num radix add) = be_value num * radix + add := by
  obtain ⟨h1, h2, h3⟩ := multiply_fold_spec radix add num
  obtain ⟨h4, h5⟩ := insert_carry_spec _ _ _ (le_refl _) h2
  refine ⟨h4, ?_⟩
  simp only [multiply_add]
  rw [h5, h1, h3]

theorem be_bytes_zero (n : Nat) : be_bytes n 0 = List.replicate n 0 := by
  induction n with
  | zero => rfl
  | succ n ih =>
    simp only [be_bytes, Nat.zero_div, Nat.zero_mod, ih]
    exact (List.replicate_succ' n 0).symm

theorem be_bytes_length (n v : Nat) : (be_bytes n v).length = n := by
  induction n generalizing v with
  | zero => rfl
  | succ n ih => simp [be_bytes, ih]

theorem be_bytes_value (l : List Nat) (hl : ∀ x ∈ l, x < 256) :
    be_bytes l.length (be_value l) = l := by
  induction l using List.reverseRecOn with
  | nil => rfl
  | append_singleton rest x ih =>
    have hx : x < 256 := hl x (by simp)
    have hrest : ∀ y ∈ rest, y < 256 := fun y hy => hl y (by simp [hy])
    rw [List.length_append, List.length_singleton, be_bytes, be_value_append_singleton]
    have h1 : (be_value rest * 256 + x) / 256 = be_value rest := by omega
    have h2 : (be_value rest * 256 + x) % 256 = x := by omega
    rw [h1, h2, ih hrest]

/-- The serialisation loop writes the low bytes of the value right to left; positions it
leaves untouched after an early exit are zero digits of the value. -/
theorem bigint_to_bytes_loop_spec (out_size : Nat) : ∀ (n i : Nat) (num tail : List Nat),
    n + i = out_size → tail.length = i → (∀ x ∈ num, x < 256) →
    bigint_to_bytes_loop out_size n i num (List.replicate n 0 ++ tail)
      = be_bytes n (be_value num) ++ tail := by
  intro n
  induction n with
  | zero => intro i num tail _ _ _; simp [bigint_to_bytes_loop, be_bytes]
  | succ n ih =>
    intro i num tail hsum htail hnum
    obtain ⟨h1, h2, h3, h4, _⟩ := divide_bigint_spec num 256 (by norm_num) hnum
    have hidx : out_size - 1 - i = n := by omega
    have hset : (List.replicate (n + 1) 0 ++ tail).set n (be_value num % 256 % 256)
        = List.replicate n 0 ++ (be_value num % 256 :: tail) := by
      rw [List.replicate_succ', List.append_assoc, Nat.mod_mod]
      rw [List.set_append_right _ _ (by simp)]
      simp
    simp only [bigint_to_bytes_loop, hidx, h4, hset, be_bytes]
    split
    · rename_i hemp
      have hnil : (divide_bigint num 256).1 = [] := by simpa using hemp
      have hz : be_value num / 256 = 0 := by rw [← h3, hnil]; rfl
      rw [hz, be_bytes_zero]
      simp
    · rw [ih (i + 1) _ (be_value num % 256 :: tail) (by omega) (by simp [htail]) h1, h3]
      simp

theorem bigint_to_bytes_spec (num : List Nat) (out_size : Nat) (hnum : ∀ x ∈ num, x < 256) :
    bigint_to_bytes num out_size = be_bytes out_size (be_value num) := by
  have := bigint_to_bytes_loop_spec out_size out_size 0 num [] (by omega) rfl hnum
  simpa [bigint_to_bytes] using this

/-! ## The general block codec -/

theorem symbol_at_of_lt (symbols : List Nat) (i : Nat) (h : i < symbols.length) :
    symbol_at symbols i = .ok (symbols.getD i 0) := by
  simp [symbol_at, List.getD_eq_getElem?_getD, List.getElem?_eq_getElem h]

theorem getD_mem (symbols : List Nat) (i : Nat) (h : i < symbols.length) :
    symbols.getD i 0 ∈ symbols := by
  rw [List.getD_eq_getElem?_getD, List.getElem?_eq_getElem h]
  exact List.getElem_mem h

theorem index_in_charset_getD (symbols : List Nat) (hnd : symbols.Nodup) (i : Nat)
    (h : i < symbols.length) : index_in_charset (symbols.getD i 0) symbols = .ok i := by
  have hget : symbols.getD i 0 = symbols[i] := by
    rw [List.getD_eq_getElem?_getD, List.getElem?_eq_getElem h]; rfl
  simp only [index_in_charset, hget, List.indexOf_getElem hnd i h, h, if_true]

/-- The division loop of the general encoder emits the base-`radix` digits of the number,
least significant first, and stops within its fuel. -/
theorem general_digits_spec (symbols : List Nat) (radix : Nat) (hr : 2 ≤ radix)
    (hlen : radix ≤ symbols.length) : ∀ (fuel : Nat) (num digits : List Nat),
    (∀ x ∈ num, x < 256) → num.head? ≠ some 0 → be_value num < 2 ^ fuel →
    general_digits symbols radix fuel num digits
      = .ok (digits ++ (Nat.digits radix (be_value num)).map (fun d => symbols.getD d 0)) := by
  intro fuel
  induction fuel with
  | zero =>
    intro num digits _ hhead hval
    have hz : be_value num = 0 := by simpa using hval
    have hnil := (value_eq_zero_iff num hhead).mp hz
    subst hnil
    simp [general_digits, be_value_nil]
  | succ fuel ih =>
    intro num digits hnum hhead hval
    simp only [general_digits]
    split
    · rename_i hemp
      have hnil : num = [] := by simpa using hemp
      subst hnil
      simp [be_value_nil]
    · rename_i hne
      have hnn : num ≠ [] := by simpa using hne
      have hpos : 0 < be_value num :=
        Nat.pos_of_ne_zero (fun h => hnn ((value_eq_zero_iff num hhead).mp h))
      obtain ⟨h1, h2, h3, h4, _⟩ := divide_bigint_spec num radix (by omega) hnum
      have hrem : (divide_bigint num radix).2 < symbols.length := by
        rw [h4]; exact lt_of_lt_of_le (Nat.mod_lt _ (by omega)) hlen
      rw [symbol_at_of_lt _ _ hrem]
      have hq : be_value (divide_bigint num radix).1 < 2 ^ fuel := by
        rw [h3]
        have h5 : be_value num / radix ≤ be_value num / 2 :=
          Nat.div_le_div_left hr (by norm_num)
        have h6 : be_value num / 2 < 2 ^ fuel := by
          rw [Nat.div_lt_iff_lt_mul (by norm_num)]
          rw [pow_succ] at hval
          exact hval
        omega
      simp only []
      rw [ih _ _ h1 h2 hq, h3, h4, Nat.digits_def' (by omega) hpos]
      simp

theorem bigint_from_bytes_spec (data : List Nat) (hdata : ∀ x ∈ data, x < 256) :
    (∀ x ∈ bigint_from_bytes data, x < 256)
      ∧ be_value (bigint_from_bytes data) = be_value data
      ∧ (bigint_from_bytes data).length ≤ max data.length 1
      ∧ (be_value data = 0 → bigint_from_bytes data = [0])
      ∧ (be_value data ≠ 0 → bigint_from_bytes data = strip_leading_zeroes data) := by
  have hv := strip_value data
  have hh := strip_head data
  have hb := strip_bytes data hdata
  have hl := strip_length_le data
  have hiff := value_eq_zero_iff _ hh
  rw [hv] at hiff
  by_cases hz : be_value data = 0
  · have hnil := hiff.mp hz
    have : bigint_from_bytes data = [0] := by simp [bigint_from_bytes, hnil]
    rw [this]
    refine ⟨by simp, ?_, by simp, fun _ => rfl, fun h => absurd hz h⟩
    rw [hz]; rfl
  · have hne : strip_leading_zeroes data ≠ [] := fun h => hz (hiff.mpr h)
    have : bigint_from_bytes data = strip_leading_zeroes data := by
      simp [bigint_from_bytes, hne]
    rw [this]
    exact ⟨hb, hv, by omega, fun h => absurd h hz, fun _ => rfl⟩

theorem general_indices_lt (radix N : Nat) (hr : 2 ≤ radix) :
    ∀ d ∈ general_indices radix N, d < radix := by
  intro d hd
  unfold general_indices at hd
  split at hd
  · simp at hd; omega
  · exact Nat.digits_lt_base (by omega) hd

theorem general_indices_value (radix N : Nat) :
    Nat.ofDigits radix (general_indices radix N) = N := by
  unfold general_indices
  split
  · rename_i h; simp [h]
  · exact Nat.ofDigits_digits radix N

theorem general_indices_length_le (radix N L : Nat) (hr : 2 ≤ radix) (hL : 1 ≤ L)
    (hN : N < radix ^ L) : (general_indices radix N).length ≤ L := by
  unfold general_indices
  split
  · simpa using hL
  · rename_i hne
    have h1 := Nat.base_pow_length_digits_le radix N (by omega) hne
    have h2 : radix ^ (Nat.digits radix N).length < radix ^ (L + 1) := by
      calc radix ^ (Nat.digits radix N).length ≤ radix * N := h1
        _ < radix * radix ^ L := Nat.mul_lt_mul_of_pos_left hN (by omega)
        _ = radix ^ (L + 1) := by ring
    have := (Nat.pow_lt_pow_iff_right (by omega : 1 < radix)).mp h2
    omega

theorem pad_back_eq (symbols : List Nat) (L : Nat) (digits : List Nat)
    (h0 : 0 < symbols.length) :
    pad_back symbols L digits
      = .ok (digits ++ List.replicate (L - digits.length) (symbols.getD 0 0)) := by
  unfold pad_back
  by_cases h : digits.length < L
  · rw [if_pos h, symbol_at_of_lt _ _ h0]
  · rw [if_neg h, show L - digits.length = 0 by omega]
    simp

theorem pad_front_eq (symbols : List Nat) (L : Nat) (digits : List Nat)
    (h0 : 0 < symbols.length) :
    pad_front symbols L digits
      = .ok (List.replicate (L - digits.length) (symbols.getD 0 0) ++ digits) := by
  unfold pad_front
  by_cases h : digits.length < L
  · rw [if_pos h, symbol_at_of_lt _ _ h0]
  · rw [if_neg h, show L - digits.length = 0 by omega]
    simp

/-- Closed form of the general block encoder on a well-formed charset: the symbols of the
digits of the block value, padded with `symbols[0]` to the output length, most significant
first. -/
theorem encode_block_general_eq (cs : Charset) (hwf : WellFormed cs) (data : List Nat)
    (hdata : ∀ x ∈ data, x < 256) (L : Nat) :
    encode_block_general data cs L
      = .ok (((general_indices cs.effective_radix (be_value data)
          ++ List.replicate (L - (general_indices cs.effective_radix (be_value data)).length) 0).map
            (fun d => cs.symbols.getD d 0)).reverse) := by
  obtain ⟨hb, hv, hl, hzero, hnz⟩ := bigint_from_bytes_spec data hdata
  have hsym0 : symbol_at cs.symbols 0 = .ok (cs.symbols.getD 0 0) :=
    symbol_at_of_lt _ _ (by rw [hwf.length_eq]; have := hwf.two_le; omega)
  have hdigits : general_block_digits (bigint_from_bytes data) cs
      = .ok ((general_indices cs.effective_radix (be_value data)).map
          (fun d => cs.symbols.getD d 0)) := by
    unfold general_block_digits
    by_cases hz : be_value data = 0
    · rw [hzero hz, hsym0]
      simp [general_indices, hz]
    · have heq := hnz hz
      have hhead : (bigint_from_bytes data).head? ≠ some 0 := by rw [heq]; exact strip_head data
      rw [if_neg (fun h => hhead h.2)]
      have hlt : be_value (bigint_from_bytes data) < 2 ^ (8 * (bigint_from_bytes data).length) := by
        have := be_value_lt _ hb
        rwa [show (256 : Nat) = 2 ^ 8 from rfl, ← pow_mul] at this
      rw [general_digits_spec cs.symbols cs.effective_radix hwf.two_le (le_of_eq hwf.length_eq.symm)
        _ _ _ hb hhead hlt, hv]
      simp [general_indices, hz]
  simp only [encode_block_general, hdigits,
    pad_back_eq cs.symbols L _ (by rw [hwf.length_eq]; have := hwf.two_le; omega)]
  simp

theorem ofDigits_replicate_zero (b n : Nat) : Nat.ofDigits b (List.replicate n 0) = 0 := by
  induction n with
  | zero => rfl
  | succ n ih => simp [List.replicate_succ, Nat.ofDigits_cons, ih]

/-- The symbol loop of the general decoder accumulates the positional value of the indices. -/
theorem general_accumulate_spec (cs : Charset) (hwf : WellFormed cs) :
    ∀ (idxs num : List Nat), (∀ i ∈ idxs, i < cs.effective_radix) → (∀ x ∈ num, x < 256) →
    ∃ num1, general_accumulate cs (idxs.map (fun d => cs.symbols.getD d 0)) num = .ok num1
      ∧ (∀ x ∈ num1, x < 256)
      ∧ be_value num1 = be_value num * cs.effective_radix ^ idxs.length
          + Nat.ofDigits cs.effective_radix idxs.reverse := by
  intro idxs
  induction idxs with
  | nil => intro num _ hnum; exact ⟨num, rfl, hnum, by simp⟩
  | cons i rest ih =>
    intro num hidx hnum
    have hi : i < cs.symbols.length := by rw [hwf.length_eq]; exact hidx i (by simp)
    obtain ⟨hm1, hm2⟩ := multiply_add_spec num cs.effective_radix i
    obtain ⟨num1, h1, h2, h3⟩ := ih (multiply_add num cs.effective_radix i)
      (fun j hj => hidx j (by simp [hj])) hm1
    refine ⟨num1, ?_, h2, ?_⟩
    · simp only [List.map_cons, general_accumulate, index_in_charset_getD _ hwf.nodup i hi]
      exact h1
    · rw [h3, hm2, List.reverse_cons, Nat.ofDigits_append, Nat.ofDigits_singleton,
        List.length_reverse, List.length_cons]
      ring

/-- Decoding the output of the general encoder gives the `block_bytes` low bytes of the
block value. -/
theorem decode_encode_general (cs : Charset) (hwf : WellFormed cs) (data : List Nat)
    (hdata : ∀ x ∈ data, x < 256) (L block_bytes : Nat) :
    ∃ e, encode_block_general data cs L = .ok e
      ∧ e.length = max L (general_indices cs.effective_radix (be_value data)).length
      ∧ (∀ c ∈ e, c ∈ cs.symbols)
      ∧ decode_block_general e block_bytes cs = .ok (be_bytes block_bytes (be_value data)) := by
  refine ⟨_, encode_block_general_eq cs hwf data hdata L, ?_, ?_, ?_⟩
  · simp only [List.length_reverse, List.length_map, List.length_append, List.length_replicate]
    omega
  · intro c hc
    rw [List.mem_reverse, List.mem_map] at hc
    obtain ⟨d, hd, rfl⟩ := hc
    apply getD_mem
    rw [hwf.length_eq]
    rcases List.mem_append.mp hd with hd | hd
    · exact general_indices_lt _ _ hwf.two_le d hd
    · rw [(List.mem_replicate.mp hd).2]; have := hwf.two_le; omega
  · rw [← List.map_reverse]
    have hidx : ∀ i ∈ (general_indices cs.effective_radix (be_value data)
        ++ List.replicate (L - (general_indices cs.effective_radix (be_value data)).length) 0).reverse,
        i < cs.effective_radix := by
      intro i hi
      rcases List.mem_append.mp (List.mem_reverse.mp hi) with hd | hd
      · exact general_indices_lt _ _ hwf.two_le i hd
      · rw [(List.mem_replicate.mp hd).2]; have := hwf.two_le; omega
    obtain ⟨num1, h1, h2, h3⟩ := general_accumulate_spec cs hwf _ [0] hidx (by simp)
    simp only [decode_block_general, h1]
    rw [bigint_to_bytes_spec _ _ h2, h3, List.reverse_reverse, Nat.ofDigits_append,
      ofDigits_replicate_zero, general_indices_value]
    simp [be_value]

theorem output_length_search_spec (target radix : Nat) : ∀ (fuel L : Nat),
    (∀ j, j < L → radix ^ j < target) → target ≤ radix ^ (L + fuel) →
    target ≤ radix ^ (output_length_search target radix fuel L)
      ∧ ∀ j, j < output_length_search target radix fuel L → radix ^ j < target := by
  intro fuel
  induction fuel with
  | zero => intro L hlow hup; exact ⟨by simpa [output_length_search] using hup, hlow⟩
  | succ fuel ih =>
    intro L hlow hup
    simp only [output_length_search]
    split
    · rename_i hle; exact ⟨hle, hlow⟩
    · rename_i hnle
      apply ih (L + 1)
      · intro j hj
        rcases Nat.lt_succ_iff_lt_or_eq.mp hj with h | h
        · exact hlow j h
        · rw [h]; omega
      · rw [show L + 1 + fuel = L + (fuel + 1) by ring]; exact hup

/-- For a radix of at least 2 the reference width is the least `L` with
`256 ^ b ≤ radix ^ L`. -/
theorem least_output_length_spec (b radix : Nat) (hr : 2 ≤ radix) :
    256 ^ b ≤ radix ^ least_output_length b radix
      ∧ ∀ j, j < least_output_length b radix → radix ^ j < 256 ^ b := by
  apply output_length_search_spec
  · intro j hj; omega
  · rw [Nat.zero_add]
    calc 256 ^ b = 2 ^ (8 * b) := by rw [pow_mul]; rfl
      _ ≤ radix ^ (8 * b) := Nat.pow_le_pow_left hr _

theorem least_output_length_pos (b radix : Nat) (hr : 2 ≤ radix) (hb : 1 ≤ b) :
    1 ≤ least_output_length b radix := by
  by_contra h
  have h0 : least_output_length b radix = 0 := by omega
  have := (least_output_length_spec b radix hr).1
  rw [h0, pow_zero] at this
  have : 1 < 256 ^ b := Nat.one_lt_pow (by omega) (by norm_num)
  omega

/-! ## The streaming loops -/

theorem encode_loop_nil (cs : Charset) (b L fuel : Nat) :
    encode_loop cs b L fuel [] = .ok [] := by
  cases fuel <;> simp [encode_loop]

theorem decode_loop_nil (cs : Charset) (b L fuel : Nat) :
    decode_loop cs b L fuel [] = .ok [] := by
  cases fuel <;> simp [decode_loop]

theorem encode_loop_step (cs : Charset) (b L fuel : Nat) (input e written : List Nat)
    (hb : 1 ≤ b) (hin : input ≠ [])
    (he : encode_block cs L (input.take b) = .ok e)
    (hrest : encode_loop cs b L fuel (input.drop b) = .ok written) :
    encode_loop cs b L (fuel + 1) input = .ok (e ++ written) := by
  have hlen : ¬ (input.take b).length ≤ 0 := by
    have : 0 < input.length := List.length_pos.mpr hin
    simp only [List.length_take]
    omega
  simp only [encode_loop, hlen, if_false, he, hrest]

theorem decode_loop_step (cs : Charset) (b L fuel : Nat) (e rest d written : List Nat)
    (hL : 1 ≤ L) (he : e.length = L) (hd : decode_block cs b e = .ok d)
    (hrest : decode_loop cs b L fuel rest = .ok written) :
    decode_loop cs b L (fuel + 1) (e ++ rest) = .ok (d ++ written) := by
  have htake : (e ++ rest).take L = e := by rw [← he]; exact List.take_left' rfl
  have hdrop : (e ++ rest).drop L = rest := by rw [← he]; exact List.drop_left' rfl
  have h0 : ¬ L = 0 := by omega
  simp only [decode_loop, htake, hdrop, h0, he, if_false, ne_eq, not_true_eq_false, hd, hrest]

/-- Header-driven decode of a file onto itself: the output stream empties the file before
the header is read, and the run throws. -/
theorem decode_file_onto_itself (compute_output_length : Nat → Nat → Nat) (fs : Files)
    (path : String) (charset_override : Option Charset) (block_size_override : Nat)
    (content : List Nat)
    (hread : fs.read path = some content) (hwrite : fs.can_write path = true) :
    decode_file compute_output_length fs path path charset_override block_size_override true
      = .error (.runtime_error "Failed to read header") := by
  simp only [decode_file, hread, hwrite, not_true_eq_false, if_false, if_true,
    input_after_truncate, true_or]
  rfl

/-- Encoding a file onto itself: the input is read as empty, and only the header is
written. -/
theorem encode_file_onto_itself (compute_output_length : Nat → Nat → Nat) (fs : Files)
    (path : String) (cs : Charset) (b : Nat) (content : List Nat) (hb : b ≠ 0)
    (hread : fs.read path = some content) (hwrite : fs.can_write path = true) :
    encode_file compute_output_length fs path path cs b true
      = .ok (write_header ⟨1, b % 2 ^ 32, compute_output_length b cs.effective_radix % 2 ^ 32,
          cs.symbols.length % 2 ^ 32, cs.pow2, cs.symbols⟩) := by
  simp only [encode_file, hb, hread, hwrite, not_true_eq_false, if_false, if_true,
    input_after_truncate, true_or, List.length_nil, encode_loop_nil, List.append_nil]

/-! ## The pow2 block encoder -/

theorem shift_or_bit (acc v : Nat) (hv : v < 2) : (acc <<< 1) ||| v = 2 * acc + v := by
  rw [Nat.shiftLeft_eq, Nat.mul_comm]
  exact (Nat.mul_add_lt_is_or (i := 1) hv acc).symm

theorem bit_lt_two (b bit : Nat) : (b >>> bit) &&& 1 < 2 := by
  rw [Nat.and_one_is_mod]
  exact Nat.mod_lt _ (by norm_num)

/-- One bit of the pow2 encoder: the accumulator stays below `2 ^ acc_bits`, a symbol is
emitted with an index in range when `k` bits are complete, and one more bit is accounted
for. -/
theorem pow2_bit_step_spec (symbols : List Nat) (k b bit : Nat) (st : BitState)
    (hlen : symbols.length = 2 ^ k) (h1 : st.acc_bits < k) (h2 : st.acc < 2 ^ st.acc_bits)
    (h3 : ∀ d ∈ st.digits, d ∈ symbols) :
    ∃ st1, pow2_bit_step symbols k b bit st = .ok st1
      ∧ st1.acc_bits < k ∧ st1.acc < 2 ^ st1.acc_bits
      ∧ (∀ d ∈ st1.digits, d ∈ symbols)
      ∧ st1.digits.length * k + st1.acc_bits = st.digits.length * k + st.acc_bits + 1 := by
  have hacc : (st.acc <<< 1) ||| ((b >>> bit) &&& 1) < 2 ^ (st.acc_bits + 1) := by
    rw [shift_or_bit _ _ (bit_lt_two b bit), pow_succ]
    have := bit_lt_two b bit
    omega
  by_cases hk : st.acc_bits + 1 = k
  · have hidx : (st.acc <<< 1) ||| ((b >>> bit) &&& 1) < symbols.length := by
      rw [hlen, ← hk]; exact hacc
    refine ⟨⟨st.digits ++ [symbols.getD ((st.acc <<< 1) ||| ((b >>> bit) &&& 1)) 0], 0, 0⟩,
      ?_, (by show 0 < k; omega), (by simp), ?_, ?_⟩
    · simp only [pow2_bit_step, hk, if_true, symbol_at_of_lt _ _ hidx]
    · intro d hd
      rcases List.mem_append.mp hd with hd | hd
      · exact h3 d hd
      · rw [List.mem_singleton.mp hd]; exact getD_mem _ _ hidx
    · simp only [List.length_append, List.length_singleton]
      rw [← hk]; ring
  · refine ⟨⟨st.digits, (st.acc <<< 1) ||| ((b >>> bit) &&& 1), st.acc_bits + 1⟩,
      ?_, (by show st.acc_bits + 1 < k; omega), hacc, h3, rfl⟩
    simp only [pow2_bit_step, hk, if_false]

theorem pow2_bits_spec (symbols : List Nat) (k b : Nat) (hlen : symbols.length = 2 ^ k) :
    ∀ (bits : List Nat) (st : BitState), st.acc_bits < k → st.acc < 2 ^ st.acc_bits →
    (∀ d ∈ st.digits, d ∈ symbols) →
    ∃ st1, pow2_bits symbols k b bits st = .ok st1
      ∧ st1.acc_bits < k ∧ st1.acc < 2 ^ st1.acc_bits
      ∧ (∀ d ∈ st1.digits, d ∈ symbols)
      ∧ st1.digits.length * k + st1.acc_bits
          = st.digits.length * k + st.acc_bits + bits.length := by
  intro bits
  induction bits with
  | nil => intro st h1 h2 h3; exact ⟨st, rfl, h1, h2, h3, by simp⟩
  | cons bit rest ih =>
    intro st h1 h2 h3
    obtain ⟨st1, e1, a1, a2, a3, a4⟩ := pow2_bit_step_spec symbols k b bit st hlen h1 h2 h3
    obtain ⟨st2, e2, b1, b2, b3, b4⟩ := ih st1 a1 a2 a3
    refine ⟨st2, ?_, b1, b2, b3, ?_⟩
    · simp only [pow2_bits, e1, e2]
    · rw [b4, a4, List.length_cons]; ring

theorem pow2_bytes_spec (symbols : List Nat) (k : Nat) (hlen : symbols.length = 2 ^ k) :
    ∀ (data : List Nat) (st : BitState), st.acc_bits < k → st.acc < 2 ^ st.acc_bits →
    (∀ d ∈ st.digits, d ∈ symbols) →
    ∃ st1, pow2_bytes symbols k data st = .ok st1
      ∧ st1.acc_bits < k ∧ st1.acc < 2 ^ st1.acc_bits
      ∧ (∀ d ∈ st1.digits, d ∈ symbols)
      ∧ st1.digits.length * k + st1.acc_bits
          = st.digits.length * k + st.acc_bits + 8 * data.length := by
  intro data
  induction data with
  | nil => intro st h1 h2 h3; exact ⟨st, rfl, h1, h2, h3, by simp⟩
  | cons b rest ih =>
    intro st h1 h2 h3
    obtain ⟨st1, e1, a1, a2, a3, a4⟩ :=
      pow2_bits_spec symbols k b hlen [7, 6, 5, 4, 3, 2, 1, 0] st h1 h2 h3
    obtain ⟨st2, e2, b1, b2, b3, b4⟩ := ih st1 a1 a2 a3
    refine ⟨st2, ?_, b1, b2, b3, ?_⟩
    · simp only [pow2_bytes, e1, e2]
    · rw [b4, a4]
      simp only [List.length_cons, List.length_nil]
      ring

/-- The pow2 block encoder on a well-formed pow2 charset: it returns symbols of the
alphabet, `max L g` of them, where `g` is the number of `k`-bit groups covering the
`8 * m` bits of the block. -/
theorem encode_block_pow2_spec (cs : Charset) (hwf : WellFormed cs) (hp : cs.pow2 = true)
    (data : List Nat) (L : Nat) :
    ∃ e g, encode_block_pow2 data cs L = .ok e
      ∧ (∀ c ∈ e, c ∈ cs.symbols)
      ∧ 8 * data.length ≤ g * cs.bits_per_symbol
      ∧ g * cs.bits_per_symbol < 8 * data.length + cs.bits_per_symbol
      ∧ e.length = max L g := by
  have hk := hwf.pow2_bits hp
  have hlen : cs.symbols.length = 2 ^ cs.bits_per_symbol := by
    rw [hwf.length_eq, hwf.pow2_radix hp]
  have h0 : 0 < cs.symbols.length := by rw [hlen]; positivity
  obtain ⟨st, e1, a1, a2, a3, a4⟩ := pow2_bytes_spec cs.symbols cs.bits_per_symbol hlen data
    ⟨[], 0, 0⟩ (by simp only []; omega) (by simp) (by simp)
  simp only [List.length_nil, Nat.zero_mul, Nat.zero_add] at a4
  by_cases hbits : st.acc_bits > 0
  · have hidx : st.acc <<< (cs.bits_per_symbol - st.acc_bits) < cs.symbols.length := by
      rw [hlen, Nat.shiftLeft_eq]
      calc st.acc * 2 ^ (cs.bits_per_symbol - st.acc_bits)
          < 2 ^ st.acc_bits * 2 ^ (cs.bits_per_symbol - st.acc_bits) :=
            Nat.mul_lt_mul_of_pos_right a2 (by positivity)
        _ = 2 ^ cs.bits_per_symbol := by rw [← pow_add]; congr 1; omega
    have hflush : pow2_flush cs.symbols cs.bits_per_symbol st
        = .ok (st.digits ++ [cs.symbols.getD (st.acc <<< (cs.bits_per_symbol - st.acc_bits)) 0]) := by
      simp only [pow2_flush, hbits, if_true, symbol_at_of_lt _ _ hidx]
    refine ⟨List.replicate (L - (st.digits
        ++ [cs.symbols.getD (st.acc <<< (cs.bits_per_symbol - st.acc_bits)) 0]).length)
          (cs.symbols.getD 0 0)
        ++ (st.digits ++ [cs.symbols.getD (st.acc <<< (cs.bits_per_symbol - st.acc_bits)) 0]),
      st.digits.length + 1, ?_, ?_, ?_, ?_, ?_⟩
    · simp only [encode_block_pow2, e1, hflush]
      exact pad_front_eq _ _ _ h0
    · intro c hc
      rcases List.mem_append.mp hc with hc | hc
      · rw [(List.mem_replicate.mp hc).2]; exact getD_mem _ _ h0
      · rcases List.mem_append.mp hc with hc | hc
        · exact a3 c hc
        · rw [List.mem_singleton.mp hc]; exact getD_mem _ _ hidx
    · rw [Nat.add_mul]; omega
    · rw [Nat.add_mul]; omega
    · simp only [List.length_append, List.length_replicate, List.length_singleton]
      omega
  · have hflush : pow2_flush cs.symbols cs.bits_per_symbol st = .ok st.digits := by
      simp only [pow2_flush, hbits, if_false]
    refine ⟨List.replicate (L - st.digits.length) (cs.symbols.getD 0 0) ++ st.digits,
      st.digits.length, ?_, ?_, ?_, ?_, ?_⟩
    · simp only [encode_block_pow2, e1, hflush]
      exact pad_front_eq _ _ _ h0
    · intro c hc
      rcases List.mem_append.mp hc with hc | hc
      · rw [(List.mem_replicate.mp hc).2]; exact getD_mem _ _ h0
      · exact a3 c hc
    · omega
    · omega
    · simp only [List.length_append, List.length_replicate]
      omega

/-- In pow2 mode the reference width covers the bits of a block: `8 * b ≤ k * L`. -/
theorem least_output_length_pow2 (b k : Nat) (hk : 1 ≤ k) :
    8 * b ≤ least_output_length b (2 ^ k) * k := by
  have hr : 2 ≤ 2 ^ k := by
    calc 2 = 2 ^ 1 := rfl
      _ ≤ 2 ^ k := Nat.pow_le_pow_right (by norm_num) hk
  have h := (least_output_length_spec b (2 ^ k) hr).1
  rw [show (256 : Nat) = 2 ^ 8 from rfl, ← pow_mul, ← pow_mul] at h
  have := (Nat.pow_le_pow_iff_right (by norm_num : 1 < 2)).mp h
  rw [Nat.mul_comm k] at this
  exact this

/-- The option loop leaves `charset` empty unless it sets `charset_provided`. -/
theorem parse_options_charset : ∀ (n : Nat) (args : List String) (opts out : Options),
    args.length ≤ n → parse_options args opts = .ok out →
    (opts.charset_provided = false → opts.charset = "") →
    (out.charset_provided = false → out.charset = "") := by
  intro n
  induction n with
  | zero =>
    intro args opts out hlen h hin
    have : args = [] := List.length_eq_zero.mp (by omega)
    subst this
    simp only [parse_options] at h
    cases h
    exact hin
  | succ n ih =>
    intro args opts out hlen h hin
    match args, hlen, h with
    | [], _, h =>
      simp only [parse_options] at h
      cases h
      exact hin
    | [tok], _, h =>
      simp only [parse_options] at h
      split at h
      · cases h
      · split at h
        · cases h; exact hin
        · split at h
          · cases h; exact hin
          · cases h
    | tok :: value :: rest, hlen, h =>
      simp only [List.length_cons] at hlen
      simp only [parse_options] at h
      split at h
      · exact ih rest _ out (by omega) h hin
      · split at h
        · exact ih rest _ out (by omega) h hin
        · split at h
          · exact ih rest _ out (by omega) h (fun hf => by simp at hf)
          · split at h
            · exact ih (value :: rest) _ out (by simp only [List.length_cons]; omega) h hin
            · split at h
              · split at h
                · cases h
                · exact ih rest _ out (by omega) h hin
              · split at h
                · exact ih (value :: rest) _ out (by simp only [List.length_cons]; omega) h hin
                · cases h

/-- Whatever the files, a command line that `parse_args` accepts without a `--charset`
option makes `main` exit with status 1: the charset is built from the empty option string
before the mode is examined. -/
theorem main_without_charset (compute_output_length : Nat → Nat → Nat) (fs : Files)
    (args : List String) (opts : Options)
    (h : parse_args args = .ok opts) (hc : opts.charset_provided = false) :
    main compute_output_length fs args
      = .ok ⟨1, "Error: Charset must contain at least 2 unique symbols\n", none⟩ := by
  have hcharset : opts.charset = "" := by
    unfold parse_args at h
    split at h
    · cases h
    · rename_i mode rest
      split at h
      · cases h
      · split at h
        · cases h
        · rename_i o ho
          have hinv := parse_options_charset rest.length rest _ o (le_refl _) ho (fun _ => rfl)
          split at h
          · cases h
          · split at h
            · split at h
              · cases h
              · cases h; exact hinv hc
            · split at h
              · cases h
              · split at h
                · cases h
                · cases h; exact hinv hc
  have hbuild : build_charset (string_bytes opts.charset) opts.pow2
      = .error (.runtime_error "Charset must contain at least 2 unique symbols") := by
    rw [hcharset]
    cases opts.pow2 <;> decide
  simp only [main, run, h, hbuild]
  rfl

/-! ## Round trip, length and membership -/

/-- C2 (defect of the code): with the pow2 charset `ABCDEFGH` (k = 3), block size 1 and
`L = 3`, the full block `0xFF` is encoded as `HHG` and that chunk is decoded to `0xFE`: the
encoder pads the last symbol on the low side, the decoder drops the leading bit. -/
theorem pow2_round_trip_unaligned :
    build_charset [65, 66, 67, 68, 69, 70, 71, 72] true
        = .ok ⟨[65, 66, 67, 68, 69, 70, 71, 72], 8, 8, 3, true⟩
      ∧ least_output_length 1 8 = 3
      ∧ encode_block_pow2 [255] ⟨[65, 66, 67, 68, 69, 70, 71, 72], 8, 8, 3, true⟩ 3
        = .ok [72, 72, 71]
      ∧ decode_block_pow2 [72, 72, 71] 1 ⟨[65, 66, 67, 68, 69, 70, 71, 72], 8, 8, 3, true⟩
        = .ok [254] := by
  decide

/-- C3 (defect of the code): a file written by `encode` with the header enabled (charset
`0123`, block size 2, input bytes 1 2 3 4) is rejected by `decode` run without `--charset`:
`main` builds the charset from the empty option string before it looks at the mode, and
exits with status 1.  The width of the encode run is `⌈16 / log2 4⌉ = 8`. -/
theorem header_decode_without_charset :
    main least_output_length
        ⟨fun p => if p = "in.bin" then some [1, 2, 3, 4] else none, fun _ => true,
          fun _ _ => false⟩
        ["encode", "--input", "in.bin", "--output", "enc.txt", "--charset", "0123",
          "--block", "2"]
      = .ok ⟨0, "", some ("enc.txt",
          [70, 76, 88, 66, 1, 0, 0, 0, 0, 0, 0, 0, 2, 0, 0, 0, 8, 0, 0, 0, 4, 0, 0, 0,
            48, 49, 50, 51, 48, 48, 48, 49, 48, 48, 48, 50, 48, 48, 48, 51, 48, 48, 49, 48])⟩
    ∧ main least_output_length
        ⟨fun p => if p = "enc.txt" then some
          [70, 76, 88, 66, 1, 0, 0, 0, 0, 0, 0, 0, 2, 0, 0, 0, 8, 0, 0, 0, 4, 0, 0, 0,
            48, 49, 50, 51, 48, 48, 48, 49, 48, 48, 48, 50, 48, 48, 48, 51, 48, 48, 49, 48]
          else none, fun _ => true, fun _ _ => false⟩
        ["decode", "--input", "enc.txt", "--output", "out.bin"]
      = .ok ⟨1, "Error: Charset must contain at least 2 unique symbols\n", none⟩ := by
  decide

/-- C5: alphabet membership.  For a charset returned by `build_charset` in either mode, any
output length and any block, the block encoder returns a string (no symbol index leaves the
range of `symbols`) and every byte of it is an element of `charset.symbols`. -/
theorem encode_alphabet_membership (raw : List Nat) (pow2 : Bool) (cs : Charset)
    (output_length : Nat) (block : List Nat)
    (hcs : build_charset raw pow2 = .ok cs) (hbytes : ∀ x ∈ block, x < 256) :
    ∃ e, encode_block cs output_length block = .ok e ∧ ∀ c ∈ e, c ∈ cs.symbols := by
  have hwf := build_charset_wellFormed hcs
  cases hp : cs.pow2 with
  | true =>
    obtain ⟨e, _, h1, h2, _⟩ := encode_block_pow2_spec cs hwf hp block output_length
    exact ⟨e, by simp only [encode_block, hp, if_true, h1], h2⟩
  | false =>
    obtain ⟨e, h1, _, h3, _⟩ := decode_encode_general cs hwf block hbytes output_length 0
    exact ⟨e, by simp [encode_block, hp, h1], h3⟩

/-- C5 witness: general charset `0123`, output length 1 (too short for the block). -/
theorem encode_alphabet_membership_witness :
    ∃ e, encode_block ⟨[48, 49, 50, 51], 4, 4, 0, false⟩ 1 [200, 7] = .ok e
      ∧ ∀ c ∈ e, c ∈ [48, 49, 50, 51] :=
  encode_alphabet_membership [48, 49, 50, 51] false ⟨[48, 49, 50, 51], 4, 4, 0, false⟩ 1
    [200, 7] (by decide) (by decide)

/-! ## The charset builder -/

/-- C6 (as stated, refuted): for the raw alphabet `ABC` in pow2 mode the first build keeps
`radix = 3` while the build from its symbols `AB` has `radix = 2`, so the two `Charset`
values differ. -/
theorem build_charset_not_idempotent :
    build_charset [65, 66, 67] true = .ok ⟨[65, 66], 3, 2, 1, true⟩
      ∧ build_charset [65, 66] true = .ok ⟨[65, 66], 2, 2, 1, true⟩
      ∧ build_charset [65, 66] true ≠ build_charset [65, 66, 67] true := by
  decide

/-- C6 (amended): rebuilding from the symbols of a built charset succeeds and returns the
same symbols, effective radix, bits per symbol and mode flag, with `radix` equal to the
effective radix of the first build; the two values are equal exactly when the first build
has `radix = effective_radix`, which always holds in general mode. -/
theorem build_charset_idempotent_up_to_radix (raw : List Nat) (flag : Bool) (cs : Charset)
    (h : build_charset raw flag = .ok cs) :
    build_charset cs.symbols flag = .ok { cs with radix := cs.effective_radix }
      ∧ (build_charset cs.symbols flag = .ok cs ↔ cs.radix = cs.effective_radix)
      ∧ (flag = false → cs.radix = cs.effective_radix) := by
  have hwf := build_charset_wellFormed h
  have hflag := build_charset_flag h
  have hsym : first_occurrences (cs.symbols.map (fun c => c % 256)) = cs.symbols := by
    rw [map_mod_of_bytes _ hwf.bytes]
    exact first_occurrences_of_nodup _ [] hwf.nodup (fun _ _ => List.not_mem_nil _)
  have hgen : flag = false → cs.radix = cs.effective_radix ∧ cs.bits_per_symbol = 0 := by
    intro hf
    subst hf
    rw [build_charset_eq] at h
    split at h
    · cases h
    · simp only [Bool.false_eq_true, if_false] at h
      cases h
      exact ⟨rfl, rfl⟩
  have hfirst : build_charset cs.symbols flag = .ok { cs with radix := cs.effective_radix } := by
    rw [build_charset_eq, hsym, hwf.length_eq, if_neg (by have := hwf.two_le; omega)]
    cases flag with
    | true =>
      have hr := hwf.pow2_radix hflag
      have hlog : Nat.log 2 cs.effective_radix = cs.bits_per_symbol := by
        rw [hr]; exact Nat.log_pow (by norm_num) _
      simp only [if_true, hlog]
      have htake : cs.symbols.take (2 ^ cs.bits_per_symbol) = cs.symbols := by
        apply List.take_of_length_le
        rw [hwf.length_eq, hr]
      rw [htake, ← hr]
      cases cs
      simp_all
    | false =>
      obtain ⟨_, hb⟩ := hgen rfl
      simp only [Bool.false_eq_true, if_false]
      cases cs
      simp_all
  refine ⟨hfirst, ?_, fun hf => (hgen hf).1⟩
  rw [hfirst]
  constructor
  · intro heq
    have := congrArg Charset.radix (Except.ok.inj heq)
    exact this.symm
  · intro heq
    cases cs
    simp_all

/-- C6 witness: raw alphabet `ABCDEFGHIJ` in pow2 mode. -/
theorem build_charset_idempotent_up_to_radix_witness :
    build_charset [65, 66, 67, 68, 69, 70, 71, 72, 73, 74] true
        = .ok ⟨[65, 66, 67, 68, 69, 70, 71, 72], 10, 8, 3, true⟩
      ∧ build_charset [65, 66, 67, 68, 69, 70, 71, 72] true
        = .ok ⟨[65, 66, 67, 68, 69, 70, 71, 72], 8, 8, 3, true⟩ :=
  ⟨by decide,
    (build_charset_idempotent_up_to_radix [65, 66, 67, 68, 69, 70, 71, 72, 73, 74] true
      ⟨[65, 66, 67, 68, 69, 70, 71, 72], 10, 8, 3, true⟩ (by decide)).1⟩

/-- C7: invariants of every charset returned by `build_charset`. -/
theorem build_charset_invariants (raw : List Nat) (pow2 : Bool) (cs : Charset)
    (hraw : ∀ c ∈ raw, c < 256) (h : build_charset raw pow2 = .ok cs) :
    cs.symbols.length = cs.effective_radix ∧ 2 ≤ cs.effective_radix
      ∧ cs.symbols.Nodup
      ∧ cs.radix = raw.toFinset.card
      ∧ cs.pow2 = pow2
      ∧ (pow2 = false → cs.effective_radix = cs.radix ∧ cs.bits_per_symbol = 0)
      ∧ (pow2 = true → cs.bits_per_symbol = Nat.log 2 cs.radix ∧ 1 ≤ cs.bits_per_symbol
          ∧ cs.effective_radix = 2 ^ cs.bits_per_symbol
          ∧ cs.effective_radix ≤ cs.radix ∧ cs.radix < 2 * cs.effective_radix) := by
  have hwf := build_charset_wellFormed h
  have hflag := build_charset_flag h
  refine ⟨hwf.length_eq, hwf.two_le, hwf.nodup, ?_, hflag, ?_, ?_⟩
  · rw [build_charset_eq, map_mod_of_bytes raw hraw] at h
    split at h
    · cases h
    · split at h <;> cases h <;> exact first_occurrences_length raw
  · intro hp
    subst hp
    rw [build_charset_eq] at h
    split at h
    · cases h
    · simp only [Bool.false_eq_true, if_false] at h
      cases h
      exact ⟨rfl, rfl⟩
  · intro hp
    subst hp
    rw [build_charset_eq] at h
    split at h
    · cases h
    · rename_i hlen
      simp only [if_true] at h
      cases h
      have hpos : (first_occurrences (raw.map (fun c => c % 256))).length ≠ 0 := by omega
      refine ⟨rfl, hwf.pow2_bits rfl, rfl, Nat.pow_log_le_self 2 hpos, ?_⟩
      have := Nat.lt_pow_succ_log_self (b := 2) (by norm_num)
        (first_occurrences (raw.map (fun c => c % 256))).length
      rw [pow_succ] at this
      show (first_occurrences (raw.map (fun c => c % 256))).length
        < 2 * 2 ^ Nat.log 2 (first_occurrences (raw.map (fun c => c % 256))).length
      omega

/-- C7 witness: raw alphabet `ABCDEFGHIJ` in pow2 mode. -/
theorem build_charset_invariants_witness :
    (⟨[65, 66, 67, 68, 69, 70, 71, 72], 10, 8, 3, true⟩ : Charset).symbols.length
        = (⟨[65, 66, 67, 68, 69, 70, 71, 72], 10, 8, 3, true⟩ : Charset).effective_radix
      ∧ 2 ≤ (⟨[65, 66, 67, 68, 69, 70, 71, 72], 10, 8, 3, true⟩ : Charset).effective_radix
      ∧ (⟨[65, 66, 67, 68, 69, 70, 71, 72], 10, 8, 3, true⟩ : Charset).symbols.Nodup
      ∧ (⟨[65, 66, 67, 68, 69, 70, 71, 72], 10, 8, 3, true⟩ : Charset).radix
        = [65, 66, 67, 68, 69, 70, 71, 72, 73, 74].toFinset.card :=
  have h := build_charset_invariants [65, 66, 67, 68, 69, 70, 71, 72, 73, 74] true
    ⟨[65, 66, 67, 68, 69, 70, 71, 72], 10, 8, 3, true⟩ (by decide) (by decide)
  ⟨h.1, h.2.1, h.2.2.1, h.2.2.2.1⟩

/-- C8: the symbols of a built charset are the reference normalisation `U` of the raw
alphabet in general mode, and the first `2 ^ k` bytes of `U`, `k = ⌊log2 |U|⌋`, in pow2
mode. -/
theorem build_charset_symbols (raw : List Nat) (pow2 : Bool) (cs : Charset)
    (hraw : ∀ c ∈ raw, c < 256) (h : build_charset raw pow2 = .ok cs) :
    (pow2 = false → cs.symbols = first_occurrences raw)
      ∧ (pow2 = true →
          cs.symbols = (first_occurrences raw).take (2 ^ Nat.log 2 (first_occurrences raw).length)
          ∧ cs.bits_per_symbol = Nat.log 2 (first_occurrences raw).length) := by
  rw [build_charset_eq, map_mod_of_bytes raw hraw] at h
  split at h
  · cases h
  · constructor
    · intro hp
      subst hp
      simp only [Bool.false_eq_true, if_false] at h
      cases h
      rfl
    · intro hp
      subst hp
      simp only [if_true] at h
      cases h
      exact ⟨rfl, rfl⟩

/-- C8 witness: raw `ABCDEFGHIJ` with pow2 gives symbols `ABCDEFGH` and `k = 3`. -/
theorem build_charset_symbols_witness :
    build_charset [65, 66, 67, 68, 69, 70, 71, 72, 73, 74] true
        = .ok ⟨[65, 66, 67, 68, 69, 70, 71, 72], 10, 8, 3, true⟩
      ∧ [65, 66, 67, 68, 69, 70, 71, 72]
        = (first_occurrences [65, 66, 67, 68, 69, 70, 71, 72, 73, 74]).take
            (2 ^ Nat.log 2 (first_occurrences [65, 66, 67, 68, 69, 70, 71, 72, 73, 74]).length)
      ∧ 3 = Nat.log 2 (first_occurrences [65, 66, 67, 68, 69, 70, 71, 72, 73, 74]).length :=
  ⟨by decide,
    ((build_charset_symbols [65, 66, 67, 68, 69, 70, 71, 72, 73, 74] true
      ⟨[65, 66, 67, 68, 69, 70, 71, 72], 10, 8, 3, true⟩ (by decide) (by decide)).2 rfl).1,
    ((build_charset_symbols [65, 66, 67, 68, 69, 70, 71, 72, 73, 74] true
      ⟨[65, 66, 67, 68, 69, 70, 71, 72], 10, 8, 3, true⟩ (by decide) (by decide)).2 rfl).2⟩

/-- C9: `build_charset` fails, with the text "Charset must contain at least 2 unique
symbols", exactly when the raw alphabet has fewer than two distinct byte values, whatever
the pow2 flag; otherwise it returns a charset. -/
theorem build_charset_fails_iff (raw : List Nat) (pow2 : Bool)
    (hraw : ∀ c ∈ raw, c < 256) :
    (build_charset raw pow2
        = .error (.runtime_error "Charset must contain at least 2 unique symbols")
      ↔ raw.toFinset.card < 2)
    ∧ ((∃ cs, build_charset raw pow2 = .ok cs) ↔ 2 ≤ raw.toFinset.card) := by
  rw [build_charset_eq, map_mod_of_bytes raw hraw, first_occurrences_length]
  by_cases hlt : raw.toFinset.card < 2
  · simp [hlt]
  · rw [if_neg hlt]
    constructor
    · constructor
      · intro h
        split at h <;> cases h
      · intro h; exact absurd h hlt
    · constructor
      · intro _; omega
      · intro _
        split
        · exact ⟨_, rfl⟩
        · exact ⟨_, rfl⟩

/-- C9 witness: the raw alphabet `AAA` has one distinct byte and is rejected. -/
theorem build_charset_fails_iff_witness :
    build_charset [65, 65, 65] false
      = .error (.runtime_error "Charset must contain at least 2 unique symbols") :=
  (build_charset_fails_iff [65, 65, 65] false (by decide)).1.mpr (by decide)

/-! ## Width of an encoded block -/

/-- Leastness of the reference width: any `L` with `256 ^ b ≤ radix ^ L` is at least it. -/
theorem least_output_length_le (b radix L : Nat) (hr : 2 ≤ radix)
    (hL : 256 ^ b ≤ radix ^ L) : least_output_length b radix ≤ L := by
  by_contra h
  have := (least_output_length_spec b radix hr).2 L (by omega)
  omega

/-- The real quotient `8 * b / log2 radix` is at most `j` exactly when
`256 ^ b ≤ radix ^ j`. -/
theorem width_quotient_le_iff (b radix j : Nat) (hr : 2 ≤ radix) :
    (8 * (b : ℝ)) / Real.logb 2 radix ≤ j ↔ 256 ^ b ≤ radix ^ j := by
  have hrpos : (0 : ℝ) < radix := by exact_mod_cast (by omega : 0 < radix)
  have hlog : 0 < Real.logb 2 radix := by
    apply Real.logb_pos (by norm_num)
    exact_mod_cast (by omega : 1 < radix)
  rw [div_le_iff₀ hlog]
  have h1 : Real.logb 2 ((256 : ℝ) ^ b) = 8 * (b : ℝ) := by
    rw [show (256 : ℝ) = 2 ^ (8 : ℕ) by norm_num, ← pow_mul, Real.logb_pow]
    rw [Real.logb_self_eq_one (by norm_num)]
    push_cast
    ring
  have h2 : Real.logb 2 ((radix : ℝ) ^ j) = j * Real.logb 2 radix := Real.logb_pow _ _ _
  rw [← h1, ← h2, Real.logb_le_logb (by norm_num) (by positivity) (by positivity)]
  exact_mod_cast Iff.rfl

/-- The reference width is the exact value of the source expression
`ceil(8 * b / log2(radix))` over the reals. -/
theorem least_output_length_eq_ceil (b radix : Nat) (hr : 2 ≤ radix) :
    least_output_length b radix = ⌈(8 * (b : ℝ)) / Real.logb 2 radix⌉₊ := by
  apply le_antisymm
  · apply least_output_length_le b radix _ hr
    exact (width_quotient_le_iff b radix _ hr).mp (Nat.le_ceil _)
  · apply Nat.ceil_le.mpr
    exact (width_quotient_le_iff b radix _ hr).mpr (least_output_length_spec b radix hr).1

/-- The reference width is non-decreasing in the block size and non-increasing in the
radix. -/
theorem least_output_length_mono (b b1 R R1 : Nat) (hb : b ≤ b1) (hR : 2 ≤ R)
    (hRR : R ≤ R1) :
    least_output_length b R ≤ least_output_length b1 R
      ∧ least_output_length b R1 ≤ least_output_length b R := by
  constructor
  · apply least_output_length_le b R _ hR
    calc 256 ^ b ≤ 256 ^ b1 := Nat.pow_le_pow_right (by norm_num) hb
      _ ≤ R ^ least_output_length b1 R := (least_output_length_spec b1 R hR).1
  · apply least_output_length_le b R1 _ (by omega)
    calc 256 ^ b ≤ R ^ least_output_length b R := (least_output_length_spec b R hR).1
      _ ≤ R1 ^ least_output_length b R := Nat.pow_le_pow_left hRR _

/-! ## Failures of the decoders and of the decode loop -/

theorem index_in_charset_ok_iff (c : Nat) (symbols : List Nat) :
    (∃ i, index_in_charset c symbols = .ok i) ↔ c ∈ symbols := by
  unfold index_in_charset
  by_cases h : c ∈ symbols
  · simp [List.indexOf_lt_length.mpr h, h]
  · have : ¬ List.indexOf c symbols < symbols.length := fun hlt => h (List.indexOf_lt_length.mp hlt)
    simp [this, h]

theorem index_in_charset_error (c : Nat) (symbols : List Nat) (h : c ∉ symbols) :
    index_in_charset c symbols = .error (.runtime_error "Invalid symbol in encoded stream") := by
  unfold index_in_charset
  have : ¬ List.indexOf c symbols < symbols.length := fun hlt => h (List.indexOf_lt_length.mp hlt)
  simp [this]

/-- The symbol loop of the general decoder stops with a throw exactly on a chunk that holds
a byte outside the alphabet. -/
theorem general_accumulate_cases (cs : Charset) : ∀ (chunk num : List Nat),
    ((∃ c ∈ chunk, c ∉ cs.symbols) ∧ general_accumulate cs chunk num
        = .error (.runtime_error "Invalid symbol in encoded stream"))
    ∨ ((∀ c ∈ chunk, c ∈ cs.symbols) ∧ ∃ out, general_accumulate cs chunk num = .ok out) := by
  intro chunk
  induction chunk with
  | nil => intro num; exact Or.inr ⟨by simp, num, rfl⟩
  | cons c rest ih =>
    intro num
    by_cases hc : c ∈ cs.symbols
    · obtain ⟨i, hi⟩ := (index_in_charset_ok_iff c cs.symbols).mpr hc
      rcases ih (multiply_add num cs.effective_radix i) with ⟨⟨d, hd, hbad⟩, herr⟩ | ⟨hall, out, hok⟩
      · left
        exact ⟨⟨d, by simp [hd], hbad⟩, by simp only [general_accumulate, hi, herr]⟩
      · right
        refine ⟨?_, out, by simp only [general_accumulate, hi, hok]⟩
        intro x hx
        rcases List.mem_cons.mp hx with hx | hx
        · rw [hx]; exact hc
        · exact hall x hx
    · left
      exact ⟨⟨c, by simp, hc⟩,
        by simp only [general_accumulate, index_in_charset_error c cs.symbols hc]⟩

theorem symbol_bits_length (k idx : Nat) : (symbol_bits k idx).length = k := by
  simp [symbol_bits]

/-- The bit loop of the pow2 decoder stops with a throw exactly on a chunk that holds a byte
outside the alphabet; otherwise it yields `k` bits per symbol. -/
theorem chunk_bits_cases (cs : Charset) : ∀ (chunk : List Nat),
    ((∃ c ∈ chunk, c ∉ cs.symbols) ∧ chunk_bits cs chunk
        = .error (.runtime_error "Invalid symbol in encoded stream"))
    ∨ ((∀ c ∈ chunk, c ∈ cs.symbols) ∧ ∃ bits, chunk_bits cs chunk = .ok bits
        ∧ bits.length = chunk.length * cs.bits_per_symbol) := by
  intro chunk
  induction chunk with
  | nil => exact Or.inr ⟨by simp, [], rfl, by simp⟩
  | cons c rest ih =>
    by_cases hc : c ∈ cs.symbols
    · obtain ⟨i, hi⟩ := (index_in_charset_ok_iff c cs.symbols).mpr hc
      rcases ih with ⟨⟨d, hd, hbad⟩, herr⟩ | ⟨hall, bits, hok, hlen⟩
      · left
        exact ⟨⟨d, by simp [hd], hbad⟩, by simp only [chunk_bits, hi, herr]⟩
      · right
        refine ⟨?_, symbol_bits cs.bits_per_symbol i ++ bits,
          by simp only [chunk_bits, hi, hok], ?_⟩
        · intro x hx
          rcases List.mem_cons.mp hx with hx | hx
          · rw [hx]; exact hc
          · exact hall x hx
        · rw [List.length_append, symbol_bits_length, hlen, List.length_cons]; ring
    · left
      exact ⟨⟨c, by simp, hc⟩,
        by simp only [chunk_bits, index_in_charset_error c cs.symbols hc]⟩

theorem decode_block_general_fails_iff (cs : Charset) (chunk : List Nat) (block_bytes : Nat) :
    (∃ what, decode_block_general chunk block_bytes cs = .error (.runtime_error what))
      ↔ ∃ c ∈ chunk, c ∉ cs.symbols := by
  unfold decode_block_general
  rcases general_accumulate_cases cs chunk [0] with ⟨hbad, herr⟩ | ⟨hall, out, hok⟩
  · rw [herr]
    exact ⟨fun _ => hbad, fun _ => ⟨_, rfl⟩⟩
  · rw [hok]
    constructor
    · rintro ⟨what, h⟩; cases h
    · rintro ⟨c, hc, hbad⟩; exact absurd (hall c hc) hbad

theorem decode_block_pow2_fails_iff (cs : Charset) (chunk : List Nat) (block_bytes : Nat) :
    (∃ what, decode_block_pow2 chunk block_bytes cs = .error (.runtime_error what))
      ↔ (∃ c ∈ chunk, c ∉ cs.symbols)
        ∨ chunk.length * cs.bits_per_symbol < 8 * block_bytes := by
  unfold decode_block_pow2
  rcases chunk_bits_cases cs chunk with ⟨hbad, herr⟩ | ⟨hall, bits, hok, hlen⟩
  · rw [herr]
    exact ⟨fun _ => Or.inl hbad, fun _ => ⟨_, rfl⟩⟩
  · rw [hok]
    simp only []
    by_cases hshort : bits.length < block_bytes * 8
    · rw [if_pos hshort]
      exact ⟨fun _ => Or.inr (by omega), fun _ => ⟨_, rfl⟩⟩
    · rw [if_neg hshort]
      constructor
      · rintro ⟨what, h⟩; cases h
      · rintro (⟨c, hc, hbad⟩ | h)
        · exact absurd (hall c hc) hbad
        · omega

/-- Every failure of a block decoder is a thrown `std::runtime_error`, and a chunk that is
decoded holds bytes of the alphabet only. -/
theorem decode_block_cases (cs : Charset) (block_size : Nat) (chunk : List Nat) :
    (∃ what, decode_block cs block_size chunk = .error (.runtime_error what))
    ∨ ((∀ c ∈ chunk, c ∈ cs.symbols) ∧ ∃ d, decode_block cs block_size chunk = .ok d) := by
  unfold decode_block
  cases hp : cs.pow2 with
  | true =>
    simp only [if_true]
    unfold decode_block_pow2
    rcases chunk_bits_cases cs chunk with ⟨_, herr⟩ | ⟨hall, bits, hok, _⟩
    · rw [herr]; exact Or.inl ⟨_, rfl⟩
    · rw [hok]
      simp only []
      split
      · exact Or.inl ⟨_, rfl⟩
      · exact Or.inr ⟨hall, _, rfl⟩
  | false =>
    simp only [Bool.false_eq_true, if_false]
    unfold decode_block_general
    rcases general_accumulate_cases cs chunk [0] with ⟨_, herr⟩ | ⟨hall, out, hok⟩
    · rw [herr]; exact Or.inl ⟨_, rfl⟩
    · rw [hok]; exact Or.inr ⟨hall, _, rfl⟩

theorem decode_loop_short (cs : Charset) (b L fuel : Nat) (input : List Nat)
    (hne : input ≠ []) (hlt : input.length < L) :
    decode_loop cs b L (fuel + 1) input
      = .error (.runtime_error "Partial block encountered during decode") := by
  have hpos : 0 < input.length := List.length_pos.mpr hne
  have h1 : (input.take L).length = input.length := by
    rw [List.length_take]; omega
  have h0 : ¬ input.length = 0 := by omega
  have h2 : ¬ input.length = L := by omega
  simp only [decode_loop, h1, h0, h2, if_false, ne_eq, not_false_eq_true, if_true]

theorem decode_loop_block_error (cs : Charset) (b L fuel : Nat) (input : List Nat)
    (e : Failure) (hL : 1 ≤ L) (hle : L ≤ input.length)
    (hd : decode_block cs b (input.take L) = .error e) :
    decode_loop cs b L (fuel + 1) input = .error e := by
  have h1 : (input.take L).length = L := by
    rw [List.length_take]; omega
  have h0 : ¬ L = 0 := by omega
  simp only [decode_loop, h1, h0, if_false, ne_eq, not_true_eq_false, hd]

theorem decode_loop_rest_error (cs : Charset) (b L fuel : Nat) (input d : List Nat)
    (e : Failure) (hL : 1 ≤ L) (hle : L ≤ input.length)
    (hd : decode_block cs b (input.take L) = .ok d)
    (hrest : decode_loop cs b L fuel (input.drop L) = .error e) :
    decode_loop cs b L (fuel + 1) input = .error e := by
  have h1 : (input.take L).length = L := by
    rw [List.length_take]; omega
  have h0 : ¬ L = 0 := by omega
  simp only [decode_loop, h1, h0, if_false, ne_eq, not_true_eq_false, hd, hrest]

theorem decode_loop_rest_ok (cs : Charset) (b L fuel : Nat) (input d written : List Nat)
    (hL : 1 ≤ L) (hle : L ≤ input.length)
    (hd : decode_block cs b (input.take L) = .ok d)
    (hrest : decode_loop cs b L fuel (input.drop L) = .ok written) :
    decode_loop cs b L (fuel + 1) input = .ok (d ++ written) := by
  have h1 : (input.take L).length = L := by
    rw [List.length_take]; omega
  have h0 : ¬ L = 0 := by omega
  simp only [decode_loop, h1, h0, if_false, ne_eq, not_true_eq_false, hd, hrest]

theorem dvd_length_drop_iff (L : Nat) (input : List Nat) (hle : L ≤ input.length) :
    L ∣ (input.drop L).length ↔ L ∣ input.length := by
  rw [List.length_drop]
  constructor
  · intro h
    have := (Nat.dvd_add_right (dvd_refl L)).mpr h
    rwa [Nat.add_sub_cancel' hle] at this
  · intro h
    exact Nat.dvd_sub' h (dvd_refl L)

/-- A payload with a byte outside the alphabet makes the decode loop throw, for any chunk
width of at least 1. -/
theorem decode_loop_foreign_byte (cs : Charset) (b L : Nat) (hL : 1 ≤ L) :
    ∀ (fuel : Nat) (input : List Nat), input.length ≤ fuel →
    (∃ c ∈ input, c ∉ cs.symbols) →
    ∃ what, decode_loop cs b L fuel input = .error (.runtime_error what) := by
  intro fuel
  induction fuel with
  | zero =>
    intro input hlen hbad
    have : input = [] := List.length_eq_zero.mp (by omega)
    subst this
    obtain ⟨c, hc, _⟩ := hbad
    simp at hc
  | succ fuel ih =>
    intro input hlen hbad
    have hne : input ≠ [] := by
      rintro rfl
      obtain ⟨c, hc, _⟩ := hbad
      simp at hc
    by_cases hlt : input.length < L
    · exact ⟨_, decode_loop_short cs b L fuel input hne hlt⟩
    · have hle : L ≤ input.length := by omega
      rcases decode_block_cases cs b (input.take L) with ⟨what, herr⟩ | ⟨hall, d, hok⟩
      · exact ⟨what, decode_loop_block_error cs b L fuel input _ hL hle herr⟩
      · obtain ⟨c, hc, hcbad⟩ := hbad
        have hcrest : c ∈ input.drop L := by
          rw [← List.take_append_drop L input] at hc
          rcases List.mem_append.mp hc with h | h
          · exact absurd (hall c h) hcbad
          · exact h
        obtain ⟨what, herr⟩ := ih (input.drop L) (by rw [List.length_drop]; omega)
          ⟨c, hcrest, hcbad⟩
        exact ⟨what, decode_loop_rest_error cs b L fuel input d _ hL hle hok herr⟩

/-- A payload whose length is not a multiple of the chunk width makes the decode loop
throw. -/
theorem decode_loop_not_multiple (cs : Charset) (b L : Nat) (hL : 1 ≤ L) :
    ∀ (fuel : Nat) (input : List Nat), input.length ≤ fuel → ¬ L ∣ input.length →
    ∃ what, decode_loop cs b L fuel input = .error (.runtime_error what) := by
  intro fuel
  induction fuel with
  | zero =>
    intro input hlen hnd
    have : input.length = 0 := by omega
    rw [this] at hnd
    exact absurd (dvd_zero L) hnd
  | succ fuel ih =>
    intro input hlen hnd
    have hne : input ≠ [] := by
      rintro rfl
      exact hnd (dvd_zero L)
    by_cases hlt : input.length < L
    · exact ⟨_, decode_loop_short cs b L fuel input hne hlt⟩
    · have hle : L ≤ input.length := by omega
      rcases decode_block_cases cs b (input.take L) with ⟨what, herr⟩ | ⟨_, d, hok⟩
      · exact ⟨what, decode_loop_block_error cs b L fuel input _ hL hle herr⟩
      · have hnd1 : ¬ L ∣ (input.drop L).length :=
          fun h => hnd ((dvd_length_drop_iff L input hle).mp h)
        obtain ⟨what, herr⟩ := ih (input.drop L) (by rw [List.length_drop]; omega) hnd1
        exact ⟨what, decode_loop_rest_error cs b L fuel input d _ hL hle hok herr⟩

/-- When every full chunk decodes, the decode loop writes the decoded chunks in input order
and throws on a final partial chunk. -/
theorem decode_loop_chunks (cs : Charset) (b L : Nat) (hL : 1 ≤ L) :
    ∀ (n fuel : Nat) (input : List Nat) (ds : Nat → List Nat),
    input.length / L = n → input.length ≤ fuel →
    (∀ i, i < n → decode_block cs b ((input.drop (i * L)).take L) = .ok (ds i)) →
    (L ∣ input.length → decode_loop cs b L fuel input = .ok ((List.range n).flatMap ds))
      ∧ (¬ L ∣ input.length → decode_loop cs b L fuel input
          = .error (.runtime_error "Partial block encountered during decode")) := by
  intro n
  induction n with
  | zero =>
    intro fuel input ds hn hfuel _
    have hlt : input.length < L := (Nat.div_eq_zero_iff (by omega)).mp hn
    constructor
    · intro hdvd
      have : input.length = 0 := Nat.eq_zero_of_dvd_of_lt hdvd hlt
      have : input = [] := List.length_eq_zero.mp this
      subst this
      simp [decode_loop_nil]
    · intro hnd
      have hne : input ≠ [] := by rintro rfl; exact hnd (dvd_zero L)
      obtain ⟨f, rfl⟩ : ∃ f, fuel = f + 1 := ⟨fuel - 1, by
        have := List.length_pos.mpr hne; omega⟩
      exact decode_loop_short cs b L f input hne hlt
  | succ n ih =>
    intro fuel input ds hn hfuel hds
    have hle : L ≤ input.length := by
      by_contra h
      have : input.length / L = 0 := Nat.div_eq_of_lt (by omega)
      omega
    obtain ⟨f, rfl⟩ : ∃ f, fuel = f + 1 := ⟨fuel - 1, by omega⟩
    have h0 : decode_block cs b (input.take L) = .ok (ds 0) := by
      have := hds 0 (by omega)
      simpa using this
    have hrestlen : (input.drop L).length / L = n := by
      rw [List.length_drop]
      have := Nat.sub_mul_div input.length L 1 (by simpa using hle)
      rw [Nat.mul_one] at this
      rw [this, hn]; rfl
    have hrestds : ∀ i, i < n →
        decode_block cs b (((input.drop L).drop (i * L)).take L) = .ok (ds (i + 1)) := by
      intro i hi
      have := hds (i + 1) (by omega)
      rw [List.drop_drop]
      rwa [show (i + 1) * L = L + i * L by ring] at this
    obtain ⟨ih1, ih2⟩ := ih f (input.drop L) (fun i => ds (i + 1)) hrestlen
      (by rw [List.length_drop]; omega) hrestds
    have hdvd_iff := dvd_length_drop_iff L input hle
    constructor
    · intro hdvd
      rw [decode_loop_rest_ok cs b L f input (ds 0) _ hL hle h0 (ih1 (hdvd_iff.mpr hdvd))]
      rw [List.range_succ_eq_map, List.flatMap_cons, List.flatMap_map]
    · intro hnd
      exact decode_loop_rest_error cs b L f input (ds 0) _ hL hle h0
        (ih2 (fun h => hnd (hdvd_iff.mp h)))

/-- A chunk of alphabet bytes is decoded: the general decoder accepts it as it is, the pow2
decoder when its symbols carry at least the bits of a block. -/
theorem decode_block_ok (cs : Charset) (b : Nat) (chunk : List Nat)
    (hall : ∀ c ∈ chunk, c ∈ cs.symbols)
    (hbits : cs.pow2 = true → 8 * b ≤ chunk.length * cs.bits_per_symbol) :
    ∃ d, decode_block cs b chunk = .ok d := by
  rcases decode_block_cases cs b chunk with ⟨what, herr⟩ | ⟨_, d, hd⟩
  · exfalso
    unfold decode_block at herr
    cases hp : cs.pow2 with
    | true =>
      rw [hp] at herr
      simp only [if_true] at herr
      rcases (decode_block_pow2_fails_iff cs chunk b).mp ⟨what, herr⟩ with ⟨c, hc, hbad⟩ | hlt
      · exact hbad (hall c hc)
      · have := hbits hp; omega
    | false =>
      rw [hp] at herr
      simp only [Bool.false_eq_true, if_false] at herr
      obtain ⟨c, hc, hbad⟩ := (decode_block_general_fails_iff cs chunk b).mp ⟨what, herr⟩
      exact hbad (hall c hc)
  · exact ⟨d, hd⟩

/-- The decode loop succeeds on a payload of alphabet bytes whose length is a multiple of
the chunk width `L ≥ 1` (in pow2 mode: with `8 * b ≤ L * k`). -/
theorem decode_loop_ok (cs : Charset) (b L : Nat) (hL : 1 ≤ L) (input : List Nat)
    (hdvd : L ∣ input.length) (hall : ∀ c ∈ input, c ∈ cs.symbols)
    (hbits : cs.pow2 = true → 8 * b ≤ L * cs.bits_per_symbol) :
    ∃ out, decode_loop cs b L input.length input = .ok out := by
  have hchunk : ∀ i, i < input.length / L →
      ∃ d, decode_block cs b ((input.drop (i * L)).take L) = .ok d := by
    intro i hi
    have hlen : ((input.drop (i * L)).take L).length = L := by
      rw [List.length_take, List.length_drop]
      have h1 : (i + 1) * L ≤ input.length / L * L := Nat.mul_le_mul_right L hi
      have h2 : input.length / L * L ≤ input.length := Nat.div_mul_le_self _ _
      have h3 : (i + 1) * L = i * L + L := by ring
      omega
    apply decode_block_ok
    · intro c hc
      exact hall c (List.mem_of_mem_drop (List.mem_of_mem_take hc))
    · intro hp
      rw [hlen]
      exact hbits hp
  have hds : ∀ i, i < input.length / L →
      decode_block cs b ((input.drop (i * L)).take L)
        = .ok (((decode_block cs b ((input.drop (i * L)).take L)).toOption).getD []) := by
    intro i hi
    obtain ⟨d, hd⟩ := hchunk i hi
    rw [hd]
    rfl
  exact ⟨_, (decode_loop_chunks cs b L hL (input.length / L) input.length input _ rfl
    (le_refl _) hds).1 hdvd⟩

/-! ## The container header -/

theorem u32_value_bytes (x : Nat) (hx : x < 2 ^ 32) : u32_value (u32_bytes x) = x := by
  simp only [u32_value, u32_bytes, List.getD_cons_zero, List.getD_cons_succ]
  omega

theorem u32_bytes_length (x : Nat) : (u32_bytes x).length = 4 := rfl

/-- The fixed record written by `write_header`, as 24 explicit bytes. -/
theorem write_header_eq (m : Metadata) :
    write_header m
      = (kMagic ++ u32_bytes kVersion ++ [if m.pow2 then 1 else 0] ++ [0, 0, 0]
          ++ u32_bytes (m.block_size % 2 ^ 32) ++ u32_bytes (m.output_length % 2 ^ 32)
          ++ u32_bytes (m.charset.length % 2 ^ 32)) ++ m.charset := rfl

theorem write_header_record_length (m : Metadata) :
    (kMagic ++ u32_bytes kVersion ++ [if m.pow2 then 1 else 0] ++ [0, 0, 0]
          ++ u32_bytes (m.block_size % 2 ^ 32) ++ u32_bytes (m.output_length % 2 ^ 32)
          ++ u32_bytes (m.charset.length % 2 ^ 32)).length = header_size := by
  simp [kMagic, u32_bytes, header_size]

theorem write_header_length (m : Metadata) :
    (write_header m).length = header_size + m.charset.length := by
  rw [write_header_eq, List.length_append, write_header_record_length]

/-- Reading back what `write_header` wrote returns the written fields, with the version
constant in place of the version field, and leaves the bytes that follow unread. -/
theorem read_write_header (m : Metadata) (rest : List Nat)
    (h1 : m.block_size < 2 ^ 32) (h2 : m.output_length < 2 ^ 32)
    (h3 : m.charset.length < 2 ^ 32) :
    read_header (write_header m ++ rest)
      = .ok (⟨kVersion, m.block_size, m.output_length, m.charset.length, m.pow2, m.charset⟩,
          rest) := by
  have htake : (write_header m ++ rest).take header_size
      = kMagic ++ u32_bytes kVersion ++ [if m.pow2 then 1 else 0] ++ [0, 0, 0]
          ++ u32_bytes (m.block_size % 2 ^ 32) ++ u32_bytes (m.output_length % 2 ^ 32)
          ++ u32_bytes (m.charset.length % 2 ^ 32) := by
    rw [write_header_eq, List.append_assoc]
    exact List.take_left' (write_header_record_length m)
  have hdrop : (write_header m ++ rest).drop header_size = m.charset ++ rest := by
    rw [write_header_eq, List.append_assoc]
    exact List.drop_left' (write_header_record_length m)
  have hmagic : (kMagic ++ u32_bytes kVersion ++ [if m.pow2 then 1 else 0] ++ [0, 0, 0]
          ++ u32_bytes (m.block_size % 2 ^ 32) ++ u32_bytes (m.output_length % 2 ^ 32)
          ++ u32_bytes (m.charset.length % 2 ^ 32)).take 4 = kMagic := rfl
  have hversion : u32_value (((kMagic ++ u32_bytes kVersion ++ [if m.pow2 then 1 else 0]
          ++ [0, 0, 0] ++ u32_bytes (m.block_size % 2 ^ 32)
          ++ u32_bytes (m.output_length % 2 ^ 32)
          ++ u32_bytes (m.charset.length % 2 ^ 32)).drop 4).take 4) = kVersion := rfl
  have hbs : u32_value (((kMagic ++ u32_bytes kVersion ++ [if m.pow2 then 1 else 0]
          ++ [0, 0, 0] ++ u32_bytes (m.block_size % 2 ^ 32)
          ++ u32_bytes (m.output_length % 2 ^ 32)
          ++ u32_bytes (m.charset.length % 2 ^ 32)).drop 12).take 4) = m.block_size := by
    have := u32_value_bytes (m.block_size % 2 ^ 32) (Nat.mod_lt _ (by norm_num))
    rw [Nat.mod_eq_of_lt h1] at this
    rw [Nat.mod_eq_of_lt h1]
    exact this
  have hol : u32_value (((kMagic ++ u32_bytes kVersion ++ [if m.pow2 then 1 else 0]
          ++ [0, 0, 0] ++ u32_bytes (m.block_size % 2 ^ 32)
          ++ u32_bytes (m.output_length % 2 ^ 32)
          ++ u32_bytes (m.charset.length % 2 ^ 32)).drop 16).take 4) = m.output_length := by
    have := u32_value_bytes (m.output_length % 2 ^ 32) (Nat.mod_lt _ (by norm_num))
    rw [Nat.mod_eq_of_lt h2] at this
    rw [Nat.mod_eq_of_lt h2]
    exact this
  have hcl : u32_value (((kMagic ++ u32_bytes kVersion ++ [if m.pow2 then 1 else 0]
          ++ [0, 0, 0] ++ u32_bytes (m.block_size % 2 ^ 32)
          ++ u32_bytes (m.output_length % 2 ^ 32)
          ++ u32_bytes (m.charset.length % 2 ^ 32)).drop 20).take 4) = m.charset.length := by
    have := u32_value_bytes (m.charset.length % 2 ^ 32) (Nat.mod_lt _ (by norm_num))
    rw [Nat.mod_eq_of_lt h3] at this
    rw [Nat.mod_eq_of_lt h3]
    exact this
  have hpow : decide ((kMagic ++ u32_bytes kVersion ++ [if m.pow2 then 1 else 0]
          ++ [0, 0, 0] ++ u32_bytes (m.block_size % 2 ^ 32)
          ++ u32_bytes (m.output_length % 2 ^ 32)
          ++ u32_bytes (m.charset.length % 2 ^ 32)).getD 8 0 ≠ 0) = m.pow2 := by
    cases m.pow2 <;> rfl
  have hlen : ((write_header m ++ rest).take header_size).length = header_size := by
    rw [htake]; exact write_header_record_length m
  unfold read_header
  simp only [hlen, ne_eq, not_true_eq_false, if_false, hdrop]
  simp only [htake, hmagic, hversion, hbs, hol, hcl, hpow, not_true_eq_false, if_false,
    List.take_left', List.drop_left', List.length_take, List.length_append]

theorem take_header_length (input : List Nat) :
    (input.take header_size).length ≠ header_size ↔ input.length < header_size := by
  rw [List.length_take]
  omega

theorem read_header_truncated (input : List Nat) (h : input.length < header_size) :
    read_header input = .error (.runtime_error "Failed to read header") := by
  unfold read_header
  simp only []
  rw [if_pos ((take_header_length input).mpr h)]

theorem read_header_bad_magic (input : List Nat) (h : header_size ≤ input.length)
    (hm : input.take 4 ≠ kMagic) :
    read_header input = .error (.runtime_error "Invalid header magic") := by
  have hlen : ¬ (input.take header_size).length ≠ header_size :=
    fun hne => absurd ((take_header_length input).mp hne) (by omega)
  have hm1 : (input.take header_size).take 4 ≠ kMagic := by
    rw [List.take_take]; exact hm
  unfold read_header
  simp only []
  rw [if_neg hlen, if_pos hm1]

theorem read_header_bad_version (input : List Nat) (h : header_size ≤ input.length)
    (hm : input.take 4 = kMagic)
    (hv : u32_value (((input.take header_size).drop 4).take 4) ≠ kVersion) :
    read_header input = .error (.runtime_error "Unsupported version") := by
  have hlen : ¬ (input.take header_size).length ≠ header_size :=
    fun hne => absurd ((take_header_length input).mp hne) (by omega)
  have hm1 : ¬ (input.take header_size).take 4 ≠ kMagic := by
    rw [List.take_take]; exact fun hne => hne hm
  unfold read_header
  simp only []
  rw [if_neg hlen, if_neg hm1, if_pos hv]

theorem read_header_short_charset (input : List Nat) (h : header_size ≤ input.length)
    (hm : input.take 4 = kMagic)
    (hv : u32_value (((input.take header_size).drop 4).take 4) = kVersion)
    (hc : input.length - header_size < u32_value (((input.take header_size).drop 20).take 4)) :
    read_header input = .error (.runtime_error "Incomplete charset in header") := by
  have hlen : ¬ (input.take header_size).length ≠ header_size :=
    fun hne => absurd ((take_header_length input).mp hne) (by omega)
  have hm1 : ¬ (input.take header_size).take 4 ≠ kMagic := by
    rw [List.take_take]; exact fun hne => hne hm
  have hv1 : ¬ u32_value (((input.take header_size).drop 4).take 4) ≠ kVersion :=
    fun hne => hne hv
  have hc1 : ((input.drop header_size).take
      (u32_value (((input.take header_size).drop 20).take 4))).length
      ≠ u32_value (((input.take header_size).drop 20).take 4) := by
    rw [List.length_take, List.length_drop]
    omega
  unfold read_header
  simp only []
  rw [if_neg hlen, if_neg hm1, if_neg hv1, if_pos hc1]

theorem read_header_complete (input : List Nat) (h : header_size ≤ input.length)
    (hm : input.take 4 = kMagic)
    (hv : u32_value (((input.take header_size).drop 4).take 4) = kVersion)
    (hc : u32_value (((input.take header_size).drop 20).take 4) ≤ input.length - header_size) :
    read_header input
      = .ok (⟨u32_value (((input.take header_size).drop 4).take 4),
          u32_value (((input.take header_size).drop 12).take 4),
          u32_value (((input.take header_size).drop 16).take 4),
          u32_value (((input.take header_size).drop 20).take 4),
          decide ((input.take header_size).getD 8 0 ≠ 0),
          (input.drop header_size).take (u32_value (((input.take header_size).drop 20).take 4))⟩,
        (input.drop header_size).drop
          (u32_value (((input.take header_size).drop 20).take 4))) := by
  have hlen : ¬ (input.take header_size).length ≠ header_size :=
    fun hne => absurd ((take_header_length input).mp hne) (by omega)
  have hm1 : ¬ (input.take header_size).take 4 ≠ kMagic := by
    rw [List.take_take]; exact fun hne => hne hm
  have hv1 : ¬ u32_value (((input.take header_size).drop 4).take 4) ≠ kVersion :=
    fun hne => hne hv
  have hc1 : ¬ ((input.drop header_size).take
      (u32_value (((input.take header_size).drop 20).take 4))).length
      ≠ u32_value (((input.take header_size).drop 20).take 4) := by
    rw [List.length_take, List.length_drop]
    omega
  unfold read_header
  simp only []
  rw [if_neg hlen, if_neg hm1, if_neg hv1, if_neg hc1]

/-! ## Bit packing of the pow2 encoder -/

theorem bits_value_append_singleton (l : List Nat) (v : Nat) :
    bits_value (l ++ [v]) = 2 * bits_value l + v := by
  simp [bits_value, List.foldl_append]

theorem bits_value_append_zeros (l : List Nat) (z : Nat) :
    bits_value (l ++ List.replicate z 0) = bits_value l * 2 ^ z := by
  induction z with
  | zero => simp
  | succ z ih =>
    rw [List.replicate_succ', ← List.append_assoc, bits_value_append_singleton, ih, pow_succ]
    ring

theorem bits_value_lt (l : List Nat) (hl : ∀ x ∈ l, x < 2) : bits_value l < 2 ^ l.length := by
  induction l using List.reverseRecOn with
  | nil => simp [bits_value]
  | append_singleton rest v ih =>
    have hv : v < 2 := hl v (by simp)
    have := ih (fun x hx => hl x (by simp [hx]))
    rw [bits_value_append_singleton, List.length_append, List.length_singleton, pow_succ]
    omega

/-- A complete group of a bit string is not changed by appending more bits. -/
theorem group_stable (S T : List Nat) (j k : Nat) (h : j * k + k ≤ S.length) :
    ((S ++ T).drop (j * k)).take k = (S.drop (j * k)).take k := by
  rw [List.drop_append_of_le_length (by omega)]
  exact List.take_append_of_le_length (by rw [List.length_drop]; omega)

theorem groups_stable (symbols S T : List Nat) (q k : Nat) (h : q * k ≤ S.length) :
    (List.range q).map (fun j => symbols.getD (bits_value (((S ++ T).drop (j * k)).take k)) 0)
      = (List.range q).map (fun j => symbols.getD (bits_value ((S.drop (j * k)).take k)) 0) := by
  apply List.map_congr_left
  intro j hj
  have hjq : j < q := List.mem_range.mp hj
  have : j * k + k ≤ q * k := by
    calc j * k + k = (j + 1) * k := by ring
      _ ≤ q * k := Nat.mul_le_mul_right k hjq
  rw [group_stable S T j k (by omega)]

/-- One bit of the pow2 encoder keeps the packing invariant for the bit string extended by
that bit. -/
theorem pow2_bit_step_pack (symbols : List Nat) (k b bit : Nat) (S : List Nat) (st : BitState)
    (hlen : symbols.length = 2 ^ k) (hinv : PackInv symbols k S st) :
    ∃ st1, pow2_bit_step symbols k b bit st = .ok st1
      ∧ PackInv symbols k (S ++ [(b >>> bit) &&& 1]) st1 := by
  obtain ⟨hS, h1, h2, h3, h4⟩ := hinv
  have hv := bit_lt_two b bit
  have hS1 : ∀ x ∈ S ++ [(b >>> bit) &&& 1], x < 2 := by
    intro x hx
    rcases List.mem_append.mp hx with hx | hx
    · exact hS x hx
    · rw [List.mem_singleton.mp hx]; exact hv
  have hdrop : (S ++ [(b >>> bit) &&& 1]).drop (st.digits.length * k)
      = S.drop (st.digits.length * k) ++ [(b >>> bit) &&& 1] :=
    List.drop_append_of_le_length (by omega)
  have hacc : (st.acc <<< 1) ||| ((b >>> bit) &&& 1)
      = bits_value (S.drop (st.digits.length * k) ++ [(b >>> bit) &&& 1]) := by
    rw [shift_or_bit _ _ hv, bits_value_append_singleton, h4]
  have hpendlen : (S.drop (st.digits.length * k) ++ [(b >>> bit) &&& 1]).length
      = st.acc_bits + 1 := by
    rw [List.length_append, List.length_drop, List.length_singleton]; omega
  have hold := groups_stable symbols S [(b >>> bit) &&& 1] st.digits.length k (by omega)
  by_cases hk : st.acc_bits + 1 = k
  · have hidx : (st.acc <<< 1) ||| ((b >>> bit) &&& 1) < symbols.length := by
      have hlt := bits_value_lt (S.drop (st.digits.length * k) ++ [(b >>> bit) &&& 1])
        (fun x hx => hS1 x (by
          rcases List.mem_append.mp hx with hx | hx
          · exact List.mem_append_left _ (List.mem_of_mem_drop hx)
          · exact List.mem_append_right _ hx))
      rw [hpendlen, hk] at hlt
      rw [hlen, hacc]
      exact hlt
    refine ⟨⟨st.digits ++ [symbols.getD ((st.acc <<< 1) ||| ((b >>> bit) &&& 1)) 0], 0, 0⟩,
      ?_, hS1, (by show 0 < k; omega), ?_, ?_, ?_⟩
    · simp only [pow2_bit_step, hk, if_true, symbol_at_of_lt _ _ hidx]
    · simp only [List.length_append, List.length_singleton]
      rw [h2, ← hk]; ring
    · show st.digits ++ [symbols.getD ((st.acc <<< 1) ||| ((b >>> bit) &&& 1)) 0]
        = (List.range (st.digits ++ [symbols.getD ((st.acc <<< 1) ||| ((b >>> bit) &&& 1)) 0]).length).map
          (fun j => symbols.getD
            (bits_value (((S ++ [(b >>> bit) &&& 1]).drop (j * k)).take k)) 0)
      rw [List.length_append, List.length_singleton, List.range_succ, List.map_append, hold,
        ← h3, List.map_singleton, hdrop, List.take_of_length_le (by rw [hpendlen, hk]), hacc]
    · show (0 : Nat) = bits_value ((S ++ [(b >>> bit) &&& 1]).drop
        ((st.digits ++ [symbols.getD ((st.acc <<< 1) ||| ((b >>> bit) &&& 1)) 0]).length * k))
      rw [List.drop_of_length_le]
      · rfl
      · simp only [List.length_append, List.length_singleton]
        rw [h2, ← hk]
        have : (st.digits.length + 1) * (st.acc_bits + 1)
            = st.digits.length * (st.acc_bits + 1) + st.acc_bits + 1 := by ring
        omega
  · refine ⟨⟨st.digits, (st.acc <<< 1) ||| ((b >>> bit) &&& 1), st.acc_bits + 1⟩,
      ?_, hS1, (by show st.acc_bits + 1 < k; omega), ?_, ?_, ?_⟩
    · simp only [pow2_bit_step, hk, if_false]
    · show (S ++ [(b >>> bit) &&& 1]).length = st.digits.length * k + (st.acc_bits + 1)
      rw [List.length_append, List.length_singleton, h2]; ring
    · show st.digits = (List.range st.digits.length).map
          (fun j => symbols.getD
            (bits_value (((S ++ [(b >>> bit) &&& 1]).drop (j * k)).take k)) 0)
      rw [hold, ← h3]
    · show (st.acc <<< 1) ||| ((b >>> bit) &&& 1)
        = bits_value ((S ++ [(b >>> bit) &&& 1]).drop (st.digits.length * k))
      rw [hdrop, hacc]

theorem pow2_bits_pack (symbols : List Nat) (k b : Nat) (hlen : symbols.length = 2 ^ k) :
    ∀ (bits S : List Nat) (st : BitState), PackInv symbols k S st →
    ∃ st1, pow2_bits symbols k b bits st = .ok st1
      ∧ PackInv symbols k (S ++ bits.map (fun bit => (b >>> bit) &&& 1)) st1 := by
  intro bits
  induction bits with
  | nil => intro S st h; exact ⟨st, rfl, by simpa using h⟩
  | cons bit rest ih =>
    intro S st h
    obtain ⟨st1, e1, h1⟩ := pow2_bit_step_pack symbols k b bit S st hlen h
    obtain ⟨st2, e2, h2⟩ := ih _ st1 h1
    refine ⟨st2, by simp only [pow2_bits, e1, e2], ?_⟩
    rw [List.map_cons]
    rw [show S ++ ((b >>> bit) &&& 1) :: rest.map (fun bit => (b >>> bit) &&& 1)
        = S ++ [(b >>> bit) &&& 1] ++ rest.map (fun bit => (b >>> bit) &&& 1) by simp]
    exact h2

theorem byte_bits_eq (b : Nat) :
    [7, 6, 5, 4, 3, 2, 1, 0].map (fun bit => (b >>> bit) &&& 1) = byte_bits b := by
  have hr : List.range 8 = [0, 1, 2, 3, 4, 5, 6, 7] := by decide
  simp [byte_bits, hr, Nat.shiftRight_eq_div_pow, Nat.and_one_is_mod]

theorem byte_bits_length (b : Nat) : (byte_bits b).length = 8 := by
  simp [byte_bits]

theorem bitstream_length (block : List Nat) : (bitstream block).length = 8 * block.length := by
  induction block with
  | nil => rfl
  | cons b rest ih =>
    simp only [bitstream, List.flatMap_cons, List.length_append, byte_bits_length,
      List.length_cons] at ih ⊢
    rw [ih]; ring

theorem pow2_bytes_pack (symbols : List Nat) (k : Nat) (hlen : symbols.length = 2 ^ k) :
    ∀ (data S : List Nat) (st : BitState), PackInv symbols k S st →
    ∃ st1, pow2_bytes symbols k data st = .ok st1
      ∧ PackInv symbols k (S ++ bitstream data) st1 := by
  intro data
  induction data with
  | nil => intro S st h; exact ⟨st, rfl, by simpa [bitstream] using h⟩
  | cons b rest ih =>
    intro S st h
    obtain ⟨st1, e1, h1⟩ := pow2_bits_pack symbols k b hlen [7, 6, 5, 4, 3, 2, 1, 0] S st h
    rw [byte_bits_eq] at h1
    obtain ⟨st2, e2, h2⟩ := ih _ st1 h1
    refine ⟨st2, by simp only [pow2_bytes, e1, e2], ?_⟩
    rw [List.append_assoc] at h2
    simpa [bitstream] using h2

/-! ## The pow2 encoder against its reference -/

theorem group_count_of_remainder (q k r : Nat) (hr : 0 < r) (hrk : r < k) :
    (q * k + r + k - 1) / k = q + 1 := by
  apply Nat.div_eq_of_lt_le
  · rw [Nat.add_mul]; omega
  · rw [Nat.succ_mul, Nat.add_mul]; omega

theorem group_count_exact (q k : Nat) (hk : 0 < k) : (q * k + k - 1) / k = q := by
  apply Nat.div_eq_of_lt_le
  · omega
  · rw [Nat.succ_mul]; omega

/-- The pow2 block encoder on a well-formed pow2 charset returns the reference encoding. -/
theorem encode_block_pow2_eq (cs : Charset) (hwf : WellFormed cs) (hp : cs.pow2 = true)
    (block : List Nat) (L : Nat) :
    encode_block_pow2 block cs L
      = .ok (pow2_reference cs.symbols cs.bits_per_symbol block L) := by
  have hk := hwf.pow2_bits hp
  have hlen : cs.symbols.length = 2 ^ cs.bits_per_symbol := by
    rw [hwf.length_eq, hwf.pow2_radix hp]
  have h0 : 0 < cs.symbols.length := by rw [hlen]; positivity
  have hinit : PackInv cs.symbols cs.bits_per_symbol [] ⟨[], 0, 0⟩ :=
    ⟨by simp, (by show 0 < cs.bits_per_symbol; omega), by simp, by simp, by simp [bits_value]⟩
  obtain ⟨st, e1, hS, a1, a2, a3, a4⟩ :=
    pow2_bytes_pack cs.symbols cs.bits_per_symbol hlen block [] ⟨[], 0, 0⟩ hinit
  rw [List.nil_append] at hS a2 a3 a4
  rw [bitstream_length] at a2
  by_cases hbits : st.acc_bits > 0
  · have hg : (8 * block.length + cs.bits_per_symbol - 1) / cs.bits_per_symbol
        = st.digits.length + 1 := by
      rw [a2]; exact group_count_of_remainder _ _ _ hbits a1
    have hpad : (st.digits.length + 1) * cs.bits_per_symbol - 8 * block.length
        = cs.bits_per_symbol - st.acc_bits := by
      rw [a2, Nat.add_mul]; omega
    have hpendlen : ((bitstream block).drop (st.digits.length * cs.bits_per_symbol)).length
        = st.acc_bits := by
      rw [List.length_drop, bitstream_length]; omega
    have hidxval : st.acc <<< (cs.bits_per_symbol - st.acc_bits)
        = bits_value ((bitstream block).drop (st.digits.length * cs.bits_per_symbol)
            ++ List.replicate (cs.bits_per_symbol - st.acc_bits) 0) := by
      rw [bits_value_append_zeros, Nat.shiftLeft_eq, a4]
    have hidx : st.acc <<< (cs.bits_per_symbol - st.acc_bits) < cs.symbols.length := by
      rw [hlen, hidxval]
      have hlt := bits_value_lt ((bitstream block).drop (st.digits.length * cs.bits_per_symbol)
            ++ List.replicate (cs.bits_per_symbol - st.acc_bits) 0)
        (fun x hx => by
          rcases List.mem_append.mp hx with hx | hx
          · exact hS x (List.mem_of_mem_drop hx)
          · rw [(List.mem_replicate.mp hx).2]; norm_num)
      rw [List.length_append, List.length_replicate, hpendlen] at hlt
      rwa [show st.acc_bits + (cs.bits_per_symbol - st.acc_bits) = cs.bits_per_symbol by omega]
        at hlt
    have hflush : pow2_flush cs.symbols cs.bits_per_symbol st
        = .ok (st.digits ++ [cs.symbols.getD (st.acc <<< (cs.bits_per_symbol - st.acc_bits)) 0]) := by
      simp only [pow2_flush, hbits, if_true, symbol_at_of_lt _ _ hidx]
    have hlast : (((bitstream block ++ List.replicate (cs.bits_per_symbol - st.acc_bits) 0).drop
          (st.digits.length * cs.bits_per_symbol)).take cs.bits_per_symbol)
        = (bitstream block).drop (st.digits.length * cs.bits_per_symbol)
            ++ List.replicate (cs.bits_per_symbol - st.acc_bits) 0 := by
      rw [List.drop_append_of_le_length (by rw [bitstream_length]; omega)]
      apply List.take_of_length_le
      rw [List.length_append, List.length_replicate, hpendlen]
      omega
    simp only [encode_block_pow2, e1, hflush, pad_front_eq _ _ _ h0, pow2_reference, hg, hpad,
      List.length_append, List.length_singleton]
    rw [List.range_succ, List.map_append,
      groups_stable cs.symbols (bitstream block) _ st.digits.length cs.bits_per_symbol
        (by rw [bitstream_length]; omega),
      ← a3, List.map_singleton, hlast, ← hidxval]
  · have hr : st.acc_bits = 0 := by omega
    have hg : (8 * block.length + cs.bits_per_symbol - 1) / cs.bits_per_symbol
        = st.digits.length := by
      rw [a2, hr, Nat.add_zero]; exact group_count_exact _ _ (by omega)
    have hpad : st.digits.length * cs.bits_per_symbol - 8 * block.length = 0 := by
      rw [a2]; omega
    have hflush : pow2_flush cs.symbols cs.bits_per_symbol st = .ok st.digits := by
      simp only [pow2_flush, hbits, if_false]
    simp only [encode_block_pow2, e1, hflush, pad_front_eq _ _ _ h0, pow2_reference, hg, hpad,
      List.replicate_zero, List.append_nil]
    rw [← a3]

/-! ## Short blocks and positional digits -/

theorem be_value_zeros_append (z : Nat) (s : List Nat) :
    be_value (List.replicate z 0 ++ s) = be_value s := by
  induction z with
  | zero => simp
  | succ z ih =>
    rw [List.replicate_succ, List.cons_append, be_value_cons, ih]
    simp

theorem be_value_all_zero (block : List Nat) (h : ∀ x ∈ block, x = 0) : be_value block = 0 := by
  have hrep : block = List.replicate block.length 0 := List.eq_replicate_iff.mpr ⟨rfl, h⟩
  have := be_value_zeros_append block.length []
  rw [List.append_nil] at this
  rw [hrep, this]
  rfl

/-- Serialising the value of a short digit string into `b` bytes puts the zero bytes in
front. -/
theorem be_bytes_short (s : List Nat) (b : Nat) (hlen : s.length ≤ b)
    (hs : ∀ x ∈ s, x < 256) :
    be_bytes b (be_value s) = List.replicate (b - s.length) 0 ++ s := by
  have hl : (List.replicate (b - s.length) 0 ++ s).length = b := by
    rw [List.length_append, List.length_replicate]; omega
  have hb : ∀ x ∈ List.replicate (b - s.length) 0 ++ s, x < 256 := by
    intro x hx
    rcases List.mem_append.mp hx with hx | hx
    · rw [(List.mem_replicate.mp hx).2]; norm_num
    · exact hs x hx
  have := be_bytes_value _ hb
  rw [hl, be_value_zeros_append] at this
  exact this

/-- The general codec on a block of at most `b` bytes: the encoding has `L` symbols and is
decoded to the block with zero bytes in front. -/
theorem general_short_block (cs : Charset) (hwf : WellFormed cs) (b L : Nat) (hb : 1 ≤ b)
    (hL : 256 ^ b ≤ cs.effective_radix ^ L) (s : List Nat) (hlen : s.length ≤ b)
    (hs : ∀ x ∈ s, x < 256) :
    ∃ e, encode_block_general s cs L = .ok e ∧ e.length = L
      ∧ decode_block_general e b cs = .ok (List.replicate (b - s.length) 0 ++ s) := by
  obtain ⟨e, h1, h2, _, h4⟩ := decode_encode_general cs hwf s hs L b
  refine ⟨e, h1, ?_, ?_⟩
  · have hL1 : 1 ≤ L := by
      by_contra h
      have h0 : L = 0 := by omega
      rw [h0, pow_zero] at hL
      have : 1 < 256 ^ b := Nat.one_lt_pow (by omega) (by norm_num)
      omega
    have hN : be_value s < cs.effective_radix ^ L := by
      have h6 := be_value_lt s hs
      have h7 : 256 ^ s.length ≤ 256 ^ b := Nat.pow_le_pow_right (by norm_num) hlen
      omega
    have := general_indices_length_le cs.effective_radix (be_value s) L hwf.two_le hL1 hN
    rw [h2]; omega
  · rw [h4, be_bytes_short s b hlen hs]

/-- Encode and decode loops on a payload that ends in a short block: the full blocks come
back unchanged and the short block comes back as given by `hshort`. -/
theorem stream_short_tail (cs : Charset) (b L : Nat) (hb : 1 ≤ b) (hL : 1 ≤ L)
    (hblock : ∀ s : List Nat, 1 ≤ s.length → s.length ≤ b → (∀ x ∈ s, x < 256) →
      ∃ e, encode_block cs L s = .ok e ∧ e.length = L
        ∧ decode_block cs b e = .ok (List.replicate (b - s.length) 0 ++ s)) :
    ∀ (q : Nat) (B : List Nat), B.length / b = q → ¬ b ∣ B.length → (∀ x ∈ B, x < 256) →
    ∀ fuel, B.length ≤ fuel →
    ∃ enc, encode_loop cs b L fuel B = .ok enc
      ∧ ∀ fuel1, enc.length ≤ fuel1 →
          decode_loop cs b L fuel1 enc
            = .ok (B.take (q * b) ++ List.replicate (b - B.length % b) 0 ++ B.drop (q * b)) := by
  intro q
  induction q with
  | zero =>
    intro B hq hnd hB fuel hfuel
    have hlt : B.length < b := (Nat.div_eq_zero_iff (by omega)).mp hq
    have hne : B ≠ [] := by rintro rfl; exact hnd (dvd_zero b)
    have hpos : 0 < B.length := List.length_pos.mpr hne
    obtain ⟨f, rfl⟩ : ∃ f, fuel = f + 1 := ⟨fuel - 1, by omega⟩
    have htake : B.take b = B := List.take_of_length_le (by omega)
    have hdrop : B.drop b = [] := List.drop_of_length_le (by omega)
    obtain ⟨e, he, hel, hdec⟩ := hblock B (by omega) (by omega) hB
    refine ⟨e ++ [], ?_, ?_⟩
    · apply encode_loop_step cs b L f B e [] hb hne (by rw [htake]; exact he)
      rw [hdrop]; exact encode_loop_nil cs b L f
    · intro fuel1 hfuel1
      rw [List.append_nil, hel] at hfuel1
      obtain ⟨f1, rfl⟩ : ∃ f1, fuel1 = f1 + 1 := ⟨fuel1 - 1, by omega⟩
      rw [decode_loop_step cs b L f1 e [] _ [] hL hel hdec (decode_loop_nil cs b L f1)]
      simp [Nat.mod_eq_of_lt hlt]
  | succ q ih =>
    intro B hq hnd hB fuel hfuel
    have hle : b ≤ B.length := by
      by_contra h
      have : B.length / b = 0 := Nat.div_eq_of_lt (by omega)
      omega
    have hne : B ≠ [] := by rintro rfl; exact hnd (dvd_zero b)
    obtain ⟨f, rfl⟩ : ∃ f, fuel = f + 1 := ⟨fuel - 1, by omega⟩
    have hrestlen : (B.drop b).length / b = q := by
      rw [List.length_drop]
      have := Nat.sub_mul_div B.length b 1 (by simpa using hle)
      rw [Nat.mul_one] at this
      rw [this, hq]; rfl
    have hrestnd : ¬ b ∣ (B.drop b).length := by
      rw [List.length_drop]
      intro h
      have := (Nat.dvd_add_right (dvd_refl b)).mpr h
      rw [Nat.add_sub_cancel' hle] at this
      exact hnd this
    have hmod : (B.drop b).length % b = B.length % b := by
      rw [List.length_drop]
      exact (Nat.mod_eq_sub_mod hle).symm
    obtain ⟨e, he, hel, hdec⟩ := hblock (B.take b) (by simp; omega) (by simp)
      (fun x hx => hB x (List.mem_of_mem_take hx))
    have hfulltake : (B.take b).length = b := by simp [hle]
    rw [hfulltake, Nat.sub_self, List.replicate_zero, List.nil_append] at hdec
    obtain ⟨enc, henc, hrt⟩ := ih (B.drop b) hrestlen hrestnd
      (fun x hx => hB x (List.mem_of_mem_drop hx)) f (by rw [List.length_drop]; omega)
    refine ⟨e ++ enc, encode_loop_step cs b L f B e enc hb hne he henc, ?_⟩
    intro fuel1 hfuel1
    rw [List.length_append, hel] at hfuel1
    obtain ⟨f1, rfl⟩ : ∃ f1, fuel1 = f1 + 1 := ⟨fuel1 - 1, by omega⟩
    rw [decode_loop_step cs b L f1 e enc (B.take b) _ hL hel hdec (hrt f1 (by omega)), hmod]
    have h1 : B.take ((q + 1) * b) = B.take b ++ (B.drop b).take (q * b) := by
      rw [show (q + 1) * b = b + q * b by ring, List.take_add]
    have h2 : B.drop ((q + 1) * b) = (B.drop b).drop (q * b) := by
      rw [List.drop_drop, show (q + 1) * b = b + q * b by ring]
    rw [h1, h2]
    simp

/-- The most-significant-first positional sum of a digit list is the value of its
reversal as a least-significant-first digit list. -/
theorem positional_sum (R : Nat) (ds : List Nat) :
    ∑ i in Finset.range ds.length, ds.getD i 0 * R ^ (ds.length - 1 - i)
      = Nat.ofDigits R ds.reverse := by
  induction ds with
  | nil => simp
  | cons d rest ih =>
    rw [List.length_cons, Finset.sum_range_succ', List.reverse_cons, Nat.ofDigits_append,
      Nat.ofDigits_singleton, List.length_reverse, ← ih]
    simp only [List.getD_cons_succ, List.getD_cons_zero, Nat.add_sub_cancel, Nat.sub_zero]
    have : ∀ i ∈ Finset.range rest.length,
        rest.getD i 0 * R ^ (rest.length - (i + 1)) = rest.getD i 0 * R ^ (rest.length - 1 - i) := by
      intro i _
      rw [Nat.sub_sub, Nat.add_comm 1 i]
    rw [Finset.sum_congr rfl this]
    ring

/-! ## Width, decode failures and header reading -/

/-- C12 (as stated, refuted): a file whose header stores `output_length = 0` (alphabet
`01`, block size 1) is decoded with success and empty output although its payload is the
byte `x`, which is not in the alphabet: a chunk width of 0 reads nothing. -/
theorem decode_foreign_byte_zero_width :
    (120 ∉ [48, 49])
      ∧ decode_file least_output_length
          ⟨fun _ => some [70, 76, 88, 66, 1, 0, 0, 0, 0, 0, 0, 0, 1, 0, 0, 0, 0, 0, 0, 0,
            2, 0, 0, 0, 48, 49, 120], fun _ => true, fun _ _ => false⟩
          "enc.txt" "out.bin" none 8 true = .ok [] := by
  decide

/-- C12 (amended): for every charset and chunk, `decode_block_general` throws exactly when
the chunk holds a byte outside `charset.symbols`; `decode_block_pow2` throws exactly when
the chunk holds such a byte or `chunk.length * bits_per_symbol < 8 * block_bytes`; and the
decode loop with a chunk width of at least 1 throws on every payload that holds a byte
outside the alphabet. -/
theorem decode_strict_membership (cs : Charset) (chunk : List Nat) (block_bytes : Nat) :
    ((∃ what, decode_block_general chunk block_bytes cs = .error (.runtime_error what))
        ↔ ∃ c ∈ chunk, c ∉ cs.symbols)
      ∧ ((∃ what, decode_block_pow2 chunk block_bytes cs = .error (.runtime_error what))
        ↔ (∃ c ∈ chunk, c ∉ cs.symbols)
          ∨ chunk.length * cs.bits_per_symbol < 8 * block_bytes)
      ∧ ∀ (L : Nat) (payload : List Nat), 1 ≤ L → (∃ c ∈ payload, c ∉ cs.symbols) →
          ∃ what, decode_loop cs block_bytes L payload.length payload
            = .error (.runtime_error what) :=
  ⟨decode_block_general_fails_iff cs chunk block_bytes,
    decode_block_pow2_fails_iff cs chunk block_bytes,
    fun L payload hL hbad =>
      decode_loop_foreign_byte cs block_bytes L hL payload.length payload (le_refl _) hbad⟩

/-- C12 witness: the pow2 charset built from `ABCDEFGHIJ` keeps `ABCDEFGH`; a chunk with
the dropped byte `I` is rejected. -/
theorem decode_strict_membership_witness :
    ∃ what, decode_block_pow2 [65, 65, 73] 1 ⟨[65, 66, 67, 68, 69, 70, 71, 72], 10, 8, 3, true⟩
      = .error (.runtime_error what) :=
  (decode_strict_membership ⟨[65, 66, 67, 68, 69, 70, 71, 72], 10, 8, 3, true⟩
    [65, 65, 73] 1).2.1.mpr (Or.inl ⟨73, by decide, by decide⟩)

/-- C13: partial block rejection.  In the decode loop with chunk width `L ≥ 1`, a payload
whose length is not a multiple of `L` makes the decode throw, and when every full chunk
decodes (chunk `i` to `ds i`) the throw is "Partial block encountered during decode"; a
payload whose length is a multiple of `L` and whose chunks all decode is decoded to the
concatenation of the decoded chunks in input order, the empty payload to the empty
output. -/
theorem partial_block_rejection (cs : Charset) (b L : Nat) (payload : List Nat)
    (ds : Nat → List Nat) (hL : 1 ≤ L) :
    (¬ L ∣ payload.length →
        ∃ what, decode_loop cs b L payload.length payload = .error (.runtime_error what))
      ∧ ((∀ i, i < payload.length / L →
            decode_block cs b ((payload.drop (i * L)).take L) = .ok (ds i)) →
          (¬ L ∣ payload.length → decode_loop cs b L payload.length payload
              = .error (.runtime_error "Partial block encountered during decode"))
          ∧ (L ∣ payload.length → decode_loop cs b L payload.length payload
              = .ok ((List.range (payload.length / L)).flatMap ds)))
      ∧ decode_loop cs b L 0 [] = .ok [] := by
  refine ⟨fun hnd => decode_loop_not_multiple cs b L hL _ payload (le_refl _) hnd, ?_,
    decode_loop_nil cs b L 0⟩
  intro hds
  obtain ⟨h1, h2⟩ := decode_loop_chunks cs b L hL (payload.length / L) payload.length payload ds
    rfl (le_refl _) hds
  exact ⟨h2, h1⟩

/-- C13 witness: alphabet `01`, block size 1, width 8; the nine-byte payload
`00000101` `0` ends in a partial chunk. -/
theorem partial_block_rejection_witness :
    decode_loop ⟨[48, 49], 2, 2, 0, false⟩ 1 8 9 [48, 48, 48, 48, 48, 49, 48, 49, 48]
      = .error (.runtime_error "Partial block encountered during decode") :=
  ((partial_block_rejection ⟨[48, 49], 2, 2, 0, false⟩ 1 8
    [48, 48, 48, 48, 48, 49, 48, 49, 48] (fun _ => [5]) (by decide)).2.1 (by decide)).1
    (by decide)

/-- C14 (as stated, refuted): `write_header` stores the constant version 1, so a metadata
value with `version = 2` is read back with `version = 1`. -/
theorem header_round_trip_version :
    read_header (write_header ⟨2, 8, 11, 2, false, [48, 49]⟩)
        = .ok (⟨1, 8, 11, 2, false, [48, 49]⟩, [])
      ∧ read_header (write_header ⟨2, 8, 11, 2, false, [48, 49]⟩)
        ≠ .ok (⟨2, 8, 11, 2, false, [48, 49]⟩, []) := by
  decide

/-- C14 (amended): for every metadata `m` with `charset_length = |charset|` (and 32-bit
fields), reading the bytes written by `write_header m` succeeds, returns `m` with the
version field set to the format version 1, hence `m` itself when `m.version = 1`, and
leaves exactly the bytes that follow the header unread. -/
theorem header_round_trip (m : Metadata) (rest : List Nat)
    (hlen : m.charset_length = m.charset.length)
    (h1 : m.block_size < 2 ^ 32) (h2 : m.output_length < 2 ^ 32)
    (h3 : m.charset_length < 2 ^ 32) :
    read_header (write_header m ++ rest) = .ok ({ m with version := kVersion }, rest)
      ∧ (m.version = kVersion → read_header (write_header m ++ rest) = .ok (m, rest)) := by
  have h := read_write_header m rest h1 h2 (by rw [← hlen]; exact h3)
  rw [← hlen] at h
  refine ⟨h, fun hv => ?_⟩
  rw [h, ← hv]

/-- C14 witness: the metadata of an encode run with alphabet `01`, block size 8. -/
theorem header_round_trip_witness :
    read_header (write_header ⟨1, 8, 64, 2, false, [48, 49]⟩ ++ [48, 49, 48])
      = .ok (⟨1, 8, 64, 2, false, [48, 49]⟩, [48, 49, 48]) :=
  (header_round_trip ⟨1, 8, 64, 2, false, [48, 49]⟩ [48, 49, 48] (by decide) (by decide)
    (by decide) (by decide)).2 (by decide)

/-- C15 (as stated, refuted): a complete record with good magic and version that
announces four alphabet bytes, followed by two bytes only, makes `read_header` throw
"Incomplete charset in header", a fourth way of failing. -/
theorem read_header_fourth_failure :
    read_header [70, 76, 88, 66, 1, 0, 0, 0, 0, 0, 0, 0, 1, 0, 0, 0, 8, 0, 0, 0,
        4, 0, 0, 0, 48, 49]
      = .error (.runtime_error "Incomplete charset in header") := by
  decide

/-- C15 (amended): `read_header` throws "Failed to read header" iff the input is shorter
than the fixed record; otherwise "Invalid header magic" iff the first four bytes are not
`FLXB`; otherwise "Unsupported version" iff the version field is not 1; otherwise
"Incomplete charset in header" iff fewer than `charset_length` bytes follow the record; and
these four are the only ways in which it fails. -/
theorem read_header_failures (input : List Nat) :
    (read_header input = .error (.runtime_error "Failed to read header")
        ↔ input.length < header_size)
      ∧ (header_size ≤ input.length →
          (read_header input = .error (.runtime_error "Invalid header magic")
            ↔ input.take 4 ≠ kMagic))
      ∧ (header_size ≤ input.length → input.take 4 = kMagic →
          (read_header input = .error (.runtime_error "Unsupported version")
            ↔ u32_value (((input.take header_size).drop 4).take 4) ≠ kVersion))
      ∧ (header_size ≤ input.length → input.take 4 = kMagic →
          u32_value (((input.take header_size).drop 4).take 4) = kVersion →
          (read_header input = .error (.runtime_error "Incomplete charset in header")
            ↔ input.length - header_size
                < u32_value (((input.take header_size).drop 20).take 4)))
      ∧ ∀ e, read_header input = .error e →
          e = .runtime_error "Failed to read header"
            ∨ e = .runtime_error "Invalid header magic"
            ∨ e = .runtime_error "Unsupported version"
            ∨ e = .runtime_error "Incomplete charset in header" := by
  by_cases hlen : input.length < header_size
  · have h := read_header_truncated input hlen
    refine ⟨⟨fun _ => hlen, fun _ => h⟩, fun h1 => absurd hlen (by omega),
      fun h1 => absurd hlen (by omega), fun h1 => absurd hlen (by omega), ?_⟩
    intro e he
    rw [h] at he
    exact Or.inl (Except.error.inj he).symm
  · have hle : header_size ≤ input.length := by omega
    by_cases hm : input.take 4 = kMagic
    · by_cases hv : u32_value (((input.take header_size).drop 4).take 4) = kVersion
      · by_cases hc : input.length - header_size
            < u32_value (((input.take header_size).drop 20).take 4)
        · have h := read_header_short_charset input hle hm hv hc
          rw [h]
          refine ⟨⟨fun he => absurd he (by decide), fun hl => absurd hl hlen⟩,
            fun _ => ⟨fun he => absurd he (by decide), fun hne => absurd hm hne⟩,
            fun _ _ => ⟨fun he => absurd he (by decide), fun hne => absurd hv hne⟩,
            fun _ _ _ => ⟨fun _ => hc, fun _ => rfl⟩, ?_⟩
          intro e he
          exact Or.inr (Or.inr (Or.inr (Except.error.inj he).symm))
        · have h := read_header_complete input hle hm hv (by omega)
          rw [h]
          refine ⟨⟨fun he => (by cases he), fun hl => absurd hl hlen⟩,
            fun _ => ⟨fun he => (by cases he), fun hne => absurd hm hne⟩,
            fun _ _ => ⟨fun he => (by cases he), fun hne => absurd hv hne⟩,
            fun _ _ _ => ⟨fun he => (by cases he), fun hlt => absurd hlt hc⟩, ?_⟩
          intro e he
          cases he
      · have h := read_header_bad_version input hle hm hv
        rw [h]
        refine ⟨⟨fun he => absurd he (by decide), fun hl => absurd hl hlen⟩,
          fun _ => ⟨fun he => absurd he (by decide), fun hne => absurd hm hne⟩,
          fun _ _ => ⟨fun _ => hv, fun _ => rfl⟩,
          fun _ _ hv1 => absurd hv1 hv, ?_⟩
        intro e he
        exact Or.inr (Or.inr (Or.inl (Except.error.inj he).symm))
    · have h := read_header_bad_magic input hle hm
      rw [h]
      refine ⟨⟨fun he => absurd he (by decide), fun hl => absurd hl hlen⟩,
        fun _ => ⟨fun _ => hm, fun _ => rfl⟩,
        fun _ hm1 => absurd hm1 hm, fun _ hm1 => absurd hm1 hm, ?_⟩
      intro e he
      exact Or.inr (Or.inl (Except.error.inj he).symm)

/-! ## Header contents, short blocks and digit strings -/

/-- C16 (as stated, refuted): a header with alphabet `01`, block size 1 and stored
`output_length = 4` is accepted although the width for block size 1 and radix 2 is
`⌈8 / log2 2⌉ = 8`; the payload `0101` is decoded with chunk width 4 to the byte 5. -/
theorem header_width_not_rederived :
    least_output_length 1 2 = 8
      ∧ decode_file least_output_length
          ⟨fun _ => some [70, 76, 88, 66, 1, 0, 0, 0, 0, 0, 0, 0, 1, 0, 0, 0, 4, 0, 0, 0,
            2, 0, 0, 0, 48, 49, 48, 49, 48, 49], fun _ => true, fun _ _ => false⟩
          "enc.txt" "out.bin" none 8 true = .ok [5] := by
  decide

/-- C16 (amended): in header-driven decode of an input that is not the output file, the
charset is rebuilt from the stored alphabet and pow2 flag and the payload is decoded with
the stored block size and with the stored `output_length` as chunk width.  The result is the
same for every function `compute_output_length`, so no width is derived and compared; and a
payload of alphabet bytes whose length is a multiple of a stored width of at least 1 (in
pow2 mode: a width that covers the bits of a block) is decoded with success. -/
theorem header_decode_uses_stored_width (compute_output_length : Nat → Nat → Nat)
    (fs : Files) (input_path output_path : String)
    (charset_override : Option Charset) (block_size_override : Nat)
    (input rest : List Nat) (m : Metadata) (cs : Charset)
    (hread : fs.read input_path = some input) (hwrite : fs.can_write output_path = true)
    (hpath : input_path ≠ output_path)
    (hfile : fs.same_file input_path output_path = false)
    (hheader : read_header input = .ok (m, rest))
    (hcs : build_charset m.charset m.pow2 = .ok cs) :
    decode_file compute_output_length fs input_path output_path charset_override
        block_size_override true
      = decode_loop cs m.block_size m.output_length rest.length rest
    ∧ (∀ other : Nat → Nat → Nat,
        decode_file other fs input_path output_path charset_override block_size_override true
          = decode_file compute_output_length fs input_path output_path charset_override
              block_size_override true)
    ∧ (1 ≤ m.output_length → m.output_length ∣ rest.length → (∀ c ∈ rest, c ∈ cs.symbols) →
        (cs.pow2 = true → 8 * m.block_size ≤ m.output_length * cs.bits_per_symbol) →
        ∃ out, decode_file compute_output_length fs input_path output_path charset_override
          block_size_override true = .ok out) := by
  have hin : input_after_truncate fs input_path output_path input = input := by
    simp [input_after_truncate, hpath, hfile]
  have key : ∀ w : Nat → Nat → Nat,
      decode_file w fs input_path output_path charset_override block_size_override true
        = decode_loop cs m.block_size m.output_length rest.length rest := by
    intro w
    simp only [decode_file, hread, hwrite, not_true_eq_false, if_false, if_true, hin, hheader,
      hcs]
  refine ⟨key _, fun other => by rw [key other, key compute_output_length], ?_⟩
  intro hL hdvd hall hbits
  rw [key]
  exact decode_loop_ok cs m.block_size m.output_length hL rest hdvd hall hbits

/-- C16 witness: a header with alphabet `01`, block size 1 and stored width 4, followed by
the payload `0101`. -/
theorem header_decode_uses_stored_width_witness :
    decode_file least_output_length
        ⟨fun _ => some [70, 76, 88, 66, 1, 0, 0, 0, 0, 0, 0, 0, 1, 0, 0, 0, 4, 0, 0, 0,
          2, 0, 0, 0, 48, 49, 48, 49, 48, 49], fun _ => true, fun _ _ => false⟩
        "enc.txt" "out.bin" none 8 true
      = decode_loop ⟨[48, 49], 2, 2, 0, false⟩ 1 4 4 [48, 49, 48, 49] :=
  (header_decode_uses_stored_width least_output_length
    ⟨fun _ => some [70, 76, 88, 66, 1, 0, 0, 0, 0, 0, 0, 0, 1, 0, 0, 0, 4, 0, 0, 0,
      2, 0, 0, 0, 48, 49, 48, 49, 48, 49], fun _ => true, fun _ _ => false⟩
    "enc.txt" "out.bin" none 8
    [70, 76, 88, 66, 1, 0, 0, 0, 0, 0, 0, 0, 1, 0, 0, 0, 4, 0, 0, 0,
      2, 0, 0, 0, 48, 49, 48, 49, 48, 49]
    [48, 49, 48, 49] ⟨1, 1, 4, 2, false, [48, 49]⟩ ⟨[48, 49], 2, 2, 0, false⟩
    rfl rfl (by decide) rfl (by decide) (by decide)).1

/-- C17 (as stated, refuted): with the general alphabet `0123456789abcdef`, block size 2
and `L = ⌈16 / log2 16⌉ = 4`, the short block `01` is encoded as `0001` and decoded to
`00 01`: the zero byte is in front, not behind. -/
theorem short_block_zero_in_front :
    least_output_length 2 16 = 4
      ∧ encode_block_general [1]
          ⟨[48, 49, 50, 51, 52, 53, 54, 55, 56, 57, 97, 98, 99, 100, 101, 102], 16, 16, 0,
            false⟩ 4 = .ok [48, 48, 48, 49]
      ∧ decode_block_general [48, 48, 48, 49] 2
          ⟨[48, 49, 50, 51, 52, 53, 54, 55, 56, 57, 97, 98, 99, 100, 101, 102], 16, 16, 0,
            false⟩ = .ok [0, 1] := by
  decide

/-- C17 (amended): in general mode a short block `s` of `m < b` bytes, encoded with any
output length, is decoded to `b - m` zero bytes followed by `s`; so with a width `L` such
that `radix ^ L ≥ 256 ^ b`, for a payload `B` of `n` bytes, `n` not a multiple of `b`,
`decode(encode(B))` has length `(n / b + 1) * b` and is the full blocks of `B`, then
`b - n mod b` zero bytes, then the last `n mod b` bytes of `B`. -/
theorem short_block_leading_zeros (raw : List Nat) (cs : Charset) (b L : Nat) (B : List Nat)
    (hcs : build_charset raw false = .ok cs) (hb : 1 ≤ b)
    (hL : 256 ^ b ≤ cs.effective_radix ^ L)
    (hbytes : ∀ x ∈ B, x < 256) (hnd : ¬ b ∣ B.length) :
    (∃ enc, encode_loop cs b L B.length B = .ok enc
        ∧ decode_loop cs b L enc.length enc
          = .ok (B.take (B.length / b * b) ++ List.replicate (b - B.length % b) 0
              ++ B.drop (B.length / b * b)))
      ∧ (B.take (B.length / b * b) ++ List.replicate (b - B.length % b) 0
          ++ B.drop (B.length / b * b)).length = (B.length / b + 1) * b
      ∧ ∀ (width : Nat) (s : List Nat), 1 ≤ s.length → s.length < b → (∀ x ∈ s, x < 256) →
          ∃ e, encode_block_general s cs width = .ok e
            ∧ decode_block_general e b cs = .ok (List.replicate (b - s.length) 0 ++ s) := by
  have hwf := build_charset_wellFormed hcs
  have hp : cs.pow2 = false := build_charset_flag hcs
  have hL1 : 1 ≤ L := by
    by_contra h
    have h0 : L = 0 := by omega
    rw [h0, pow_zero] at hL
    have : 1 < 256 ^ b := Nat.one_lt_pow (by omega) (by norm_num)
    omega
  refine ⟨?_, ?_, ?_⟩
  · obtain ⟨enc, h1, h2⟩ := stream_short_tail cs b L hb hL1
      (fun s _ h2 h3 => by
        obtain ⟨e, a1, a2, a3⟩ := general_short_block cs hwf b L hb hL s h2 h3
        exact ⟨e, by simp [encode_block, hp, a1], a2, by simp [decode_block, hp, a3]⟩)
      (B.length / b) B rfl hnd hbytes B.length (le_refl _)
    exact ⟨enc, h1, h2 enc.length (le_refl _)⟩
  · have h1 := Nat.div_add_mod B.length b
    have h2 : B.length % b < b := Nat.mod_lt _ (by omega)
    have h3 : B.length / b * b ≤ B.length := Nat.div_mul_le_self _ _
    simp only [List.length_append, List.length_take, List.length_replicate, List.length_drop]
    rw [Nat.min_eq_left h3, Nat.add_mul, Nat.one_mul]
    rw [Nat.mul_comm] at h1
    omega
  · intro width s _ h2 h3
    obtain ⟨e, a1, _, _, a4⟩ := decode_encode_general cs hwf s h3 width b
    exact ⟨e, a1, by rw [a4, be_bytes_short s b (by omega) h3]⟩

/-- C17 witness: alphabet `0123456789abcdef`, block size 2, width 4, payload
`07 08 01`. -/
theorem short_block_leading_zeros_witness :
    ∃ enc, encode_loop
          ⟨[48, 49, 50, 51, 52, 53, 54, 55, 56, 57, 97, 98, 99, 100, 101, 102], 16, 16, 0,
            false⟩ 2 4 3 [7, 8, 1] = .ok enc
      ∧ decode_loop
          ⟨[48, 49, 50, 51, 52, 53, 54, 55, 56, 57, 97, 98, 99, 100, 101, 102], 16, 16, 0,
            false⟩ 2 4 enc.length enc = .ok [7, 8, 0, 1] :=
  (short_block_leading_zeros
    [48, 49, 50, 51, 52, 53, 54, 55, 56, 57, 97, 98, 99, 100, 101, 102]
    ⟨[48, 49, 50, 51, 52, 53, 54, 55, 56, 57, 97, 98, 99, 100, 101, 102], 16, 16, 0, false⟩
    2 4 [7, 8, 1] (by decide) (by decide) (by decide) (by decide) (by decide)).1

/-- C19 (as stated, refuted): for the all-zero block `00` and output length 0 (the value 0
is below `2 ^ 0`), `encode_block_general` returns one symbol, not zero symbols. -/
theorem general_encode_zero_width :
    be_value [0] < 2 ^ 0
      ∧ encode_block_general [0] ⟨[48, 49], 2, 2, 0, false⟩ 0 = .ok [48] := by
  decide

/-- C19 (amended): for a general-mode charset with radix `R`, a block with big-endian value
`N` and an output length `L ≥ 1` with `N < R ^ L`, `encode_block_general` returns the
symbols `symbols[d_0] … symbols[d_(L-1)]` of `L` digits `d_i < R` with
`Σ d_i * R ^ (L - 1 - i) = N`; an all-zero block gives `L` copies of `symbols[0]`; and
`divide_bigint num R` returns `num mod R` and leaves `num div R` without a leading zero
digit. -/
theorem general_encode_positional (raw : List Nat) (cs : Charset) (block : List Nat) (L : Nat)
    (hcs : build_charset raw false = .ok cs) (hbytes : ∀ x ∈ block, x < 256)
    (hL : 1 ≤ L) (hN : be_value block < cs.effective_radix ^ L) :
    (∃ ds : List Nat, ds.length = L ∧ (∀ d ∈ ds, d < cs.effective_radix)
        ∧ encode_block_general block cs L = .ok (ds.map (fun d => cs.symbols.getD d 0))
        ∧ ∑ i in Finset.range L, ds.getD i 0 * cs.effective_radix ^ (L - 1 - i)
            = be_value block)
      ∧ ((∀ x ∈ block, x = 0) →
          encode_block_general block cs L = .ok (List.replicate L (cs.symbols.getD 0 0)))
      ∧ ∀ num : List Nat, (∀ x ∈ num, x < 256) →
          (divide_bigint num cs.effective_radix).2 = be_value num % cs.effective_radix
            ∧ be_value (divide_bigint num cs.effective_radix).1
                = be_value num / cs.effective_radix
            ∧ (divide_bigint num cs.effective_radix).1.head? ≠ some 0 := by
  have hwf := build_charset_wellFormed hcs
  have henc := encode_block_general_eq cs hwf block hbytes L
  have hlen := general_indices_length_le cs.effective_radix (be_value block) L hwf.two_le hL hN
  refine ⟨?_, ?_, ?_⟩
  · refine ⟨(general_indices cs.effective_radix (be_value block)
        ++ List.replicate (L - (general_indices cs.effective_radix (be_value block)).length)
          0).reverse, ?_, ?_, ?_, ?_⟩
    · rw [List.length_reverse, List.length_append, List.length_replicate]; omega
    · intro d hd
      rcases List.mem_append.mp (List.mem_reverse.mp hd) with hd | hd
      · exact general_indices_lt _ _ hwf.two_le d hd
      · rw [(List.mem_replicate.mp hd).2]; have := hwf.two_le; omega
    · rw [henc, List.map_reverse]
    · have hl : (general_indices cs.effective_radix (be_value block)
          ++ List.replicate (L - (general_indices cs.effective_radix (be_value block)).length)
            0).reverse.length = L := by
        rw [List.length_reverse, List.length_append, List.length_replicate]; omega
      have := positional_sum cs.effective_radix (general_indices cs.effective_radix (be_value block)
          ++ List.replicate (L - (general_indices cs.effective_radix (be_value block)).length)
            0).reverse
      rw [hl, List.reverse_reverse, Nat.ofDigits_append, ofDigits_replicate_zero,
        general_indices_value] at this
      simpa using this
  · intro hz
    have hN0 : be_value block = 0 := be_value_all_zero block hz
    rw [henc, hN0]
    have hgi : general_indices cs.effective_radix 0 = [0] := by simp [general_indices]
    rw [hgi]
    have : ([0] ++ List.replicate (L - [0].length) 0 : List Nat) = List.replicate L 0 := by
      obtain ⟨n, rfl⟩ : ∃ n, L = n + 1 := ⟨L - 1, by omega⟩
      simp [List.replicate_succ]
    rw [this]
    simp
  · intro num hnum
    obtain ⟨_, h2, h3, h4, _⟩ :=
      divide_bigint_spec num cs.effective_radix (by have := hwf.two_le; omega) hnum
    exact ⟨h4, h3, h2⟩

/-- C19 witness: the base58 alphabet, eight zero bytes and `L = 11` give eleven copies of
the symbol `1`. -/
theorem general_encode_positional_witness :
    encode_block_general [0, 0, 0, 0, 0, 0, 0, 0]
        ⟨[49, 50, 51, 52, 53, 54, 55, 56, 57, 65, 66, 67, 68, 69, 70, 71, 72, 74, 75, 76, 77,
          78, 80, 81, 82, 83, 84, 85, 86, 87, 88, 89, 90, 97, 98, 99, 100, 101, 102, 103, 104,
          105, 106, 107, 109, 110, 111, 112, 113, 114, 115, 116, 117, 118, 119, 120, 121, 122],
          58, 58, 0, false⟩ 11
      = .ok (List.replicate 11 49) :=
  (general_encode_positional
    [49, 50, 51, 52, 53, 54, 55, 56, 57, 65, 66, 67, 68, 69, 70, 71, 72, 74, 75, 76, 77,
      78, 80, 81, 82, 83, 84, 85, 86, 87, 88, 89, 90, 97, 98, 99, 100, 101, 102, 103, 104,
      105, 106, 107, 109, 110, 111, 112, 113, 114, 115, 116, 117, 118, 119, 120, 121, 122]
    ⟨[49, 50, 51, 52, 53, 54, 55, 56, 57, 65, 66, 67, 68, 69, 70, 71, 72, 74, 75, 76, 77,
      78, 80, 81, 82, 83, 84, 85, 86, 87, 88, 89, 90, 97, 98, 99, 100, 101, 102, 103, 104,
      105, 106, 107, 109, 110, 111, 112, 113, 114, 115, 116, 117, 118, 119, 120, 121, 122],
      58, 58, 0, false⟩
    [0, 0, 0, 0, 0, 0, 0, 0] 11 (by decide) (by decide) (by decide) (by decide)).2.1
    (by decide)

/-- C20: pow2 encoding is most-significant-bit-first packing with zero padding on the low
side.  For a charset built with `pow2 = true`, `k = bits_per_symbol`, any block of `m`
bytes and any output length `L`, `encode_block_pow2` returns `L - g` copies of
`symbols[0]` followed by the `g = ⌈8 * m / k⌉` symbols `symbols[v_j]`, where `v_j` is the
value of bits `[j * k, (j + 1) * k)` of the bitstream of the block extended on the right
with zero bits to length `g * k`. -/
theorem pow2_encode_bit_packing (raw : List Nat) (cs : Charset) (block : List Nat) (L : Nat)
    (hcs : build_charset raw true = .ok cs) :
    encode_block_pow2 block cs L
      = .ok (pow2_reference cs.symbols cs.bits_per_symbol block L) :=
  encode_block_pow2_eq cs (build_charset_wellFormed hcs) (build_charset_flag hcs) block L

/-- C20 witness: with the alphabet `0123456789abcdef` and `L = 2` the bytes `0x10`, `0x00`
and `0xFF` are encoded as `10`, `00` and `ff`; with the alphabet `01` and `L = 8` the byte
`0xA5` is encoded as `10100101`. -/
theorem pow2_encode_bit_packing_witness :
    encode_block_pow2 [16]
        ⟨[48, 49, 50, 51, 52, 53, 54, 55, 56, 57, 97, 98, 99, 100, 101, 102], 16, 16, 4, true⟩ 2
      = .ok (pow2_reference [48, 49, 50, 51, 52, 53, 54, 55, 56, 57, 97, 98, 99, 100, 101, 102]
          4 [16] 2)
      ∧ pow2_reference [48, 49, 50, 51, 52, 53, 54, 55, 56, 57, 97, 98, 99, 100, 101, 102]
          4 [16] 2 = [49, 48]
      ∧ pow2_reference [48, 49, 50, 51, 52, 53, 54, 55, 56, 57, 97, 98, 99, 100, 101, 102]
          4 [0] 2 = [48, 48]
      ∧ pow2_reference [48, 49, 50, 51, 52, 53, 54, 55, 56, 57, 97, 98, 99, 100, 101, 102]
          4 [255] 2 = [102, 102]
      ∧ pow2_reference [48, 49] 1 [165] 8 = [49, 48, 49, 48, 48, 49, 48, 49] :=
  ⟨pow2_encode_bit_packing [48, 49, 50, 51, 52, 53, 54, 55, 56, 57, 97, 98, 99, 100, 101, 102]
    ⟨[48, 49, 50, 51, 52, 53, 54, 55, 56, 57, 97, 98, 99, 100, 101, 102], 16, 16, 4, true⟩
    [16] 2 (by decide), by decide, by decide, by decide, by decide⟩

/-! ## Bit unpacking of the pow2 decoder -/

/-- The bits pushed by the pow2 decoder for the value of a `k`-bit group are the bits of
the group. -/
theorem symbol_bits_value (G : List Nat) (hG : ∀ x ∈ G, x < 2) :
    symbol_bits G.length (bits_value G) = G.map (fun x => decide (x = 1)) := by
  induction G using List.reverseRecOn with
  | nil => rfl
  | append_singleton rest v ih =>
    have hv : v < 2 := hG v (by simp)
    have hrest := ih (fun x hx => hG x (by simp [hx]))
    rw [List.length_append, List.length_singleton, bits_value_append_singleton]
    unfold symbol_bits at hrest ⊢
    rw [List.range_succ_eq_map, List.reverse_cons, List.map_append, List.map_append,
      ← hrest, List.map_singleton, List.map_singleton, ← List.map_reverse, List.map_map]
    congr 1
    · apply List.map_congr_left
      intro bit _
      simp only [Function.comp, Nat.shiftRight_eq_div_pow, Nat.and_one_is_mod, Nat.succ_eq_add_one,
        pow_succ]
      have : (2 * bits_value rest + v) / (2 ^ bit * 2) = bits_value rest / 2 ^ bit := by
        rw [Nat.mul_comm (2 ^ bit) 2, ← Nat.div_div_eq_div_mul]
        congr 1
        omega
      rw [this]
    · simp only [Nat.shiftRight_zero, Nat.and_one_is_mod]
      have : (2 * bits_value rest + v) % 2 = v := by omega
      rw [this]

/-- The bit vector built by the pow2 decoder from the symbols of the `k`-bit groups of a
bit string is that bit string. -/
theorem chunk_bits_groups (cs : Charset) (hwf : WellFormed cs) (hp : cs.pow2 = true) :
    ∀ (L : Nat) (S : List Nat), S.length = L * cs.bits_per_symbol → (∀ x ∈ S, x < 2) →
    chunk_bits cs ((List.range L).map (fun j => cs.symbols.getD
        (bits_value ((S.drop (j * cs.bits_per_symbol)).take cs.bits_per_symbol)) 0))
      = .ok (S.map (fun x => decide (x = 1))) := by
  have hlen : cs.symbols.length = 2 ^ cs.bits_per_symbol := by
    rw [hwf.length_eq, hwf.pow2_radix hp]
  intro L
  induction L with
  | zero =>
    intro S hS _
    have : S = [] := List.length_eq_zero.mp (by simpa using hS)
    subst this
    rfl
  | succ L ih =>
    intro S hS hbits
    have hle : cs.bits_per_symbol ≤ S.length := by rw [hS, Nat.succ_mul]; omega
    have htl : (S.take cs.bits_per_symbol).length = cs.bits_per_symbol := by
      rw [List.length_take]; omega
    have htb : ∀ x ∈ S.take cs.bits_per_symbol, x < 2 :=
      fun x hx => hbits x (List.mem_of_mem_take hx)
    have hidx : bits_value (S.take cs.bits_per_symbol) < cs.symbols.length := by
      have := bits_value_lt _ htb
      rw [htl] at this
      rw [hlen]; exact this
    have hrest := ih (S.drop cs.bits_per_symbol)
      (by rw [List.length_drop, hS, Nat.succ_mul]; omega)
      (fun x hx => hbits x (List.mem_of_mem_drop hx))
    have hshift : ((List.range L).map Nat.succ).map (fun j => cs.symbols.getD
          (bits_value ((S.drop (j * cs.bits_per_symbol)).take cs.bits_per_symbol)) 0)
        = (List.range L).map (fun j => cs.symbols.getD
          (bits_value (((S.drop cs.bits_per_symbol).drop (j * cs.bits_per_symbol)).take
            cs.bits_per_symbol)) 0) := by
      rw [List.map_map]
      apply List.map_congr_left
      intro j _
      simp only [Function.comp, Nat.succ_eq_add_one, List.drop_drop]
      rw [show (j + 1) * cs.bits_per_symbol = cs.bits_per_symbol + j * cs.bits_per_symbol by ring]
    have hsym := symbol_bits_value (S.take cs.bits_per_symbol) htb
    rw [htl] at hsym
    rw [List.range_succ_eq_map, List.map_cons, hshift]
    simp only [chunk_bits, Nat.zero_mul, List.drop_zero,
      index_in_charset_getD _ hwf.nodup _ hidx, hrest, hsym]
    rw [← List.map_append, List.take_append_drop]

theorem getD_byte_bits (x t : Nat) (ht : t < 8) :
    (byte_bits x).getD t 0 = (x / 2 ^ (7 - t)) % 2 := by
  have hr : List.range 8 = [0, 1, 2, 3, 4, 5, 6, 7] := by decide
  unfold byte_bits
  rw [hr]
  interval_cases t <;> rfl

/-- Bit `8 * n + t` of the bitstream of a block is bit `7 - t` of byte `n`. -/
theorem getD_bitstream (block : List Nat) : ∀ (n t : Nat), n < block.length → t < 8 →
    (bitstream block).getD (8 * n + t) 0 = (block.getD n 0 / 2 ^ (7 - t)) % 2 := by
  induction block with
  | nil => intro n t hn _; simp at hn
  | cons x rest ih =>
    intro n t hn ht
    cases n with
    | zero =>
      simp only [bitstream, List.flatMap_cons, Nat.mul_zero, Nat.zero_add, List.getD_cons_zero]
      rw [List.getD_append _ _ _ _ (by rw [byte_bits_length]; exact ht)]
      exact getD_byte_bits x t ht
    | succ n =>
      have hn1 : n < rest.length := by simpa using hn
      simp only [bitstream, List.flatMap_cons, List.getD_cons_succ]
      rw [List.getD_append_right _ _ _ _ (by rw [byte_bits_length]; omega), byte_bits_length,
        show 8 * (n + 1) + t - 8 = 8 * n + t by omega]
      exact ih n t hn1 ht

/-- One round of the repacking loop of the pow2 decoder ORs one bit into byte `i / 8`. -/
theorem pack_step_at (bits : List Bool) (pre post : List Nat) (v i : Nat)
    (hpre : pre.length = i / 8) :
    pack_step bits 0 (pre ++ v :: post) i
      = pre ++ (v ||| (((bits.getD i false).toNat <<< (7 - i % 8)) % 256)) :: post := by
  unfold pack_step
  simp only [Nat.zero_add, ← hpre]
  rw [List.getD_append_right _ _ _ _ (le_refl _), Nat.sub_self, List.getD_cons_zero,
    List.set_append_right _ _ (le_refl _), Nat.sub_self, List.set_cons_zero]

set_option maxRecDepth 20000 in
/-- Eight bits, most significant first, ORed into a zero byte give back the byte. -/
theorem byte_reassembled : ∀ x, x < 256 →
    ((((((((0 ||| (((decide ((x / 2 ^ 7) % 2 = 1)).toNat <<< 7) % 256))
      ||| (((decide ((x / 2 ^ 6) % 2 = 1)).toNat <<< 6) % 256))
      ||| (((decide ((x / 2 ^ 5) % 2 = 1)).toNat <<< 5) % 256))
      ||| (((decide ((x / 2 ^ 4) % 2 = 1)).toNat <<< 4) % 256))
      ||| (((decide ((x / 2 ^ 3) % 2 = 1)).toNat <<< 3) % 256))
      ||| (((decide ((x / 2 ^ 2) % 2 = 1)).toNat <<< 2) % 256))
      ||| (((decide ((x / 2 ^ 1) % 2 = 1)).toNat <<< 1) % 256))
      ||| (((decide ((x / 2 ^ 0) % 2 = 1)).toNat <<< 0) % 256)) = x := by
  decide

/-! ## The repacking loop of the pow2 decoder -/

theorem getD_stream_bits (block : List Nat) (n t : Nat) (hn : n < block.length) (ht : t < 8) :
    ((bitstream block).map (fun x => decide (x = 1))).getD (8 * n + t) false
      = decide ((block.getD n 0 / 2 ^ (7 - t)) % 2 = 1) := by
  have h := List.getD_map (f := fun x => decide (x = 1)) (l := bitstream block) (d := 0)
    (n := 8 * n + t)
  rw [getD_bitstream block n t hn ht] at h
  exact h

theorem range_eight_more (n : Nat) :
    List.range (8 * (n + 1))
      = List.range (8 * n) ++ [8 * n, 8 * n + 1, 8 * n + 2, 8 * n + 3, 8 * n + 4, 8 * n + 5,
          8 * n + 6, 8 * n + 7] := by
  rw [show 8 * (n + 1) = 8 * n + 8 by ring]
  simp [List.range_succ]

/-- The eight rounds of the repacking loop for byte `n` turn a zero byte into byte `n` of
the block. -/
theorem pack_byte (block : List Nat) (hbytes : ∀ x ∈ block, x < 256) (pre post : List Nat)
    (n : Nat) (hn : n < block.length) (hpre : pre.length = n) :
    [8 * n, 8 * n + 1, 8 * n + 2, 8 * n + 3, 8 * n + 4, 8 * n + 5, 8 * n + 6, 8 * n + 7].foldl
        (pack_step ((bitstream block).map (fun x => decide (x = 1))) 0) (pre ++ 0 :: post)
      = pre ++ block.getD n 0 :: post := by
  have hx : block.getD n 0 < 256 := by
    rw [List.getD_eq_getElem?_getD, List.getElem?_eq_getElem hn]
    exact hbytes _ (List.getElem_mem hn)
  have h0 := getD_stream_bits block n 0 hn (by norm_num)
  have h1 := getD_stream_bits block n 1 hn (by norm_num)
  have h2 := getD_stream_bits block n 2 hn (by norm_num)
  have h3 := getD_stream_bits block n 3 hn (by norm_num)
  have h4 := getD_stream_bits block n 4 hn (by norm_num)
  have h5 := getD_stream_bits block n 5 hn (by norm_num)
  have h6 := getD_stream_bits block n 6 hn (by norm_num)
  have h7 := getD_stream_bits block n 7 hn (by norm_num)
  rw [Nat.add_zero] at h0
  simp only [List.foldl_cons, List.foldl_nil]
  rw [pack_step_at _ pre post _ (8 * n) (by omega),
    pack_step_at _ pre post _ (8 * n + 1) (by omega),
    pack_step_at _ pre post _ (8 * n + 2) (by omega),
    pack_step_at _ pre post _ (8 * n + 3) (by omega),
    pack_step_at _ pre post _ (8 * n + 4) (by omega),
    pack_step_at _ pre post _ (8 * n + 5) (by omega),
    pack_step_at _ pre post _ (8 * n + 6) (by omega),
    pack_step_at _ pre post _ (8 * n + 7) (by omega),
    h0, h1, h2, h3, h4, h5, h6, h7,
    show (8 * n) % 8 = 0 by omega, show (8 * n + 1) % 8 = 1 by omega,
    show (8 * n + 2) % 8 = 2 by omega, show (8 * n + 3) % 8 = 3 by omega,
    show (8 * n + 4) % 8 = 4 by omega, show (8 * n + 5) % 8 = 5 by omega,
    show (8 * n + 6) % 8 = 6 by omega, show (8 * n + 7) % 8 = 7 by omega]
  have := byte_reassembled (block.getD n 0) hx
  simp only [Nat.sub_zero, Nat.sub_self, Nat.reduceSub] at this ⊢
  rw [this]

/-- The repacking loop of the pow2 decoder on the bitstream of a block rebuilds the
block, byte by byte. -/
theorem pack_fold (block : List Nat) (hbytes : ∀ x ∈ block, x < 256) :
    ∀ n, n ≤ block.length →
    (List.range (8 * n)).foldl
        (pack_step ((bitstream block).map (fun x => decide (x = 1))) 0)
        (List.replicate block.length 0)
      = block.take n ++ List.replicate (block.length - n) 0 := by
  intro n
  induction n with
  | zero => intro _; simp
  | succ n ih =>
    intro hn
    have hlt : n < block.length := by omega
    rw [range_eight_more, List.foldl_append, ih (by omega),
      show block.length - n = (block.length - (n + 1)) + 1 by omega, List.replicate_succ,
      pack_byte block hbytes _ _ n hlt (by rw [List.length_take]; omega)]
    rw [List.getD_eq_getElem?_getD, List.getElem?_eq_getElem hlt, Option.getD_some,
      List.take_succ, List.getElem?_eq_getElem hlt, Option.toList_some, List.append_assoc]
    rfl

/-! ## Aligned pow2 round trip -/

theorem bitstream_bits (block : List Nat) : ∀ x ∈ bitstream block, x < 2 := by
  intro x hx
  obtain ⟨b, _, hb⟩ := List.mem_flatMap.mp hx
  obtain ⟨i, _, rfl⟩ := List.mem_map.mp hb
  exact Nat.mod_lt _ (by norm_num)

/-- C21: pow2 round trip under alignment.  For a charset built with `pow2 = true`,
`k = bits_per_symbol`, a block size `b` with `k` dividing `8 * b` and `L = 8 * b / k`
(which is the exact width `⌈8 * b / log2 radix⌉`), every block of exactly `b` bytes is
encoded to `L` symbols carrying exactly its `8 * b` bits, and `decode_block_pow2` returns
the block. -/
theorem pow2_round_trip_aligned (raw : List Nat) (cs : Charset) (b : Nat) (block : List Nat)
    (hcs : build_charset raw true = .ok cs) (hdiv : cs.bits_per_symbol ∣ 8 * b)
    (hlen : block.length = b) (hbytes : ∀ x ∈ block, x < 256) :
    (∃ e, encode_block_pow2 block cs (8 * b / cs.bits_per_symbol) = .ok e
        ∧ e.length = 8 * b / cs.bits_per_symbol
        ∧ e.length * cs.bits_per_symbol = 8 * b
        ∧ decode_block_pow2 e b cs = .ok block)
      ∧ least_output_length b cs.effective_radix = 8 * b / cs.bits_per_symbol := by
  have hwf := build_charset_wellFormed hcs
  have hp : cs.pow2 = true := build_charset_flag hcs
  have hk := hwf.pow2_bits hp
  obtain ⟨c, hc⟩ := hdiv
  have hL : 8 * b / cs.bits_per_symbol = c := by
    rw [hc]; exact Nat.mul_div_cancel_left c (by omega)
  have hck : 8 * b = c * cs.bits_per_symbol := by rw [hc, Nat.mul_comm]
  constructor
  · have hg : (8 * block.length + cs.bits_per_symbol - 1) / cs.bits_per_symbol = c := by
      rw [hlen, hck]; exact group_count_exact c _ (by omega)
    have henc := encode_block_pow2_eq cs hwf hp block c
    have href : pow2_reference cs.symbols cs.bits_per_symbol block c
        = (List.range c).map (fun j => cs.symbols.getD
            (bits_value (((bitstream block).drop (j * cs.bits_per_symbol)).take
              cs.bits_per_symbol)) 0) := by
      simp only [pow2_reference, hg, Nat.sub_self, List.replicate_zero, List.nil_append]
      rw [hlen, ← hck, Nat.sub_self, List.replicate_zero, List.append_nil]
    have hbits := chunk_bits_groups cs hwf hp c (bitstream block)
      (by rw [bitstream_length, hlen, hck]) (bitstream_bits block)
    rw [hL]
    refine ⟨_, henc, ?_, ?_, ?_⟩
    · rw [href, List.length_map, List.length_range]
    · rw [href, List.length_map, List.length_range, hck]
    · rw [href]
      unfold decode_block_pow2
      rw [hbits]
      have hbl : ((bitstream block).map (fun x => decide (x = 1))).length = b * 8 := by
        rw [List.length_map, bitstream_length, hlen, Nat.mul_comm]
      simp only [hbl, Nat.lt_irrefl, if_false, Nat.sub_self]
      rw [Nat.mul_comm b 8]
      have := pack_fold block hbytes b (by omega)
      rw [hlen] at this
      rw [this, Nat.sub_self, List.replicate_zero, List.append_nil, ← hlen, List.take_length]
  · rw [hL, hwf.pow2_radix hp]
    apply le_antisymm
    · apply least_output_length_le b _ c
      · calc 2 = 2 ^ 1 := rfl
          _ ≤ 2 ^ cs.bits_per_symbol := Nat.pow_le_pow_right (by norm_num) hk
      · rw [show (256 : Nat) = 2 ^ 8 from rfl, ← pow_mul, ← pow_mul, hck, Nat.mul_comm]
    · have := least_output_length_pow2 b cs.bits_per_symbol hk
      rw [hck] at this
      exact Nat.le_of_mul_le_mul_right this (by omega)

/-- C21 witness: alphabet `0123456789abcdef` (k = 4), block size 2, block `AB 12`. -/
theorem pow2_round_trip_aligned_witness :
    ∃ e, encode_block_pow2 [171, 18]
          ⟨[48, 49, 50, 51, 52, 53, 54, 55, 56, 57, 97, 98, 99, 100, 101, 102], 16, 16, 4, true⟩
          (8 * 2 / 4) = .ok e
      ∧ e.length = 8 * 2 / 4
      ∧ e.length * 4 = 8 * 2
      ∧ decode_block_pow2 e 2
          ⟨[48, 49, 50, 51, 52, 53, 54, 55, 56, 57, 97, 98, 99, 100, 101, 102], 16, 16, 4, true⟩
        = .ok [171, 18] :=
  (pow2_round_trip_aligned [48, 49, 50, 51, 52, 53, 54, 55, 56, 57, 97, 98, 99, 100, 101, 102]
    ⟨[48, 49, 50, 51, 52, 53, 54, 55, 56, 57, 97, 98, 99, 100, 101, 102], 16, 16, 4, true⟩
    2 [171, 18] (by decide) (by decide) (by decide) (by decide)).1

/-! ## Widths below the exact ceiling -/

end fluxbase
